import Mathlib

/-!
# Layer-diff engine of lcfs (`lcfs/diff.c`)

A shallow embedding of the change-list store, the two directory comparators
(ordered walk and name lookup), the lookup of the pre-image directory, the path
builder, the hard-link walker, the reply serializer and the driver of `diff.c`,
followed by the properties proved about them.

Conventions of the embedding:

* a C string is the list of its bytes before the terminating NUL; a byte is a `Nat`;
* a singly linked list (`di_next`, `cf_next`, `cd_next`, `hl_next`) is a `List`,
  a pointer into it is the suffix that starts at the pointed node, `NULL` is `[]`;
* a function that can fail an `assert` or dereference `NULL` returns `Option`,
  `none` standing for the abort;
* 16-bit length fields are reduced modulo `2 ^ 16` where the source stores a sum.
-/

namespace Lcfs

/-! ## Data model -/

/-- Type of a change, `enum lc_changeType`. -/
inductive lc_changeType where
  | LC_NONE
  | LC_ADDED
  | LC_MODIFIED
  | LC_REMOVED
  deriving DecidableEq, Repr

open lc_changeType

/-- A changed file of a directory, `struct cfile` (`cf_next` is the list tail). -/
structure cfile where
  cf_name : List Nat
  cf_len : Nat
  cf_type : lc_changeType
  deriving DecidableEq, Repr

/-- A changed directory, `struct cdir` (`cd_next` is the list tail); `cd_path` is
`none` for a `NULL` path. -/
structure cdir where
  cd_ino : Nat
  cd_type : lc_changeType
  cd_path : Option (List Nat)
  cd_len : Nat
  cd_file : List cfile
  deriving DecidableEq, Repr

/-- A directory entry, `struct dirent` (`di_next` is the list tail). -/
structure dirent where
  di_ino : Nat
  di_name : List Nat
  di_size : Nat
  di_mode : Nat
  deriving DecidableEq, Repr

/-- The arguments of one `lc_addName` call, in the order of the source
(`fs`, `cdir` and `lastIno` are the same for every call of one walk). -/
structure addNameCall where
  ino : Nat
  name : List Nat
  mode : Nat
  len : Nat
  ctype : lc_changeType
  deriving DecidableEq, Repr

/-- The flag bits of `i_flags` that `diff.c` reads or writes. -/
structure iflags where
  LC_INODE_SHARED : Bool
  LC_INODE_DHASHED : Bool
  LC_INODE_MLINKS : Bool
  LC_INODE_REMOVED : Bool
  LC_INODE_CTRACKED : Bool
  deriving DecidableEq, Repr

/-- An inode, `struct inode`, with the fields `diff.c` uses; `i_fs` identifies
the owning layer, `i_dirent` is the flat list and `i_hdirent` the hash buckets. -/
structure inode where
  i_ino : Nat
  i_parent : Nat
  i_nlink : Nat
  i_size : Nat
  i_mode : Nat
  i_fs : Nat
  i_flags : iflags
  i_dirent : List dirent
  i_hdirent : List (List dirent)
  deriving DecidableEq, Repr

/-- One entry of the hard-link table, `struct hldata` (`hl_next` is the list tail). -/
structure hldata where
  hl_ino : Nat
  hl_parent : Nat
  hl_nlink : Nat
  deriving DecidableEq, Repr

/-! ## C library helpers -/

/-- The `strncmp` of C on two strings: the difference of the first bytes that
differ among the first `n`, both strings ending at their NUL. -/
def strncmp : List Nat → List Nat → Nat → Int
  | _, _, 0 => 0
  | [], [], _ + 1 => 0
  | [], y :: _, _ + 1 => -(y : Int)
  | x :: _, [], _ + 1 => (x : Int)
  | x :: xs, y :: ys, n + 1 =>
    if x ≠ y then (x : Int) - (y : Int)
    else if x = 0 then 0
    else strncmp xs ys n

/-- The `strcmp` of C on two strings. -/
def strcmp : List Nat → List Nat → Int
  | [], [] => 0
  | [], y :: _ => -(y : Int)
  | x :: _, [] => (x : Int)
  | x :: xs, y :: ys =>
    if x ≠ y then (x : Int) - (y : Int)
    else if x = 0 then 0
    else strcmp xs ys

/-- The `S_ISDIR` test of a mode: `(m & S_IFMT) == S_IFDIR` with
`S_IFMT = 0170000` and `S_IFDIR = 0040000`. -/
def S_ISDIR (mode : Nat) : Bool :=
  (mode / 4096) % 16 == 4

/-! ## Change-list store -/

/-- Return the type of change based on inode number. -/
def lc_changeInode (ino lastIno : Nat) : lc_changeType :=
  if ino > lastIno then LC_ADDED else LC_MODIFIED

/-- The test of the search loop of `lc_addFile` (and of `lc_addDirectoryPath`):
`(cfile->cf_len == len) && !strncmp(cfile->cf_name, name, len)`. -/
def sameName (cf : cfile) (name : List Nat) (len : Nat) : Bool :=
  cf.cf_len == len && strncmp cf.cf_name name len == 0

/-- The list walk of `lc_addFile`: search the first record of that name; when
one is found update it (or fail an assertion), otherwise link a new record at
the end of the list. -/
def lc_addFileList (name : List Nat) (len : Nat) (ctype : lc_changeType) :
    List cfile → Option (List cfile)
  | [] => some [{ cf_name := name, cf_len := len, cf_type := ctype }]
  | cf :: rest =>
    if sameName cf name len then
      if cf.cf_type = LC_REMOVED ∧ ctype = LC_ADDED then
        some ({ cf with cf_type := LC_MODIFIED } :: rest)
      else if (cf.cf_type = LC_ADDED ∨ cf.cf_type = LC_MODIFIED) ∧ ctype ≠ LC_REMOVED then
        some (cf :: rest)
      else none
    else (lc_addFileList name len ctype rest).map (fun l => cf :: l)

/-- Add a file to the change list: `lc_addFile`. The first assertion is on the
type of the directory record. -/
def lc_addFile (cd : cdir) (_ino : Nat) (name : List Nat) (len : Nat)
    (ctype : lc_changeType) : Option cdir :=
  if cd.cd_type = LC_REMOVED then none
  else (lc_addFileList name len ctype cd.cd_file).map (fun l => { cd with cd_file := l })

/-! ## Directory comparator: the ordered walk -/

/-- The `lc_addName` call that records parent entry `p` as removed. -/
def removedCall (p : dirent) : addNameCall :=
  ⟨p.di_ino, p.di_name, p.di_mode, p.di_size, LC_REMOVED⟩

/-- The `lc_addName` call that records child entry `d` as added. -/
def addedCall (d : dirent) : addNameCall :=
  ⟨d.di_ino, d.di_name, d.di_mode, d.di_size, LC_ADDED⟩

/-- The inner scan of the parent walk:
`while (dirent && (dirent->di_ino != pdirent->di_ino)) dirent = dirent->di_next`. -/
def scanIno (ino : Nat) : List dirent → List dirent
  | [] => []
  | d :: ds => if d.di_ino ≠ ino then scanIno ino ds else d :: ds

/-- The loop `while (pdirent)` of `lc_processDirectory` over one bucket: the
parent entries left, the child cursor `dirent` and the anchor `adirent`; it
returns the `lc_addName` calls in order and the final anchor. The calls are
listed as the walk makes them when every call returns; a call that fails an
assertion of `lc_addFile` ends the walk there (`callsMade`,
`lc_processBucketInto`). -/
def parentWalk : List dirent → List dirent → List dirent → List addNameCall × List dirent
  | [], _, adirent => ([], adirent)
  | p :: ps, dirent, adirent =>
    match scanIno p.di_ino dirent with
    | d :: rest =>
      let r := parentWalk ps rest (if adirent = [] then d :: rest else adirent)
      if d.di_size ≠ p.di_size ∨ strcmp p.di_name d.di_name ≠ 0 then
        (removedCall p :: addedCall d :: r.1, r.2)
      else r
    | [] =>
      let r := parentWalk ps dirent adirent
      (removedCall p :: r.1, r.2)

/-- The loop `while (dirent != adirent)` that processes the newly created
entries. Two pointers into the child list are equal when the suffixes they
start have the same length; a cursor that runs into `NULL` before it meets a
non-`NULL` anchor is a `NULL` dereference. -/
def newEntries (adirent : List dirent) : List dirent → Option (List addNameCall)
  | [] => if adirent = [] then some [] else none
  | d :: ds =>
    if (d :: ds).length = adirent.length then some []
    else (newEntries adirent ds).map (fun l => addedCall d :: l)

/-- One turn of the loop `for (i = 0; i < max; i++)` of `lc_processDirectory`:
the walk of parent bucket `pdirent` against child bucket `dirent`, as the list
of the `lc_addName` calls it makes when every call returns. -/
def lc_processBucket (pdirent dirent : List dirent) : Option (List addNameCall) :=
  let r := parentWalk pdirent dirent []
  (newEntries r.2 dirent).map (fun l => r.1 ++ l)

/-- The first `n` buckets of a hashed directory pair, in order. -/
def lc_processHashed (dir pdir : inode) : Nat → Option (List addNameCall)
  | 0 => some []
  | n + 1 =>
    match lc_processHashed dir pdir n with
    | none => none
    | some before =>
      (lc_processBucket (pdir.i_hdirent.getD n []) (dir.i_hdirent.getD n [])).map
        (fun l => before ++ l)

/-- Compare directory entries with parent layer: `lc_processDirectory`, as the
list of `lc_addName` calls it makes on `cdir`. `LC_DIRCACHE_SIZE` is the bucket
count of a hashed directory, `fs` identifies the layer of the call. -/
def lc_processDirectory (LC_DIRCACHE_SIZE : Nat) (fs : Nat) (dir pdir : inode) :
    Option (List addNameCall) :=
  if dir.i_fs ≠ fs ∨ dir.i_fs = pdir.i_fs then none
  else if dir.i_flags.LC_INODE_SHARED then some []
  else if dir.i_flags.LC_INODE_DHASHED then
    if pdir.i_flags.LC_INODE_DHASHED then lc_processHashed dir pdir LC_DIRCACHE_SIZE
    else none
  else if pdir.i_flags.LC_INODE_DHASHED then none
  else lc_processBucket pdir.i_dirent dir.i_dirent

/-! ## Layer state and `lc_addName` -/

/-- A layer, `struct fs`, with the fields the change list needs: `fs_id`
identifies the layer (what `i_fs` of its inodes points to), `fs_icache` lists
the inode cache in bucket order. -/
structure fs where
  fs_id : Nat
  fs_root : Nat
  fs_changes : List cdir
  fs_icache : List inode
  fs_hlinks : List hldata
  deriving DecidableEq, Repr

/-- The inode after `inode->i_flags |= LC_INODE_CTRACKED`. -/
def setTracked (i : inode) : inode :=
  { i with i_flags := { i.i_flags with LC_INODE_CTRACKED := true } }

/-- Set `LC_INODE_CTRACKED` on the first inode of number `ino` in the cache when
`lc_addName` asks for it: the part of `lc_addName` after `lc_addFile`. -/
def trackInode (fsid ino lastIno : Nat) : List inode → Option (List inode)
  | [] => some []
  | i :: rest =>
    if i.i_ino = ino then
      if ino > lastIno ∨ ¬ i.i_flags.LC_INODE_MLINKS then
        if i.i_fs = fsid then
          some (setTracked i :: rest)
        else none
      else some (i :: rest)
    else (trackInode fsid ino lastIno rest).map (fun l => i :: l)

/-- Add a record to the change list: `lc_addName` on the directory record at
position `k` of the change list. The directory branch goes through
`lc_getInode` and `lc_addDirectory`, taken as parameters; `lc_addDirectory`
returns the new state and the position of the record it answers. -/
def lc_addName (getInode : fs → Nat → Option inode)
    (addDirectory : fs → inode → List Nat → Nat → Nat → lc_changeType → Option (fs × Nat))
    (s : fs) (k : Nat) (lastIno : Nat) (c : addNameCall) : Option fs :=
  if S_ISDIR c.mode ∧ c.ctype ≠ LC_REMOVED then
    match getInode s c.ino with
    | none => none
    | some dir =>
      if ¬ dir.i_flags.LC_INODE_CTRACKED ∨ c.ctype = LC_ADDED then
        (addDirectory s dir c.name c.len lastIno c.ctype).map Prod.fst
      else some s
  else
    match s.fs_changes[k]? with
    | none => none
    | some cd =>
      match lc_addFile cd c.ino c.name c.len c.ctype with
      | none => none
      | some cd' =>
        let s' := { s with fs_changes := s.fs_changes.set k cd' }
        if c.ctype ≠ LC_REMOVED then
          (trackInode s.fs_id c.ino lastIno s.fs_icache).map
            (fun ic => { s' with fs_icache := ic })
        else some s'

/-- The calls of one walk applied in order to the layer state. -/
def runCalls (getInode : fs → Nat → Option inode)
    (addDirectory : fs → inode → List Nat → Nat → Nat → lc_changeType → Option (fs × Nat))
    (k : Nat) (lastIno : Nat) : fs → List addNameCall → Option fs
  | s, [] => some s
  | s, c :: cs =>
    match lc_addName getInode addDirectory s k lastIno c with
    | none => none
    | some s' => runCalls getInode addDirectory k lastIno s' cs

/-! ## Directory comparator: the name lookup -/

/-- The buckets the loops `for (i = 0; i < max; i++)` of `lc_compareDirectory`
visit: `i_hdirent[0 .. LC_DIRCACHE_SIZE - 1]` for a hashed directory, `i_dirent`
alone otherwise. -/
def dirBuckets (LC_DIRCACHE_SIZE : Nat) (dir : inode) : List (List dirent) :=
  if dir.i_flags.LC_INODE_DHASHED then
    (List.range LC_DIRCACHE_SIZE).map (fun i => dir.i_hdirent.getD i [])
  else [dir.i_dirent]

/-- Modelled from the spec: `lc_dirLookup`, the accessor "lookup dirent by name"
of the directory storage, outside `diff.c`: the inode number of the entry of
that name among the entries of the directory, `none` standing for
`LC_INVALID_INODE`. -/
def lc_dirLookup (LC_DIRCACHE_SIZE : Nat) (dir : inode) (name : List Nat) : Option Nat :=
  ((dirBuckets LC_DIRCACHE_SIZE dir).flatten.find? (fun d => strcmp d.di_name name == 0)).map
    dirent.di_ino

/-- One of the two scans of `lc_compareDirectory` from bucket `i` on: `emit` is
what the body of `while (dirent)` calls for an entry, `count` the entries
visited so far; the scan ends after the bucket at which `count` reaches the
size of the directory. -/
def scanBuckets (emit : dirent → List addNameCall) (size : Nat) :
    Nat → List (List dirent) → List addNameCall
  | _, [] => []
  | count, b :: bs =>
    b.flatMap emit ++
      (if count + b.length = size then [] else scanBuckets emit size (count + b.length) bs)

/-- Compare a newly created directory with the directory in the parent layer
with the same path: `lc_compareDirectory`, as the list of `lc_addName` calls it
makes on `cdir`. `dirLookup` is `lc_dirLookup` (`none` for `LC_INVALID_INODE`),
`pdir` is `none` for `NULL`; `dir == fs->fs_rootInode` holds for the inode of
the root number of the layer `s`. -/
def lc_compareDirectory (LC_DIRCACHE_SIZE : Nat) (dirLookup : inode → List Nat → Option Nat)
    (s : fs) (dir : inode) (pdir : Option inode) : Option (List addNameCall) :=
  match pdir with
  | some pd =>
    if ((dir.i_ino = s.fs_root ∧ dir.i_fs = s.fs_id) ∨ pd.i_ino = dir.i_ino) ∧
        dir.i_flags.LC_INODE_DHASHED = pd.i_flags.LC_INODE_DHASHED then
      lc_processDirectory LC_DIRCACHE_SIZE s.fs_id dir pd
    else
      some (scanBuckets (fun d => if dirLookup pd d.di_name = none then [addedCall d] else [])
          dir.i_size 0 (dirBuckets LC_DIRCACHE_SIZE dir) ++
        scanBuckets (fun p => if dirLookup dir p.di_name = none then [removedCall p] else [])
          pd.i_size 0 (dirBuckets LC_DIRCACHE_SIZE pd))
  | none =>
    some (scanBuckets (fun d => [addedCall d]) dir.i_size 0 (dirBuckets LC_DIRCACHE_SIZE dir))

/-- A hashed directory of inode 7 in layer 1 with three entries in two of its
four buckets. -/
def sampleHashed : inode :=
  ⟨7, 2, 2, 3, 16877, 1, ⟨false, true, false, false, false⟩, [],
    [[⟨8, [97], 1, 33188⟩], [], [⟨9, [98], 1, 33188⟩, ⟨10, [99], 1, 16877⟩], []]⟩

/-- A flat directory of inode 7 in layer 1 with the entries "x" of inode 9 and
"n" of inode 10. -/
def sampleNew : inode :=
  ⟨7, 2, 2, 2, 16877, 1, ⟨false, false, false, false, false⟩,
    [⟨9, [120], 1, 33188⟩, ⟨10, [110], 1, 33188⟩], []⟩

/-- The directory of the same path in the parent layer 0, of inode 4, with the
entries "x" of inode 5 and "o" of inode 6. -/
def sampleOld : inode :=
  ⟨4, 2, 2, 2, 16877, 0, ⟨false, false, false, false, false⟩,
    [⟨5, [120], 1, 33188⟩, ⟨6, [111], 1, 33188⟩], []⟩

/-! ## Path builder -/

/-- Modelled from the spec: the length fields `cd_len` and `cf_len` of the change
records are declared in a header outside `diff.c`; they are taken 16 bits wide,
like the wire field `len: u16` they are copied to and like the `uint16_t`
variables of `diff.c` that carry them, so a stored sum is reduced modulo `2 ^ 16`. -/
def u16 (n : Nat) : Nat :=
  n % 65536

/-- The search `while (cdir && (cdir->cd_ino != parent)) cdir = cdir->cd_next`
from the head of the change list: the position of the first record of that
inode number. -/
def findCdir (parent : Nat) : List cdir → Option Nat
  | [] => none
  | c :: cs => if c.cd_ino = parent then some 0 else (findCdir parent cs).map (fun k => k + 1)

/-- The `memcpy` of `n` bytes out of a buffer: reading past the end of the
buffer is no defined behaviour. -/
def memcpy (src : List Nat) (n : Nat) : Option (List Nat) :=
  if n ≤ src.length then some (src.take n) else none

/-- The search of `lc_addDirectoryPath` for a file record of the name:
the first such record and the list with that record unlinked. -/
def removedEntry (name : List Nat) (len : Nat) : List cfile → Option (cfile × List cfile)
  | [] => none
  | cf :: rest =>
    if sameName cf name len then some (cf, rest)
    else (removedEntry name len rest).map (fun r => (r.1, cf :: r.2))

/-- The step "Lookup name if not known" of `lc_addDirectoryPath`: the name and
length passed, or those of the entry `lc_getDirent` answers when `len == 0`. -/
def entryName (getDirent : fs → Nat → Nat → Option dirent) (s : fs) (parent ino : Nat)
    (name : List Nat) (len : Nat) : Option (List Nat × Nat) :=
  if len = 0 then (getDirent s parent ino).map (fun d => (d.di_name, d.di_size))
  else some (name, len)

/-- The step "Check if there is a removed entry for this name": the file list of
the parent record and the type of the new record afterwards. -/
def checkRemoved (cd : cdir) (newType : lc_changeType) (name : List Nat) (len : Nat) :
    Option (List cfile × lc_changeType) :=
  if cd.cd_type = LC_MODIFIED then
    match removedEntry name len cd.cd_file with
    | none => some (cd.cd_file, newType)
    | some (cf, files) =>
      if newType = LC_ADDED ∧ cf.cf_type = LC_REMOVED then some (files, LC_MODIFIED)
      else none
  else some (cd.cd_file, newType)

/-- The step "Prepare complete path": the length stored in `cd_len`, which is
the number of bytes `lc_malloc` is asked for, and the bytes the two `memcpy`
and the store of the slash write from the start of that buffer, for a directory
named `name` under the record `cd`. The name is copied out of its buffer, which
ends with the NUL. The sum of the lengths is kept in 16 bits: when it wraps,
the bytes written outnumber the bytes allocated (`pathOverrun`). -/
def buildPath (cd : cdir) (name : List Nat) (len : Nat) : Option (Nat × List Nat) :=
  let plen := if cd.cd_len > 1 then cd.cd_len else 0
  let head : Option (List Nat) :=
    if plen = 0 then some []
    else
      match cd.cd_path with
      | none => none
      | some path => memcpy path plen
  match head, memcpy (name ++ [0]) len with
  | some h, some n => some (u16 (plen + len + 1), h ++ 47 :: n)
  | _, _ => none

/-- The writes of the step "Prepare complete path" run past the buffer:
`lc_malloc` was asked for `r.1` bytes and `r.2` are the bytes written from the
start of the buffer. -/
def pathOverrun (r : Nat × List Nat) : Prop :=
  r.1 < r.2.length

/-- Add the directory to the change list: `lc_addDirectoryPath`. `new` is the
record the caller allocated, `cdir` the position of the parent record when the
caller knows it (`none` for `NULL`), `getDirent` the call
`lc_getDirent(fs, parent, ino, NULL, NULL)`. -/
def lc_addDirectoryPath (getDirent : fs → Nat → Nat → Option dirent) (s : fs)
    (ino parent : Nat) (new : cdir) (cdir : Option Nat) (name : List Nat) (len : Nat) :
    Option fs :=
  if ino = s.fs_root then
    if s.fs_changes = [] then
      some { s with fs_changes := [{ new with cd_len := 1, cd_path := some [47] }] }
    else none
  else
    match (match cdir with
      | some k => some k
      | none => findCdir parent s.fs_changes) with
    | none => none
    | some k =>
      match s.fs_changes[k]? with
      | none => none
      | some cd =>
        if cd.cd_ino = parent then
          match entryName getDirent s parent ino name len with
          | none => none
          | some (name', len') =>
            match checkRemoved cd new.cd_type name' len', buildPath cd name' len' with
            | some (files, type), some (plen, path) =>
              some { s with fs_changes :=
                s.fs_changes.take k ++ { cd with cd_file := files } ::
                  { new with cd_type := type, cd_len := plen, cd_path := some path } ::
                  s.fs_changes.drop (k + 1) }
            | _, _ => none
        else none

/-- The parent-first ordering of a change list, for the parent relation `par`
on inode numbers: every record but the root's comes after a record of its
parent directory. -/
def parentFirst (par : Nat → Nat) (root : Nat) (l : List cdir) : Prop :=
  ∀ (pre : List cdir) (c : cdir) (post : List cdir), l = pre ++ c :: post → c.cd_ino ≠ root →
    ∃ c' ∈ pre, c'.cd_ino = par c.cd_ino

/-! ## Pre-image lookup -/

/-- The C string a buffer holds: its bytes before the first NUL. -/
def cstring (buf : List Nat) : List Nat :=
  buf.takeWhile (fun b => b ≠ 0)

/-- The two lines `ino = lc_dirLookup(fs, dir, name); dir = (ino ==
LC_INVALID_INODE) ? NULL : lc_getInode(fs, ino, NULL, false, false);` of
`lc_pathLookup`: `name` is the buffer filled so far, closed by a NUL. -/
def lookupStep (dirLookup : inode → List Nat → Option Nat) (getInode : Nat → Option inode)
    (dir : inode) (name : List Nat) : Option inode :=
  (dirLookup dir (cstring name)).bind getInode

/-- The loop `while (i < len)` of `lc_pathLookup` with the lookup of the last
component and the final test after it: `dir` is the directory reached, `name`
the `j` bytes of the component read so far, the last argument the bytes
`path[i .. len - 1]`. A `break` leaves the loop with `j == 0` and a `dir` that
is `NULL` or no directory, so the function answers `NULL`. -/
def pathLoop (dirLookup : inode → List Nat → Option Nat) (getInode : Nat → Option inode) :
    inode → List Nat → List Nat → Option inode
  | dir, name, [] =>
    if name ≠ [] then
      match lookupStep dirLookup getInode dir name with
      | some d => if S_ISDIR d.i_mode then some d else none
      | none => none
    else if S_ISDIR dir.i_mode then some dir else none
  | dir, name, c :: rest =>
    if c = 47 then
      if name ≠ [] then
        match lookupStep dirLookup getInode dir name with
        | some d =>
          if S_ISDIR d.i_mode then pathLoop dirLookup getInode d [] rest else none
        | none => none
      else pathLoop dirLookup getInode dir name rest
    else pathLoop dirLookup getInode dir (name ++ [c]) rest

/-- Lookup the specified directory in the layer: `lc_pathLookup`, from the root
inode `root` of the layer, with `lc_dirLookup` and `lc_getInode` of that layer.
The outer `none` is the failed assertion `path[0] == '/'` or a read past the
`len` bytes of the path; the inner `none` is `NULL`. -/
def lc_pathLookup (dirLookup : inode → List Nat → Option Nat) (getInode : Nat → Option inode)
    (root : inode) (path : List Nat) (len : Nat) : Option (Option inode) :=
  if path.head? = some 47 ∧ len ≤ path.length then
    some (pathLoop dirLookup getInode root [] ((path.take len).drop 1))
  else none

/-- The components of an absolute path, after the words of the spec: the bytes
after the leading slash cut at every slash, the empty pieces left out. -/
def components (path : List Nat) : List (List Nat) :=
  ((path.drop 1).splitOn 47).filter (fun c => c ≠ [])

/-- The walk of the components after the words of the spec: every component
resolves in turn by the lookup `look` in the directory reached so far, and
every inode resolved is a directory; the answer is the last inode reached. -/
def resolvePath (look : inode → List Nat → Option inode) : inode → List (List Nat) → Option inode
  | dir, [] => some dir
  | dir, c :: cs =>
    match look dir c with
    | some d => if S_ISDIR d.i_mode then resolvePath look d cs else none
    | none => none

/-- The directory `pdir` that `lc_addDirectoryTree` looks up for the record `cd`
of the directory `dir`: the root inode of the parent layer for the root
directory of the layer, otherwise the answer of `lc_pathLookup` in the parent
layer for the path of the record. -/
def preImage (dirLookup : inode → List Nat → Option Nat) (getInode : Nat → Option inode)
    (parentRoot : inode) (s : fs) (dir : inode) (cd : cdir) : Option (Option inode) :=
  if dir.i_ino = s.fs_root ∧ dir.i_fs = s.fs_id then some (some parentRoot)
  else
    match cd.cd_path with
    | none => none
    | some path => lc_pathLookup dirLookup getInode parentRoot path cd.cd_len

/-- Add the whole directory tree to the change list: `lc_addDirectoryTree` for
the directory `dir` with its record at position `k` of the change list, `pcdir`
the position of the record of the parent directory (`none` for `NULL`);
`dirLookup`, `getInode` and `parentRoot` are those of the parent layer. It
answers the layer after the type of the record is set, and the parent directory
handed to `lc_compareDirectory` (`none` for `NULL`); that call is recorded, not
carried out. -/
def lc_addDirectoryTree (dirLookup : inode → List Nat → Option Nat)
    (getInode : Nat → Option inode) (parentRoot : inode) (s : fs) (dir : inode) (k : Nat)
    (pcdir : Option Nat) : Option (fs × Option inode) :=
  match (match pcdir with
    | some p => some p
    | none => findCdir dir.i_parent s.fs_changes) with
  | none => none
  | some p =>
    match s.fs_changes[p]? with
    | none => none
    | some pcd =>
      if pcd.cd_type = LC_MODIFIED then
        match s.fs_changes[k]? with
        | none => none
        | some cd =>
          match preImage dirLookup getInode parentRoot s dir cd with
          | none => none
          | some none => some (s, none)
          | some (some pdir) =>
            some ({ s with fs_changes := s.fs_changes.set k { cd with cd_type := LC_MODIFIED } },
              if pdir.i_size ≠ 0 then some pdir else none)
      else some (s, none)

/-- The root directory of the parent layer 0, with the one entry "d" of inode 4. -/
def oldRoot : inode :=
  ⟨2, 2, 3, 1, 16877, 0, ⟨false, false, false, false, false⟩, [⟨4, [100], 1, 16877⟩], []⟩

/-- The directory "/d" of the parent layer 0, of inode 4, without entry. -/
def emptyOld : inode :=
  ⟨4, 2, 2, 0, 16877, 0, ⟨false, false, false, false, false⟩, [], []⟩

/-- The inodes of the parent layer 0 by number: the directory "/d". -/
def oldInodes (ino : Nat) : Option inode :=
  if ino = 4 then some emptyOld else none

/-- A layer whose change list holds the root record and the record of the added
directory "/d" of inode 7. -/
def sampleAdded : fs :=
  ⟨1, 2, [⟨2, LC_MODIFIED, some [47], 1, []⟩, ⟨7, LC_ADDED, some [47, 100], 2, []⟩], [], []⟩

/-! ## Hard-link walker -/

/-- The ordered walk of one bucket pair into the directory record at position
`k` of the change list: the calls of `lc_processDirectory` for that bucket,
each carried out by `lc_addName`. -/
def lc_processBucketInto (getInode : fs → Nat → Option inode)
    (addDirectory : fs → inode → List Nat → Nat → Nat → lc_changeType → Option (fs × Nat))
    (s : fs) (k : Nat) (lastIno : Nat) (pdirent dirent : List dirent) : Option fs :=
  match lc_processBucket pdirent dirent with
  | none => none
  | some calls => runCalls getInode addDirectory k lastIno s calls

/-- The calls of a walk that are made when they are carried out in order by
`lc_addName`: the walk ends with the first call that aborts. -/
def callsMade (getInode : fs → Nat → Option inode)
    (addDirectory : fs → inode → List Nat → Nat → Nat → lc_changeType → Option (fs × Nat))
    (k : Nat) (lastIno : Nat) : fs → List addNameCall → List addNameCall
  | _, [] => []
  | s, c :: cs =>
    c :: (match lc_addName getInode addDirectory s k lastIno c with
      | none => []
      | some s' => callsMade getInode addDirectory k lastIno s' cs)

/-- A layer whose change list holds the root record "/" with no file yet. -/
def sampleLayer : fs :=
  ⟨1, 2, [⟨2, LC_MODIFIED, some [47], 1, []⟩],
    [⟨9, 2, 1, 0, 33188, 1, ⟨false, false, false, false, false⟩, [], []⟩], []⟩

/-! ## Reply serializer -/

/-- Modelled from the spec: the value of a change type on the wire. The
enumeration `lc_changeType` is declared in a header outside `diff.c`; the spec
gives its values in declaration order, `NONE = 0`, `ADDED`, `MODIFIED`,
`REMOVED`. -/
def changeTypeCode : lc_changeType → Nat
  | LC_NONE => 0
  | LC_ADDED => 1
  | LC_MODIFIED => 2
  | LC_REMOVED => 3

/-- Modelled from the spec: `sizeof(struct pchange)`, the header of a packed
change, declared in a header outside `diff.c`: a `u8` change type and a `u16`
name length, back to back. -/
def sizeofPchange : Nat :=
  3

/-- Modelled from the spec: the header bytes of a packed change, the `u8` change
type and the `u16` name length (low byte first, the order of the host). -/
def packHeader (type : lc_changeType) (len : Nat) : List Nat :=
  [changeTypeCode type, len % 256, len / 256 % 256]

/-- A record written to the reply buffer, `struct pchange`: the type and length
copied from the change record and the bytes `memcpy` copied, `none` when the
source is `NULL` or shorter than the length. -/
structure pchange where
  ch_type : lc_changeType
  ch_len : Nat
  ch_path : Option (List Nat)
  deriving DecidableEq, Repr

/-- The record written for a directory: `ch_type = cd_type`, `ch_len = cd_len`,
`memcpy(&ch_path, cd_path, cd_len)`. -/
def packDir (cd : cdir) : pchange :=
  ⟨cd.cd_type, cd.cd_len, cd.cd_path.bind (fun path => memcpy path cd.cd_len)⟩

/-- The record written for a file: `ch_type = cf_type`, `ch_len = cf_len`,
`memcpy(&ch_path, cf_name, cf_len)`, the name buffer ending with the NUL. -/
def packFile (cf : cfile) : pchange :=
  ⟨cf.cf_type, cf.cf_len, memcpy (cf.cf_name ++ [0]) cf.cf_len⟩

/-- The loop `while ((cfile = cdir->cd_file))` of `lc_replyDiff` from buffer
offset `size`: the records written, the new offset and the files left (not
empty after the `goto out`). -/
def emitFiles (LC_BLOCK_SIZE : Nat) : Nat → List cfile → List pchange × Nat × List cfile
  | size, [] => ([], size, [])
  | size, cf :: rest =>
    if size + (cf.cf_len + sizeofPchange) ≥ LC_BLOCK_SIZE then ([], size, cf :: rest)
    else
      let r := emitFiles LC_BLOCK_SIZE (size + (cf.cf_len + sizeofPchange)) rest
      (packFile cf :: r.1, r.2.1, r.2.2)

/-- The head record after
`if (cdir->cd_ino == fs->fs_root) cdir->cd_type = LC_NONE`. -/
def rootNone (root : Nat) (cd : cdir) : cdir :=
  if cd.cd_ino = root then { cd with cd_type := LC_NONE } else cd

/-- The loop `while ((cdir = fs->fs_changes))` of `lc_replyDiff` from buffer
offset `size`: the records written, the final offset and the change list left. -/
def replyLoop (LC_BLOCK_SIZE root : Nat) : Nat → List cdir → List pchange × Nat × List cdir
  | size, [] => ([], size, [])
  | size, cd :: next =>
    let cd1 := rootNone root cd
    if cd1.cd_type ≠ LC_NONE ∨ cd1.cd_file ≠ [] then
      if size + (cd1.cd_len + sizeofPchange) ≥ LC_BLOCK_SIZE then ([], size, cd1 :: next)
      else
        let files := emitFiles LC_BLOCK_SIZE (size + (cd1.cd_len + sizeofPchange)) cd1.cd_file
        if files.2.2 ≠ [] then
          (packDir cd1 :: files.1, files.2.1,
            { cd1 with cd_type := LC_NONE, cd_file := files.2.2 } :: next)
        else if next ≠ [] ∨ files.2.1 = 0 then
          let r := replyLoop LC_BLOCK_SIZE root files.2.1 next
          (packDir cd1 :: files.1 ++ r.1, r.2.1, r.2.2)
        else
          (packDir cd1 :: files.1, files.2.1,
            [{ cd1 with cd_type := LC_NONE, cd_file := [], cd_path := none }])
    else if next ≠ [] ∨ size = 0 then replyLoop LC_BLOCK_SIZE root size next
    else ([], size, [{ cd1 with cd_path := none }])

/-- What one call of `lc_replyDiff` leaves: the records written to the buffer in
order, the bytes used and the layer afterwards. -/
structure reply where
  records : List pchange
  size : Nat
  layer : fs

/-- Respond with diff data: `lc_replyDiff`. `LC_BLOCK_SIZE` is the size of the
reply buffer. -/
def lc_replyDiff (LC_BLOCK_SIZE : Nat) (s : fs) : reply :=
  let r := replyLoop LC_BLOCK_SIZE s.fs_root 0 s.fs_changes
  ⟨r.1, r.2.1, { s with fs_changes := r.2.2 }⟩

/-- The bytes of the records written, `none` when a `memcpy` read no defined
source. -/
def packRecords : List pchange → Option (List Nat)
  | [] => some []
  | p :: ps =>
    match p.ch_path, packRecords ps with
    | some path, some bytes => some (packHeader p.ch_type p.ch_len ++ path ++ bytes)
    | _, _ => none

/-- The buffer `lc_replyDiff` hands to `fuse_reply_buf`: the records written,
then the `memset` of the bytes left up to `LC_BLOCK_SIZE`. -/
def replyFrame (LC_BLOCK_SIZE : Nat) (r : reply) : Option (List Nat) :=
  (packRecords r.records).map (fun bytes => bytes ++ List.replicate (LC_BLOCK_SIZE - r.size) 0)

/-- The change records carry what their length fields announce: a directory
record with something to report has a path of `cd_len` bytes, a file record a
name of `cf_len` bytes. -/
def wellFormed (l : List cdir) : Prop :=
  ∀ cd ∈ l,
    (cd.cd_type ≠ LC_NONE ∨ cd.cd_file ≠ [] → ∃ P, cd.cd_path = some P ∧ P.length = cd.cd_len) ∧
    ∀ cf ∈ cd.cd_file, cf.cf_name.length = cf.cf_len

/-- The record `p` is copied whole from a record of the change list `l`: from a
directory record, the type `LC_NONE` for the root directory, or from a file
record of a directory. -/
def recordOf (root : Nat) (l : List cdir) (p : pchange) : Prop :=
  (∃ cd ∈ l, ∃ P, cd.cd_path = some P ∧ P.length = cd.cd_len ∧
    p = ⟨if cd.cd_ino = root then LC_NONE else cd.cd_type, cd.cd_len, some P⟩) ∨
  (∃ cd ∈ l, ∃ cf ∈ cd.cd_file, cf.cf_name.length = cf.cf_len ∧
    p = ⟨cf.cf_type, cf.cf_len, some cf.cf_name⟩)

/-- The bytes of one record on the wire: the header, then the path. -/
def wireBytes (p : pchange) : List Nat :=
  packHeader p.ch_type p.ch_len ++ p.ch_path.getD []

/-- The record sequence of a change list serialized into a single buffer
without bound, after the words of the spec: for each directory record in list
order, the root's type forced to `LC_NONE`, one record for the directory if
its type is not `LC_NONE` or it has file records, then one record for each of
its files. -/
def serialize (root : Nat) : List cdir → List pchange
  | [] => []
  | cd :: next =>
    (if (rootNone root cd).cd_type ≠ LC_NONE ∨ (rootNone root cd).cd_file ≠ [] then
      packDir (rootNone root cd) :: (rootNone root cd).cd_file.map packFile
    else []) ++ serialize root next

/-- The records of the first `n` frames, frame by frame. -/
def framesOf (LC_BLOCK_SIZE : Nat) : Nat → fs → List (List pchange)
  | 0, _ => []
  | n + 1, s =>
    (lc_replyDiff LC_BLOCK_SIZE s).records ::
      framesOf LC_BLOCK_SIZE n (lc_replyDiff LC_BLOCK_SIZE s).layer

/-- The layer after `n` calls of `lc_replyDiff`. -/
def layerAfter (LC_BLOCK_SIZE : Nat) : Nat → fs → fs
  | 0, s => s
  | n + 1, s => layerAfter LC_BLOCK_SIZE n (lc_replyDiff LC_BLOCK_SIZE s).layer

/-- The head of the change list is a directory cut off by the last frame: its
own record was written, its type is `LC_NONE` since, and files are left. -/
def isContinuation (l : List cdir) : Bool :=
  match l with
  | [] => false
  | cd :: _ => cd.cd_type = LC_NONE ∧ cd.cd_file ≠ []

/-- The records of a frame without the continuation record at its head, the
path of the directory cut off by the frame before, repeated with `LC_NONE`. -/
def dropContinuation (l : List cdir) (records : List pchange) : List pchange :=
  if isContinuation l then records.tail else records

/-- The records of `n` successive frames one after the other, the continuation
records at the head of the frames after the first (`first = false`) left out. -/
def streamOf (LC_BLOCK_SIZE : Nat) : Bool → Nat → fs → List pchange
  | _, 0, _ => []
  | first, n + 1, s =>
    (if first then (lc_replyDiff LC_BLOCK_SIZE s).records
      else dropContinuation s.fs_changes (lc_replyDiff LC_BLOCK_SIZE s).records) ++
      streamOf LC_BLOCK_SIZE false n (lc_replyDiff LC_BLOCK_SIZE s).layer

/-- What is left to report of a change list after a frame: the head directory
has its own record pending unless its type is `LC_NONE`, the directories after
it are pending whole. -/
def pending (root : Nat) : List cdir → List pchange
  | [] => []
  | cd :: next =>
    (if cd.cd_type = LC_NONE then cd.cd_file.map packFile
      else packDir cd :: cd.cd_file.map packFile) ++ serialize root next

/-- Every directory record of the list is of another directory than the root
and has a type: what `lc_addDirectory` links after the root record. -/
def typedDirs (root : Nat) (l : List cdir) : Prop :=
  ∀ cd ∈ l, cd.cd_ino ≠ root ∧ cd.cd_type ≠ LC_NONE

/-- The state of a change list between two frames: the directories after the
head are typed directories other than the root, and so is the head unless its
type is `LC_NONE`. -/
def laterOK (root : Nat) (l : List cdir) : Prop :=
  typedDirs root l.tail ∧ ∀ cd, l.head? = some cd → cd.cd_type ≠ LC_NONE → cd.cd_ino ≠ root

/-- Every directory record of the list fits an empty frame. -/
def dirsFit (LC_BLOCK_SIZE : Nat) (l : List cdir) : Prop :=
  ∀ cd ∈ l, cd.cd_len + sizeofPchange < LC_BLOCK_SIZE

/-- Every file record of the list fits a frame together with the record of its
directory. -/
def filesFit (LC_BLOCK_SIZE : Nat) (l : List cdir) : Prop :=
  ∀ cd ∈ l, ∀ cf ∈ cd.cd_file,
    cd.cd_len + sizeofPchange + (cf.cf_len + sizeofPchange) < LC_BLOCK_SIZE

/-- A layer whose change list holds the root record, with no file record, and
the record of "/d" with the added file "f". -/
def sampleDiff : fs :=
  ⟨1, 2, [⟨2, LC_MODIFIED, some [47], 1, []⟩,
    ⟨7, LC_MODIFIED, some [47, 100], 2, [⟨[102], 1, LC_ADDED⟩]⟩], [], []⟩

/-- A layer whose change list is the root record with the added file "f". -/
def sampleRootDiff : fs :=
  ⟨1, 2, [⟨2, LC_MODIFIED, some [47], 1, [⟨[102], 1, LC_ADDED⟩]⟩], [], []⟩

/-- A layer whose change list holds the root record and the record of "/d". -/
def sampleTree : fs :=
  ⟨1, 2, [⟨2, LC_MODIFIED, some [47], 1, []⟩, ⟨7, LC_MODIFIED, some [47, 100], 2, []⟩], [], []⟩

/-- The parent directory of the inodes of the examples: 8 lies in 7, the others
in the root directory 2. -/
def samplePar (i : Nat) : Nat :=
  if i = 8 then 7 else 2

/-- A path of 255 components of 255 bytes each, 65280 bytes long. -/
def deepPath : List Nat :=
  (List.replicate 255 (47 :: List.replicate 255 97)).flatten

/-- A name of 255 bytes. -/
def longName : List Nat :=
  List.replicate 255 98

/-- A layer whose change list holds the root record and the record of a
directory of that long path. -/
def deepLayer : fs :=
  ⟨1, 2, [⟨2, LC_MODIFIED, some [47], 1, []⟩, ⟨7, LC_ADDED, some deepPath, 65280, []⟩], [], []⟩

/-- A layer whose change list is the root record with sixteen added files of
255 bytes of name each: 4132 bytes of records. -/
def sampleBigDiff : fs :=
  ⟨1, 2, [⟨2, LC_MODIFIED, some [47], 1, List.replicate 16 ⟨longName, 255, LC_ADDED⟩⟩], [], []⟩

/-- A directory record "/d" of inode 7 holding an added "a" and a removed "b". -/
def sampleDir : cdir :=
  ⟨7, LC_MODIFIED, some [47, 100], 2, [⟨[97], 1, LC_ADDED⟩, ⟨[98], 1, LC_REMOVED⟩]⟩

/-- A path of sixteen components, 4095 bytes long: the longest path a system
call takes. -/
def longPath : List Nat :=
  (List.replicate 15 (47 :: List.replicate 255 97)).flatten ++ 47 :: List.replicate 254 97

/-- A layer whose change list holds the root record and the record of the added
directory of that path, with the added file "f". -/
def longPathLayer : fs :=
  ⟨1, 2, [⟨2, LC_MODIFIED, some [47], 1, []⟩,
    ⟨7, LC_ADDED, some longPath, 4095, [⟨[102], 1, LC_ADDED⟩]⟩], [], []⟩

/-- A layer whose change list holds the root record and the record of "/d"
with an added "a" and a removed "e". -/
def sampleReplaced : fs :=
  ⟨1, 2, [⟨2, LC_MODIFIED, some [47], 1, []⟩,
    ⟨7, LC_MODIFIED, some [47, 100], 2, [⟨[97], 1, LC_ADDED⟩, ⟨[101], 1, LC_REMOVED⟩]⟩], [], []⟩

/-- The ordering of the entries the ordered walk relies on, "directory entries
have the same order in both layers": no two inode numbers come in one order in
the parent bucket and in the other order in the child bucket. -/
def sameOrder (ps ds : List dirent) : Prop :=
  ∀ a ∈ ps.map dirent.di_ino, ∀ b ∈ ps.map dirent.di_ino,
    List.Sublist [a, b] (ps.map dirent.di_ino) → ¬ List.Sublist [b, a] (ds.map dirent.di_ino)

/-- A parent bucket with the files "x" of inode 11 and "y" of inode 12. -/
def chainParent : List dirent :=
  [⟨11, [120], 1, 33188⟩, ⟨12, [121], 1, 33188⟩]

/-- The child bucket after "y" was renamed to "z" and "x" to "y": the file of
inode 11 is "y", the file of inode 12 is "z". -/
def chainChild : List dirent :=
  [⟨11, [121], 1, 33188⟩, ⟨12, [122], 1, 33188⟩]

/-- A layer whose change list holds the root record with no file record yet,
the two files in its inode cache. -/
def chainLayer : fs :=
  ⟨1, 2, [⟨2, LC_MODIFIED, some [47], 1, []⟩],
    [⟨11, 2, 1, 0, 33188, 1, ⟨false, false, false, false, false⟩, [], []⟩,
     ⟨12, 2, 1, 0, 33188, 1, ⟨false, false, false, false, false⟩, [], []⟩], []⟩

/-- A parent bucket with the files "a" of inode 5 and "b" of inode 6. -/
def walkParent : List dirent :=
  [⟨5, [97], 1, 33188⟩, ⟨6, [98], 1, 33188⟩]

/-- A child bucket with the new file "d" of inode 8 ahead of "a" of inode 5,
then the new file "e" of inode 9 and the file of inode 6 under the name "c". -/
def walkChild : List dirent :=
  [⟨8, [100], 1, 33188⟩, ⟨5, [97], 1, 33188⟩, ⟨9, [101], 1, 33188⟩, ⟨6, [99], 1, 33188⟩]

/-! ## The driver -/

/-- The error number `EINVAL` of `<errno.h>`. -/
def EINVAL : Nat :=
  22

/-- The error number `EIO` of `<errno.h>`. -/
def EIO : Nat :=
  5

/-- A layer with the further fields of `struct fs` that `lc_layerDiff` reads:
`fs_restarted` is `fs_rfs->fs_restarted`, `fs_parent` is `none` for `NULL` and
otherwise holds `fs_parent->fs_super->sb_lastInode`, `fs_rootInode` is the
position of the root inode in the inode cache. -/
structure layer extends fs where
  fs_removed : Bool
  fs_restarted : Bool
  fs_parent : Option Nat
  fs_size : Nat
  fs_rootInode : Nat
  deriving DecidableEq, Repr

/-- The global file system, `struct gfs`, with its layers. -/
structure gfs where
  gfs_swapLayersForCommit : Bool
  gfs_layers : List layer
  deriving DecidableEq, Repr

/-- What `lc_layerDiff` answers to the request: nothing, an error by
`fuse_reply_err`, or a buffer by `fuse_reply_buf` (`none` when a `memcpy` read
no defined source). -/
inductive fuseReply where
  | silent
  | err (code : Nat)
  | buf (data : Option (List Nat))
  deriving DecidableEq, Repr

/-- What `lc_layerDiff` calls: `getLayer` is `lc_getRootIno` followed by
`lc_getLayerLocked`, the position of the layer of that name (`none` when
`lc_getRootIno` answers `LC_INVALID_INODE`), the assertion on
`lc_getInodeHandle` holding of its answer; `addDirectory` is `lc_addDirectory`
and `addModifiedInode` is `lc_addModifiedInode` for the inode at a position of
the inode cache, its `lc_addFile` calls carried out. -/
structure diffEnv where
  getLayer : List Nat → Option Nat
  addDirectory : fs → inode → List Nat → Nat → Nat → lc_changeType → Option (fs × Nat)
  addModifiedInode : fs → Nat → Nat → Option fs

/-- The inode after `inode->i_flags &= ~LC_INODE_CTRACKED`. -/
def clearTracked (i : inode) : inode :=
  { i with i_flags := { i.i_flags with LC_INODE_CTRACKED := false } }

/-- The traversal of the inode cache "looking for modified directories in this
layer", over the positions given. -/
def dirPass (env : diffEnv) (lastIno : Nat) : List Nat → fs → Option fs
  | [], s => some s
  | j :: js, s =>
    match s.fs_icache[j]? with
    | none => none
    | some inode =>
      if S_ISDIR inode.i_mode ∧
          ¬ (inode.i_flags.LC_INODE_REMOVED ∨ inode.i_flags.LC_INODE_CTRACKED) then
        match env.addDirectory s inode [] 0 lastIno (lc_changeInode inode.i_ino lastIno) with
        | none => none
        | some (s', _) => dirPass env lastIno js s'
      else dirPass env lastIno js s

/-- The traversal of the inode cache "looking for modified files in this
layer", over the positions given. -/
def filePass (env : diffEnv) (lastIno : Nat) : List Nat → fs → Option fs
  | [], s => some s
  | j :: js, s =>
    match s.fs_icache[j]? with
    | none => none
    | some inode =>
      if ¬ (inode.i_flags.LC_INODE_REMOVED ∨ inode.i_flags.LC_INODE_CTRACKED) ∧
          ¬ S_ISDIR inode.i_mode then
        match env.addModifiedInode s j lastIno with
        | none => none
        | some s' => filePass env lastIno js s'
      else filePass env lastIno js s

/-- The part of `lc_layerDiff` that builds the change list: the root directory
first, then the directories and then the files of the inode cache, in cache
order. -/
def buildChanges (env : diffEnv) (l : layer) (lastIno : Nat) : Option fs :=
  match l.fs_icache[l.fs_rootInode]? with
  | none => none
  | some root =>
    match env.addDirectory l.tofs root [] 0 lastIno LC_MODIFIED with
    | none => none
    | some (s1, _) =>
      match dirPass env lastIno (List.range s1.fs_icache.length) s1 with
      | none => none
      | some s2 => filePass env lastIno (List.range s2.fs_icache.length) s2

/-- The eight bytes of a `uint64_t` in memory, low byte first. -/
def u64Bytes (n : Nat) : List Nat :=
  (List.range 8).map (fun i => n / 256 ^ i % 256)

/-- What a call of `lc_layerDiff` leaves: the value returned, the answer to the
request and the global state. -/
structure diffResult where
  ret : Nat
  answer : fuseReply
  state : gfs
  deriving DecidableEq, Repr

/-- Produce diff between a layer and its parent layer: `lc_layerDiff`; `none`
is a failed assertion on `size` or a failure of what it calls. -/
def lc_layerDiff (LC_BLOCK_SIZE : Nat) (env : diffEnv) (g : gfs) (name : List Nat)
    (size : Nat) : Option diffResult :=
  if strcmp name [46] = 0 then
    if size = 8 then
      some ⟨0, .buf (some (List.replicate 8 (if g.gfs_swapLayersForCommit then 255 else 0))), g⟩
    else none
  else
    match env.getLayer name with
    | none => some ⟨EINVAL, .silent, g⟩
    | some i =>
      match g.gfs_layers[i]? with
      | none => none
      | some l =>
        if g.gfs_swapLayersForCommit then
          if size = 8 then some ⟨0, .buf (some (u64Bytes l.fs_size)), g⟩ else none
        else if size ≠ LC_BLOCK_SIZE then none
        else if l.fs_removed ∨ l.fs_restarted ∨ l.fs_parent = none then
          some ⟨0, .err EIO, g⟩
        else if l.fs_changes ≠ [] then
          let r := lc_replyDiff LC_BLOCK_SIZE l.tofs
          some ⟨0, .buf (replyFrame LC_BLOCK_SIZE r),
            { g with gfs_layers := g.gfs_layers.set i { l with tofs := r.layer } }⟩
        else
          match l.fs_parent with
          | none => none
          | some lastIno =>
            match buildChanges env l lastIno with
            | none => none
            | some s =>
              let r := lc_replyDiff LC_BLOCK_SIZE s
              some ⟨0, .buf (replyFrame LC_BLOCK_SIZE r),
                { g with gfs_layers := g.gfs_layers.set i { l with tofs :=
                  { r.layer with fs_icache := r.layer.fs_icache.map clearTracked } } }⟩

/-- The global state after `n` calls of `lc_layerDiff` for the layer `name`
with a buffer of `LC_BLOCK_SIZE` bytes. -/
def layerDiffCalls (LC_BLOCK_SIZE : Nat) (env : diffEnv) (name : List Nat) :
    Nat → gfs → Option gfs
  | 0, g => some g
  | n + 1, g =>
    match lc_layerDiff LC_BLOCK_SIZE env g name LC_BLOCK_SIZE with
    | none => none
    | some r => layerDiffCalls LC_BLOCK_SIZE env name n r.state

/-- The layer `s'` differs from `s` in its change list and in the flag
`LC_INODE_CTRACKED` of its inodes at most. -/
def sameInodes (s s' : fs) : Prop :=
  s'.fs_id = s.fs_id ∧ s'.fs_root = s.fs_root ∧ s'.fs_hlinks = s.fs_hlinks ∧
    s'.fs_icache.map clearTracked = s.fs_icache.map clearTracked

/-- What `lc_layerDiff` calls to build the change list writes the change list
and the flag `LC_INODE_CTRACKED` only. -/
def flagsOnly (env : diffEnv) : Prop :=
  (∀ s dir name len lastIno ctype s' k,
    env.addDirectory s dir name len lastIno ctype = some (s', k) → sameInodes s s') ∧
  ∀ s j lastIno s', env.addModifiedInode s j lastIno = some s' → sameInodes s s'

/-- The layer `l` with the change list `changes`. -/
def withChanges (l : layer) (changes : List cdir) : layer :=
  { l with tofs := { l.tofs with fs_changes := changes } }

/-- The layer after `dir->i_flags |= LC_INODE_CTRACKED` for the directory of
inode number `ino`. -/
def trackDir (s : fs) (ino : Nat) : fs :=
  { s with fs_icache := s.fs_icache.map (fun i => if i.i_ino = ino then setTracked i else i) }

/-- Collaborator for the examples: `lc_addDirectory` for the root directory of a
layer whose parent layer has an empty root directory. A record found is
answered as it is; otherwise the root record is linked by `lc_addDirectoryPath`,
the directory is marked as tracked and, the pre-image being empty, its entries
are compared with `NULL` and added by `lc_addName`. -/
def sampleAddDirectory (s : fs) (dir : inode) (name : List Nat) (len lastIno : Nat)
    (ctype : lc_changeType) : Option (fs × Nat) :=
  match findCdir dir.i_ino s.fs_changes with
  | some k => some (s, k)
  | none =>
    match lc_addDirectoryPath (fun _ _ _ => none) s dir.i_ino dir.i_parent
        ⟨dir.i_ino, ctype, none, 0, []⟩ none name len with
    | none => none
    | some s1 =>
      match lc_compareDirectory 4 (lc_dirLookup 4) (trackDir s1 dir.i_ino) dir none with
      | none => none
      | some calls =>
        (runCalls (fun _ _ => none) (fun _ _ _ _ _ _ => none) 0 lastIno
          (trackDir s1 dir.i_ino) calls).map (fun s3 => (s3, 0))

/-- Collaborators for the examples of the driver: the name "l" is the layer at
position 0; no file is left to `lc_addModifiedInode`. -/
def sampleDiffEnv : diffEnv where
  getLayer := fun name => if name = [108] then some 0 else none
  addDirectory := sampleAddDirectory
  addModifiedInode := fun _ _ _ => none

/-- A layer with a parent layer, whose root directory holds the new file "f" of
inode 9; no diff is under way. -/
def diffLayer : layer where
  tofs := ⟨1, 2, [],
    [⟨2, 2, 2, 1, 16877, 1, ⟨false, false, false, false, false⟩, [⟨9, [102], 1, 33188⟩], []⟩,
     ⟨9, 2, 1, 0, 33188, 1, ⟨false, false, false, false, false⟩, [], []⟩], []⟩
  fs_removed := false
  fs_restarted := false
  fs_parent := some 5
  fs_size := 0
  fs_rootInode := 0

/-- The global state with that layer, swapping of layers on commit disabled. -/
def diffWorld : gfs :=
  ⟨false, [diffLayer]⟩

/-- The global state with that layer marked as removed. -/
def removedWorld : gfs :=
  ⟨false, [{ diffLayer with fs_removed := true }]⟩

/-- The layer of the example after the build of its change list: the root
record with the added file "f", the two inodes marked as tracked. -/
def builtLayer : fs :=
  ⟨1, 2, [⟨2, LC_MODIFIED, some [47], 1, [⟨[102], 1, LC_ADDED⟩]⟩],
    [⟨2, 2, 2, 1, 16877, 1, ⟨false, false, false, false, true⟩, [⟨9, [102], 1, 33188⟩], []⟩,
     ⟨9, 2, 1, 0, 33188, 1, ⟨false, false, false, false, true⟩, [], []⟩], []⟩

/-- The global state of the example after the first frame: the root record is
left in the change list, without path and of type `LC_NONE`. -/
def drainedWorld : gfs :=
  ⟨false, [withChanges diffLayer [⟨2, LC_NONE, none, 1, []⟩]]⟩

/-- A name of 219 bytes. -/
def exactName : List Nat :=
  List.replicate 219 99

/-- A layer whose change list is the root record with fifteen added files of
255 bytes of name each and one of 219 bytes: 4096 bytes of records. -/
def exactDiff : fs :=
  ⟨1, 2, [⟨2, LC_MODIFIED, some [47], 1,
    List.replicate 15 ⟨longName, 255, LC_ADDED⟩ ++ [⟨exactName, 219, LC_ADDED⟩]⟩], [], []⟩

/-- A path of fifteen components of 255 bytes each, 3840 bytes long. -/
def widePath : List Nat :=
  (List.replicate 15 (47 :: List.replicate 255 97)).flatten

/-- A layer whose change list holds the root record and the record of the added
directory of that path, with one added file of 255 bytes of name. -/
def wideLayer : fs :=
  ⟨1, 2, [⟨2, LC_MODIFIED, some [47], 1, []⟩,
    ⟨7, LC_ADDED, some widePath, 3840, [⟨longName, 255, LC_ADDED⟩]⟩], [], []⟩

/-- That layer after the first frame: the record of the directory is left with
type `LC_NONE` and its file record. -/
def wideLeft : fs :=
  ⟨1, 2, [⟨7, LC_NONE, some widePath, 3840, [⟨longName, 255, LC_ADDED⟩]⟩], [], []⟩

/-- The child bucket of the renames "y" to "z" and "x" to "y" with the new file
"w" of inode 21 at its head. -/
def aheadChild : List dirent :=
  ⟨21, [119], 1, 33188⟩ :: chainChild

/-- A layer whose change list holds the root record with no file record yet,
the three files in its inode cache. -/
def aheadLayer : fs :=
  ⟨1, 2, [⟨2, LC_MODIFIED, some [47], 1, []⟩],
    [⟨11, 2, 1, 0, 33188, 1, ⟨false, false, false, false, false⟩, [], []⟩,
     ⟨12, 2, 1, 0, 33188, 1, ⟨false, false, false, false, false⟩, [], []⟩,
     ⟨21, 2, 1, 0, 33188, 1, ⟨false, false, false, false, false⟩, [], []⟩], []⟩

/-! ## Properties -/

/-- A list that holds a record of the name splits at the first such record. -/
theorem exists_first_sameName (name : List Nat) (len : Nat) (l : List cfile)
    (h : ∃ x ∈ l, sameName x name len = true) :
    ∃ pre cf post, l = pre ++ cf :: post ∧ (∀ x ∈ pre, sameName x name len = false) ∧
      sameName cf name len = true := by
  induction l with
  | nil => obtain ⟨x, hx, _⟩ := h; cases hx
  | cons a l ih =>
    by_cases ha : sameName a name len = true
    · exact ⟨[], a, l, rfl, by simp, ha⟩
    · have hl : ∃ x ∈ l, sameName x name len = true := by
        obtain ⟨x, hx, hs⟩ := h
        rcases List.mem_cons.mp hx with rfl | hx
        · exact absurd hs ha
        · exact ⟨x, hx, hs⟩
      obtain ⟨pre, cf, post, rfl, hpre, hcf⟩ := ih hl
      refine ⟨a :: pre, cf, post, rfl, ?_, hcf⟩
      intro x hx
      rcases List.mem_cons.mp hx with rfl | hx
      · simpa using ha
      · exact hpre x hx

/-- The list walk of `lc_addFile` on a list split at the first record of the name. -/
theorem lc_addFileList_split (name : List Nat) (len : Nat) (ctype : lc_changeType)
    (pre : List cfile) (cf : cfile) (post : List cfile)
    (hpre : ∀ x ∈ pre, sameName x name len = false) (hcf : sameName cf name len = true) :
    lc_addFileList name len ctype (pre ++ cf :: post) =
      if cf.cf_type = LC_REMOVED ∧ ctype = LC_ADDED then
        some (pre ++ { cf with cf_type := LC_MODIFIED } :: post)
      else if (cf.cf_type = LC_ADDED ∨ cf.cf_type = LC_MODIFIED) ∧ ctype ≠ LC_REMOVED then
        some (pre ++ cf :: post)
      else none := by
  induction pre with
  | nil => simp [lc_addFileList, hcf]
  | cons a pre ih =>
    have ha : sameName a name len = false := hpre a (List.mem_cons_self _ _)
    have ih' := ih (fun x hx => hpre x (List.mem_cons_of_mem _ hx))
    rw [List.cons_append]
    simp only [lc_addFileList, ha, Bool.false_eq_true, if_false]
    rw [ih']
    split_ifs <;> simp

/-- A string compares equal to itself over any length. -/
theorem strncmp_self (a : List Nat) (n : Nat) : strncmp a a n = 0 := by
  induction a generalizing n with
  | nil => cases n <;> simp [strncmp]
  | cons x xs ih =>
    cases n with
    | zero => simp [strncmp]
    | succ n => simp [strncmp, ih]

/-- A record that carries the very name and length passes the test of the search loop. -/
theorem sameName_of_eq (cf : cfile) (name : List Nat) (len : Nat)
    (hlen : cf.cf_len = len) (hname : cf.cf_name = name) : sameName cf name len = true := by
  simp [sameName, hlen, hname, strncmp_self]

/-- C1: `lc_addFile` on a directory record (not itself `LC_REMOVED`, the first
assertion of the function) that already holds a record of the name follows the
merge table on the first such record `cf`: `LC_REMOVED` with new `LC_ADDED`
becomes `LC_MODIFIED`; `LC_ADDED` or `LC_MODIFIED` with new `LC_ADDED` or
`LC_MODIFIED` leaves the record as it is; new `LC_REMOVED` onto anything and new
`LC_MODIFIED` onto `LC_REMOVED` fail an assertion. Whenever the call succeeds
the file list keeps its length and order, only the type of `cf` may differ,
and the directory fields are untouched. -/
theorem lc_addFile_merge_table (cd : cdir) (ino : Nat) (name : List Nat) (len : Nat)
    (hdir : cd.cd_type ≠ LC_REMOVED)
    (hold : ∃ x ∈ cd.cd_file, sameName x name len = true) :
    ∃ pre cf post, cd.cd_file = pre ++ cf :: post ∧
      (∀ x ∈ pre, sameName x name len = false) ∧ sameName cf name len = true ∧
      (cf.cf_type = LC_REMOVED →
        lc_addFile cd ino name len LC_ADDED =
          some { cd with cd_file := pre ++ { cf with cf_type := LC_MODIFIED } :: post }) ∧
      (∀ ctype, (cf.cf_type = LC_ADDED ∨ cf.cf_type = LC_MODIFIED) →
        (ctype = LC_ADDED ∨ ctype = LC_MODIFIED) →
        lc_addFile cd ino name len ctype = some cd) ∧
      lc_addFile cd ino name len LC_REMOVED = none ∧
      (cf.cf_type = LC_REMOVED → lc_addFile cd ino name len LC_MODIFIED = none) ∧
      (∀ ctype cd', lc_addFile cd ino name len ctype = some cd' →
        ∃ cf', cd'.cd_file = pre ++ cf' :: post ∧
          cf'.cf_name = cf.cf_name ∧ cf'.cf_len = cf.cf_len ∧
          cd'.cd_file.length = cd.cd_file.length ∧
          cd'.cd_ino = cd.cd_ino ∧ cd'.cd_type = cd.cd_type ∧
          cd'.cd_path = cd.cd_path ∧ cd'.cd_len = cd.cd_len) := by
  obtain ⟨pre, cf, post, hsplit, hpre, hcf⟩ := exists_first_sameName name len cd.cd_file hold
  have hrun : ∀ ctype, lc_addFile cd ino name len ctype =
      (if cf.cf_type = LC_REMOVED ∧ ctype = LC_ADDED then
        some (pre ++ { cf with cf_type := LC_MODIFIED } :: post)
      else if (cf.cf_type = LC_ADDED ∨ cf.cf_type = LC_MODIFIED) ∧ ctype ≠ LC_REMOVED then
        some (pre ++ cf :: post)
      else none).map (fun l => { cd with cd_file := l }) := by
    intro ctype
    simp only [lc_addFile, hdir, if_false, hsplit]
    rw [lc_addFileList_split name len ctype pre cf post hpre hcf]
  refine ⟨pre, cf, post, hsplit, hpre, hcf, ?_, ?_, ?_, ?_, ?_⟩
  · intro h
    rw [hrun]; simp [h]
  · intro ctype h1 h2
    rw [hrun]
    have hne : ctype ≠ LC_REMOVED := by rcases h2 with h | h <;> simp [h]
    have hnr : cf.cf_type ≠ LC_REMOVED := by rcases h1 with h | h <;> simp [h]
    simp only [hnr, false_and, if_false, h1, hne, ne_eq, not_false_eq_true, and_self, if_true,
      Option.map_some']
    rw [← hsplit]
  · rw [hrun]; simp
  · intro h
    rw [hrun]; simp [h]
  · intro ctype cd' hres
    rw [hrun] at hres
    split_ifs at hres with h1 h2
    · simp only [Option.map_some', Option.some.injEq] at hres
      subst hres
      exact ⟨{ cf with cf_type := LC_MODIFIED }, rfl, rfl, rfl, by simp [hsplit], rfl, rfl, rfl, rfl⟩
    · simp only [Option.map_some', Option.some.injEq] at hres
      subst hres
      exact ⟨cf, rfl, rfl, rfl, by simp [hsplit], rfl, rfl, rfl, rfl⟩
    · simp at hres

/-- C1 at a concrete directory: the name "b" was removed and is added again. -/
theorem lc_addFile_merge_table_witness :
    sampleDir.cd_type ≠ LC_REMOVED ∧
    (∃ x ∈ sampleDir.cd_file, sameName x [98] 1 = true) ∧
    ∃ pre cf post, sampleDir.cd_file = pre ++ cf :: post ∧
      (∀ x ∈ pre, sameName x [98] 1 = false) ∧ sameName cf [98] 1 = true ∧
      (cf.cf_type = LC_REMOVED →
        lc_addFile sampleDir 12 [98] 1 LC_ADDED =
          some { sampleDir with
            cd_file := pre ++ { cf with cf_type := LC_MODIFIED } :: post }) ∧
      (∀ ctype, (cf.cf_type = LC_ADDED ∨ cf.cf_type = LC_MODIFIED) →
        (ctype = LC_ADDED ∨ ctype = LC_MODIFIED) →
        lc_addFile sampleDir 12 [98] 1 ctype = some sampleDir) ∧
      lc_addFile sampleDir 12 [98] 1 LC_REMOVED = none ∧
      (cf.cf_type = LC_REMOVED → lc_addFile sampleDir 12 [98] 1 LC_MODIFIED = none) ∧
      (∀ ctype cd', lc_addFile sampleDir 12 [98] 1 ctype = some cd' →
        ∃ cf', cd'.cd_file = pre ++ cf' :: post ∧
          cf'.cf_name = cf.cf_name ∧ cf'.cf_len = cf.cf_len ∧
          cd'.cd_file.length = sampleDir.cd_file.length ∧
          cd'.cd_ino = sampleDir.cd_ino ∧ cd'.cd_type = sampleDir.cd_type ∧
          cd'.cd_path = sampleDir.cd_path ∧ cd'.cd_len = sampleDir.cd_len) :=
  ⟨by decide, ⟨⟨[98], 1, LC_REMOVED⟩, by simp [sampleDir], by decide⟩,
    lc_addFile_merge_table sampleDir 12 [98] 1 (by decide)
      ⟨⟨[98], 1, LC_REMOVED⟩, by simp [sampleDir], by decide⟩⟩

/-! ### The ordered walk -/

/-- A string compares equal to itself. -/
theorem strcmp_self (a : List Nat) : strcmp a a = 0 := by
  induction a with
  | nil => simp [strcmp]
  | cons x xs ih => simp [strcmp, ih]

/-- Two different strings without a NUL byte inside compare unequal. -/
theorem strcmp_ne_zero (a b : List Nat) (ha : 0 ∉ a) (hb : 0 ∉ b) (hab : a ≠ b) :
    strcmp a b ≠ 0 := by
  induction a generalizing b with
  | nil =>
    cases b with
    | nil => exact absurd rfl hab
    | cons y ys =>
      have hy : y ≠ 0 := fun h => hb (by simp [h])
      simp only [strcmp]
      omega
  | cons x xs ih =>
    have hx : x ≠ 0 := fun h => ha (by simp [h])
    cases b with
    | nil =>
      simp only [strcmp]
      omega
    | cons y ys =>
      simp only [strcmp]
      by_cases hxy : x = y
      · subst hxy
        have hne : xs ≠ ys := fun h => hab (by rw [h])
        have hxs : 0 ∉ xs := fun h => ha (List.mem_cons_of_mem _ h)
        have hys : 0 ∉ ys := fun h => hb (List.mem_cons_of_mem _ h)
        simpa [hx] using ih ys hxs hys hne
      · rw [if_pos hxy]
        omega

/-- The scan stops at once on an entry of the inode looked for. -/
theorem scanIno_head (ino : Nat) (d : dirent) (ds : List dirent) (h : d.di_ino = ino) :
    scanIno ino (d :: ds) = d :: ds := by
  simp [scanIno, h]

/-- The scan finds nothing when no entry has the inode looked for. -/
theorem scanIno_absent (ino : Nat) (ds : List dirent) (h : ∀ d ∈ ds, d.di_ino ≠ ino) :
    scanIno ino ds = [] := by
  induction ds with
  | nil => rfl
  | cons d ds ih =>
    have hd : d.di_ino ≠ ino := h d (List.mem_cons_self _ _)
    simp only [scanIno, hd, ne_eq, not_false_eq_true, if_true]
    exact ih (fun x hx => h x (List.mem_cons_of_mem _ hx))

/-- The loop over the newly created entries stops at once when the anchor is
the head of the child list. -/
theorem newEntries_self (ds : List dirent) : newEntries ds ds = some [] := by
  cases ds <;> simp [newEntries]

/-- The parent walk over a common run of entries makes no call and moves the
child cursor past the run; the anchor, when not yet set, becomes the start of
the run. -/
theorem parentWalk_common (l ps ds ad : List dirent) :
    parentWalk (l ++ ps) (l ++ ds) ad =
      parentWalk ps ds (if ad = [] ∧ l ≠ [] then l ++ ds else ad) := by
  induction l generalizing ad with
  | nil => simp
  | cons a l ih =>
    rw [List.cons_append, List.cons_append]
    simp only [parentWalk]
    rw [scanIno_head _ _ _ rfl]
    simp only [ne_eq, not_true_eq_false, strcmp_self, or_self, if_false]
    rw [ih]
    congr 1
    by_cases had : ad = []
    · simp [had]
    · simp [had]

/-- The walk of one bucket whose child list is the parent list with entry `p`
replaced by `d` of the same inode and another name. -/
theorem lc_processBucket_rename (l1 l2 : List dirent) (p d : dirent)
    (hino : d.di_ino = p.di_ino) (hcmp : strcmp p.di_name d.di_name ≠ 0) :
    lc_processBucket (l1 ++ p :: l2) (l1 ++ d :: l2) = some [removedCall p, addedCall d] := by
  have htail : ∀ ad : List dirent, ad ≠ [] → parentWalk l2 l2 ad = ([], ad) := by
    intro ad had
    have h := parentWalk_common l2 [] [] ad
    simp only [List.append_nil, had, false_and, if_false] at h
    rw [h]; rfl
  have hwalk : parentWalk (l1 ++ p :: l2) (l1 ++ d :: l2) [] =
      ([removedCall p, addedCall d], l1 ++ d :: l2) := by
    rw [parentWalk_common]
    simp only [parentWalk]
    rw [scanIno_head _ _ _ hino]
    simp only [hcmp, ne_eq, not_false_eq_true, or_true, if_true]
    cases l1 with
    | nil =>
      simp only [List.nil_append, ne_eq, not_true_eq_false, and_false, if_false, if_true]
      rw [htail _ (by simp)]
    | cons a l1 =>
      simp only [ne_eq, reduceCtorEq, not_false_eq_true, and_self, if_true, if_false]
      rw [htail _ (by simp)]
      simp
  simp only [lc_processBucket, hwalk, newEntries_self, Option.map_some', List.append_nil]

/-- C2: for a directory of this layer that is not `LC_INODE_SHARED` and its
directory of another (the parent) layer, both of the flat layout, where the
child's dirent list is the parent's with one entry `p` replaced by `d` of the
same inode and a different name, `lc_processDirectory` makes exactly the two
calls `lc_addName (ino, old name, LC_REMOVED)` and then
`lc_addName (ino, new name, LC_ADDED)`. -/
theorem lc_processDirectory_rename (LC_DIRCACHE_SIZE fsid : Nat) (dir pdir : inode)
    (l1 l2 : List dirent) (p d : dirent)
    (hfs : dir.i_fs = fsid) (hlayer : dir.i_fs ≠ pdir.i_fs)
    (hshared : dir.i_flags.LC_INODE_SHARED = false)
    (hflat : dir.i_flags.LC_INODE_DHASHED = false)
    (hpflat : pdir.i_flags.LC_INODE_DHASHED = false)
    (hparent : pdir.i_dirent = l1 ++ p :: l2) (hchild : dir.i_dirent = l1 ++ d :: l2)
    (hino : d.di_ino = p.di_ino) (hname : d.di_name ≠ p.di_name)
    (hpz : 0 ∉ p.di_name) (hdz : 0 ∉ d.di_name) :
    lc_processDirectory LC_DIRCACHE_SIZE fsid dir pdir =
      some [⟨p.di_ino, p.di_name, p.di_mode, p.di_size, LC_REMOVED⟩,
        ⟨p.di_ino, d.di_name, d.di_mode, d.di_size, LC_ADDED⟩] := by
  have hcmp : strcmp p.di_name d.di_name ≠ 0 :=
    strcmp_ne_zero _ _ hpz hdz (fun h => hname h.symm)
  have hb := lc_processBucket_rename l1 l2 p d hino hcmp
  simp only [lc_processDirectory, hfs, hshared, hflat, hpflat, hparent, hchild]
  rw [← hfs, hb]
  simp [hlayer, removedCall, addedCall, hino]

/-- C2 at a concrete directory pair: "b" of inode 6 is renamed to "c". -/
theorem lc_processDirectory_rename_witness :
    lc_processDirectory 512 1
      ⟨2, 2, 2, 3, 16877, 1, ⟨false, false, false, false, false⟩,
        [⟨5, [97], 1, 33188⟩, ⟨6, [99], 1, 33188⟩, ⟨7, [100], 1, 33188⟩], []⟩
      ⟨2, 2, 2, 3, 16877, 0, ⟨false, false, false, false, false⟩,
        [⟨5, [97], 1, 33188⟩, ⟨6, [98], 1, 33188⟩, ⟨7, [100], 1, 33188⟩], []⟩ =
      some [⟨6, [98], 33188, 1, LC_REMOVED⟩, ⟨6, [99], 33188, 1, LC_ADDED⟩] :=
  lc_processDirectory_rename 512 1 _ _ [⟨5, [97], 1, 33188⟩] [⟨7, [100], 1, 33188⟩]
    ⟨6, [98], 1, 33188⟩ ⟨6, [99], 1, 33188⟩ rfl (by decide) rfl rfl rfl rfl rfl rfl
    (by decide) (by decide) (by decide)

/-- The parent walk when the child list is the parent list with entries
deleted and the parent inodes are pairwise distinct: one `LC_REMOVED` call for
each deleted entry, and the anchor, when not yet set, is the head of the child
list. -/
theorem parentWalk_deleted (ps ds ad : List dirent)
    (hnodup : (ps.map dirent.di_ino).Nodup) (hsub : ds.Sublist ps) :
    parentWalk ps ds ad =
      ((ps.filter (fun p => decide (p ∉ ds))).map removedCall, if ad = [] then ds else ad) := by
  induction ps generalizing ds ad with
  | nil =>
    have hds : ds = [] := List.sublist_nil.mp hsub
    subst hds
    by_cases had : ad = [] <;> simp [parentWalk, had]
  | cons p ps ih =>
    rw [List.map_cons, List.nodup_cons] at hnodup
    obtain ⟨hp, hps⟩ := hnodup
    have hfresh : ∀ x ∈ ps, x.di_ino ≠ p.di_ino := by
      intro x hx h
      exact hp (h ▸ List.mem_map_of_mem dirent.di_ino hx)
    cases hsub with
    | cons _ hsub' =>
      have habs : ∀ x ∈ ds, x.di_ino ≠ p.di_ino := fun x hx => hfresh x (hsub'.subset hx)
      have hpds : p ∉ ds := fun h => habs p h rfl
      simp only [parentWalk]
      rw [scanIno_absent _ _ habs]
      simp only [ih ds ad hps hsub']
      simp [List.filter_cons, hpds]
    | cons₂ _ hsub' =>
      rename_i ds'
      simp only [parentWalk]
      rw [scanIno_head _ _ _ rfl]
      simp only [ne_eq, not_true_eq_false, strcmp_self, or_self, if_false]
      rw [ih ds' _ hps hsub']
      have hfilter : (p :: ps).filter (fun x => decide (x ∉ p :: ds')) =
          ps.filter (fun x => decide (x ∉ ds')) := by
        rw [List.filter_cons]
        simp only [List.mem_cons, true_or, not_true_eq_false, decide_False,
          Bool.false_eq_true, if_false]
        apply List.filter_congr
        intro x hx
        have hxp : x ≠ p := fun h => hfresh x hx (by rw [h])
        simp [hxp]
      rw [hfilter]
      by_cases had : ad = [] <;> simp [had]

/-- C3: for a bucket pair in which the parent's dirents have pairwise distinct
inode numbers and the child's list is the parent's with some entries deleted
(the others unchanged, in the same order), the ordered walk makes exactly one
`lc_addName (ino, name, LC_REMOVED)` call for each deleted parent entry, in
parent order, and no `LC_ADDED` call. -/
theorem lc_processBucket_pure_remove (ps ds : List dirent)
    (hnodup : (ps.map dirent.di_ino).Nodup) (hsub : ds.Sublist ps) :
    lc_processBucket ps ds =
      some ((ps.filter (fun p => decide (p ∉ ds))).map
        (fun p => ⟨p.di_ino, p.di_name, p.di_mode, p.di_size, LC_REMOVED⟩)) := by
  simp only [lc_processBucket, parentWalk_deleted ps ds [] hnodup hsub, if_true,
    newEntries_self, Option.map_some', List.append_nil]
  rfl

/-- C3 at a concrete bucket pair: "a" and "c" are deleted, "b" is kept. -/
theorem lc_processBucket_pure_remove_witness :
    lc_processBucket
      [⟨5, [97], 1, 33188⟩, ⟨6, [98], 1, 33188⟩, ⟨7, [99], 1, 16877⟩] [⟨6, [98], 1, 33188⟩] =
      some (([⟨5, [97], 1, 33188⟩, ⟨6, [98], 1, 33188⟩, ⟨7, [99], 1, 16877⟩].filter
        (fun p => decide (p ∉ [(⟨6, [98], 1, 33188⟩ : dirent)]))).map
        (fun p => ⟨p.di_ino, p.di_name, p.di_mode, p.di_size, LC_REMOVED⟩)) :=
  lc_processBucket_pure_remove _ _ (by decide)
    (List.Sublist.cons _ (List.Sublist.cons₂ _ (List.Sublist.cons _ List.Sublist.slnil)))

/-! ### A name replaced under another inode -/

/-- Tracking an inode of the cache succeeds when the cache holds inodes of
this layer only. -/
theorem trackInode_isSome (fsid ino lastIno : Nat) (ic : List inode)
    (h : ∀ i ∈ ic, i.i_fs = fsid) : ∃ ic', trackInode fsid ino lastIno ic = some ic' := by
  induction ic with
  | nil => exact ⟨[], rfl⟩
  | cons i rest ih =>
    have hi : i.i_fs = fsid := h i (List.mem_cons_self _ _)
    obtain ⟨ic', hic⟩ := ih (fun x hx => h x (List.mem_cons_of_mem _ hx))
    simp only [trackInode, hi, if_true, hic, Option.map_some']
    split_ifs <;> simp

/-- The walk of a bucket pair where the head entry `p` of the parent is
replaced in the child by `d` of another inode and the other entries are
common: `p` is reported removed, then `d` added. -/
theorem lc_processBucket_replaced (p d : dirent) (l : List dirent)
    (hino : d.di_ino ≠ p.di_ino)
    (hl : ∀ x ∈ l, x.di_ino ≠ p.di_ino ∧ x.di_ino ≠ d.di_ino) :
    lc_processBucket (p :: l) (d :: l) = some [removedCall p, addedCall d] := by
  have hscan : scanIno p.di_ino (d :: l) = [] := by
    apply scanIno_absent
    intro x hx
    rcases List.mem_cons.mp hx with rfl | hx
    · exact hino
    · exact (hl x hx).1
  have hrest : parentWalk l (d :: l) [] = ([], l) := by
    cases l with
    | nil => rfl
    | cons q qs =>
      have hq : d.di_ino ≠ q.di_ino := fun h => (hl q (List.mem_cons_self _ _)).2 h.symm
      have hcommon := parentWalk_common qs [] [] (q :: qs)
      simp only [List.append_nil, reduceCtorEq, false_and, if_false] at hcommon
      simp only [parentWalk, scanIno, hq, ne_eq, not_false_eq_true, if_true, not_true_eq_false,
        if_false, strcmp_self, or_self, hcommon]
  have hnew : newEntries l (d :: l) = some [addedCall d] := by
    simp [newEntries, newEntries_self]
  simp only [lc_processBucket, parentWalk, hscan, hrest, hnew, Option.map_some']
  rfl

/-- C4 (amended): when the parent bucket starts with an entry named x and the
child bucket starts instead with a non-directory entry of the same name and
another inode number, the other entries being common, the ordered walk into a
directory record that has no file yet leaves that record with one single file
record for the name, of type `LC_MODIFIED`: `lc_addFile` merges the
`LC_ADDED` into the `LC_REMOVED` recorded just before. -/
theorem lc_processBucketInto_replaced (getInode : fs → Nat → Option inode)
    (addDirectory : fs → inode → List Nat → Nat → Nat → lc_changeType → Option (fs × Nat))
    (s : fs) (k lastIno : Nat) (cd : cdir) (p d : dirent) (l : List dirent)
    (hk : s.fs_changes[k]? = some cd) (hempty : cd.cd_file = [])
    (hty : cd.cd_type ≠ LC_REMOVED)
    (hcache : ∀ i ∈ s.fs_icache, i.i_fs = s.fs_id)
    (hname : d.di_name = p.di_name) (hsize : d.di_size = p.di_size)
    (hfile : S_ISDIR d.di_mode = false) (hino : d.di_ino ≠ p.di_ino)
    (hl : ∀ x ∈ l, x.di_ino ≠ p.di_ino ∧ x.di_ino ≠ d.di_ino) :
    ∃ s', lc_processBucketInto getInode addDirectory s k lastIno (p :: l) (d :: l) = some s' ∧
      s'.fs_changes[k]?.map cdir.cd_file = some [⟨p.di_name, p.di_size, LC_MODIFIED⟩] := by
  have hklt : k < s.fs_changes.length := by
    rcases List.getElem?_eq_some.mp hk with ⟨h, _⟩
    exact h
  obtain ⟨ic', hic⟩ := trackInode_isSome s.fs_id d.di_ino lastIno s.fs_icache hcache
  have hsame : sameName ⟨p.di_name, p.di_size, LC_REMOVED⟩ d.di_name d.di_size = true := by
    simp [sameName, hname, hsize, strncmp_self]
  refine ⟨{ s with
      fs_changes := (s.fs_changes.set k
        { cd with cd_file := [⟨p.di_name, p.di_size, LC_REMOVED⟩] }).set k
        { cd with cd_file := [⟨p.di_name, p.di_size, LC_MODIFIED⟩] },
      fs_icache := ic' }, ?_, ?_⟩
  · simp only [lc_processBucketInto, lc_processBucket_replaced p d l hino hl, runCalls,
      lc_addName, removedCall, addedCall, ne_eq, not_true_eq_false, and_false, if_false,
      hk, lc_addFile, hty, hempty, lc_addFileList, Option.map_some', hfile,
      Bool.false_eq_true, false_and, List.getElem?_set_self hklt, hsame, if_true, and_self,
      reduceCtorEq, not_false_eq_true, hic]
  · simp [List.getElem?_set_self, hklt]

/-- C4 at a concrete layer: the directory "x" of inode 5 is replaced by the file
"x" of inode 9 under the root record. -/
theorem lc_processBucketInto_replaced_witness :
    ∃ s', lc_processBucketInto (fun _ _ => none) (fun _ _ _ _ _ _ => none) sampleLayer 0 8
        [⟨5, [120], 1, 16877⟩] [⟨9, [120], 1, 33188⟩] = some s' ∧
      s'.fs_changes[0]?.map cdir.cd_file = some [⟨[120], 1, LC_MODIFIED⟩] :=
  lc_processBucketInto_replaced _ _ sampleLayer 0 8 ⟨2, LC_MODIFIED, some [47], 1, []⟩
    ⟨5, [120], 1, 16877⟩ ⟨9, [120], 1, 33188⟩ [] rfl rfl (by decide) (by decide) rfl rfl
    (by decide) (by decide) (by simp)

/-- C4 as stated fails: the directory "x" of inode 5 in the parent layer and the
file "x" of inode 9 in the child leave the single record ("x", `LC_MODIFIED`)
under the directory, not ("x", `LC_REMOVED`) followed by ("x", `LC_ADDED`). -/
theorem lc_processBucketInto_replaced_counterexample :
    (lc_processBucketInto (fun _ _ => none) (fun _ _ _ _ _ _ => none) sampleLayer 0 8
        [⟨5, [120], 1, 16877⟩] [⟨9, [120], 1, 33188⟩]).map
        (fun s' => s'.fs_changes.map cdir.cd_file) = some [[⟨[120], 1, LC_MODIFIED⟩]] ∧
    (lc_processBucketInto (fun _ _ => none) (fun _ _ _ _ _ _ => none) sampleLayer 0 8
        [⟨5, [120], 1, 16877⟩] [⟨9, [120], 1, 33188⟩]).map
        (fun s' => s'.fs_changes.map cdir.cd_file) ≠
      some [[⟨[120], 1, LC_REMOVED⟩, ⟨[120], 1, LC_ADDED⟩]] := by
  constructor <;> decide

/-! ### The hard-link walker -/

/-- A list splits at a position that holds an element. -/
theorem split_at_getElem? (l : List cdir) (k : Nat) (cd : cdir) (h : l[k]? = some cd) :
    l = l.take k ++ cd :: l.drop (k + 1) := by
  induction l generalizing k with
  | nil => simp at h
  | cons a l ih =>
    cases k with
    | zero =>
      simp only [List.getElem?_cons_zero, Option.some.injEq] at h
      simp [h]
    | succ k =>
      simp only [List.getElem?_cons_succ] at h
      simp only [List.take_succ_cons, List.drop_succ_cons, List.cons_append]
      rw [← ih k h]

/-- The result of `lc_addDirectoryPath` for a directory other than the root,
from the results of its steps. -/
theorem lc_addDirectoryPath_eq (getDirent : fs → Nat → Nat → Option dirent) (s : fs)
    (ino parent : Nat) (new : cdir) (cdir : Option Nat) (name : List Nat) (len k : Nat)
    (cd : Lcfs.cdir) (name' : List Nat) (len' : Nat) (files : List cfile)
    (type : lc_changeType) (plen : Nat) (path : List Nat)
    (hroot : ino ≠ s.fs_root)
    (hk : cdir = some k ∨ (cdir = none ∧ findCdir parent s.fs_changes = some k))
    (hcd : s.fs_changes[k]? = some cd) (hino : cd.cd_ino = parent)
    (hname : entryName getDirent s parent ino name len = some (name', len'))
    (hchk : checkRemoved cd new.cd_type name' len' = some (files, type))
    (hpath : buildPath cd name' len' = some (plen, path)) :
    lc_addDirectoryPath getDirent s ino parent new cdir name len =
      some { s with fs_changes :=
        s.fs_changes.take k ++ { cd with cd_file := files } ::
          { new with cd_type := type, cd_len := plen, cd_path := some path } ::
          s.fs_changes.drop (k + 1) } := by
  rcases hk with hk | ⟨hk, hf⟩
  · simp [lc_addDirectoryPath, hroot, hk, hcd, hino, hname, hchk, hpath]
  · simp [lc_addDirectoryPath, hroot, hk, hf, hcd, hino, hname, hchk, hpath]

/-- The check for a removed entry succeeds when the two assertions hold: a file
record of the name under a parent of type `LC_MODIFIED` is `LC_REMOVED` and the
new directory is then `LC_ADDED`. -/
theorem checkRemoved_isSome (cd : cdir) (newType : lc_changeType) (name : List Nat) (len : Nat)
    (hasrt : cd.cd_type = LC_MODIFIED → ∀ cf files,
      removedEntry name len cd.cd_file = some (cf, files) →
      newType = LC_ADDED ∧ cf.cf_type = LC_REMOVED) :
    ∃ files type, checkRemoved cd newType name len = some (files, type) := by
  by_cases hm : cd.cd_type = LC_MODIFIED
  · cases hr : removedEntry name len cd.cd_file with
    | none => exact ⟨cd.cd_file, newType, by simp [checkRemoved, hm, hr]⟩
    | some r =>
      obtain ⟨cf, files⟩ := r
      have h := hasrt hm cf files hr
      exact ⟨files, LC_MODIFIED, by simp [checkRemoved, hm, hr, h.1, h.2]⟩
  · exact ⟨cd.cd_file, newType, by simp [checkRemoved, hm]⟩

/-- The path of a directory named `name` under a record whose path buffer holds
`cd_len` bytes: the parent path unless it is one byte long, a slash, the name. -/
theorem buildPath_eq (cd : cdir) (P name : List Nat) (len : Nat)
    (hP : cd.cd_path = some P) (hPlen : P.length = cd.cd_len) (hN : name.length = len) :
    buildPath cd name len =
      some (u16 ((if cd.cd_len > 1 then cd.cd_len else 0) + len + 1),
        (if cd.cd_len > 1 then P else []) ++ 47 :: name) := by
  have hname : memcpy (name ++ [0]) len = some name := by
    simp [memcpy, ← hN]
  by_cases h1 : cd.cd_len > 1
  · have h0 : cd.cd_len ≠ 0 := by omega
    have hcopy : memcpy P cd.cd_len = some P := by simp [memcpy, ← hPlen]
    unfold buildPath
    simp only [if_pos h1, h0, if_false, hP, hcopy, hname]
  · unfold buildPath
    simp only [if_neg h1, if_true, hname]

/-- Linking a record right after the record of its parent directory keeps the
parent-first ordering; the parent record may change but keeps its inode number. -/
theorem parentFirst_insert (par : Nat → Nat) (root : Nat) (A B : List cdir)
    (cd cd' new' : cdir) (hcd : cd'.cd_ino = cd.cd_ino) (hnew : par new'.cd_ino = cd.cd_ino)
    (h : parentFirst par root (A ++ cd :: B)) :
    parentFirst par root (A ++ cd' :: new' :: B) := by
  intro pre c post hsplit hc
  have hparent : c = cd' → ∃ c' ∈ A, c'.cd_ino = par c.cd_ino := by
    intro hcc
    subst hcc
    rw [hcd] at hc ⊢
    exact h A cd B rfl hc
  rcases List.append_eq_append_iff.mp hsplit with ⟨a', hpre, hrest⟩ | ⟨c', hA, hrest⟩
  · cases a' with
    | nil =>
      simp only [List.nil_append, List.cons.injEq] at hrest
      obtain ⟨c0, hc0, hino⟩ := hparent hrest.1.symm
      exact ⟨c0, by simp [hpre, hc0], hino⟩
    | cons x a'' =>
      simp only [List.cons_append, List.cons.injEq] at hrest
      obtain ⟨hx, hrest⟩ := hrest
      subst hx
      cases a'' with
      | nil =>
        simp only [List.nil_append, List.cons.injEq] at hrest
        obtain ⟨hc', _⟩ := hrest
        subst hc'
        exact ⟨cd', by simp [hpre], by rw [hcd, hnew]⟩
      | cons y a3 =>
        simp only [List.cons_append, List.cons.injEq] at hrest
        obtain ⟨hy, hB⟩ := hrest
        subst hy
        obtain ⟨c0, hc0, hino⟩ := h (A ++ cd :: a3) c post (by simp [hB]) hc
        rcases List.mem_append.mp hc0 with hc0 | hc0
        · exact ⟨c0, by simp [hpre, hc0], hino⟩
        · rcases List.mem_cons.mp hc0 with hc0 | hc0
          · exact ⟨cd', by simp [hpre], by rw [hcd, ← hc0, hino]⟩
          · exact ⟨c0, by simp [hpre, hc0], hino⟩
  · cases c' with
    | nil =>
      simp only [List.nil_append, List.cons.injEq] at hrest
      obtain ⟨c0, hc0, hino⟩ := hparent hrest.1
      exact ⟨c0, by simpa [hA] using hc0, hino⟩
    | cons x c'' =>
      simp only [List.cons_append, List.cons.injEq] at hrest
      obtain ⟨hx, hpost⟩ := hrest
      subst hx
      exact h pre c (c'' ++ cd :: B) (by simp [hA]) hc

/-- C6: `lc_addDirectoryPath` for a directory other than the root, whose parent
record is in the change list (passed by the caller or found by the search),
whose name resolves and for which the two assertions on a removed entry hold,
links the new record right after the record of the parent directory and leaves
the other records in place, the parent record keeping its inode number; so a
change list in which every record but the root's comes after a record of its
parent directory is again such a list afterwards. -/
theorem lc_addDirectoryPath_parentFirst (getDirent : fs → Nat → Nat → Option dirent)
    (par : Nat → Nat) (s : fs) (ino parent : Nat) (new : cdir) (cdir : Option Nat)
    (name : List Nat) (len k : Nat) (cd : Lcfs.cdir) (P N : List Nat) (n : Nat)
    (hroot : ino ≠ s.fs_root) (hnew : new.cd_ino = ino) (hpar : par ino = parent)
    (hk : cdir = some k ∨ (cdir = none ∧ findCdir parent s.fs_changes = some k))
    (hcd : s.fs_changes[k]? = some cd) (hino : cd.cd_ino = parent)
    (hname : entryName getDirent s parent ino name len = some (N, n))
    (hN : N.length = n) (hP : cd.cd_path = some P) (hPlen : P.length = cd.cd_len)
    (hasrt : cd.cd_type = LC_MODIFIED → ∀ cf files,
      removedEntry N n cd.cd_file = some (cf, files) →
      new.cd_type = LC_ADDED ∧ cf.cf_type = LC_REMOVED) :
    ∃ cd' new', lc_addDirectoryPath getDirent s ino parent new cdir name len =
        some { s with fs_changes := s.fs_changes.take k ++ cd' :: new' ::
          s.fs_changes.drop (k + 1) } ∧
      s.fs_changes = s.fs_changes.take k ++ cd :: s.fs_changes.drop (k + 1) ∧
      cd'.cd_ino = parent ∧ cd'.cd_type = cd.cd_type ∧ cd'.cd_path = cd.cd_path ∧
      cd'.cd_len = cd.cd_len ∧ new'.cd_ino = ino ∧
      (parentFirst par s.fs_root s.fs_changes →
        parentFirst par s.fs_root
          (s.fs_changes.take k ++ cd' :: new' :: s.fs_changes.drop (k + 1))) := by
  obtain ⟨files, type, hchk⟩ := checkRemoved_isSome cd new.cd_type N n hasrt
  have hpath := buildPath_eq cd P N n hP hPlen hN
  have hsplit := split_at_getElem? s.fs_changes k cd hcd
  refine ⟨{ cd with cd_file := files },
    { new with cd_type := type, cd_len := _, cd_path := some _ },
    lc_addDirectoryPath_eq getDirent s ino parent new cdir name len k cd N n files type _ _
      hroot hk hcd hino hname hchk hpath, hsplit, hino, rfl, rfl, rfl, hnew, ?_⟩
  intro hinv
  rw [hsplit] at hinv
  exact parentFirst_insert par s.fs_root _ _ cd _ _ rfl (by simp [hnew, hpar, hino]) hinv

/-- C6 at a concrete change list: the directory "e" of inode 8 is added under
"/d", after the root record and the record of "/d", a parent-first list. -/
theorem lc_addDirectoryPath_parentFirst_witness :
    parentFirst samplePar sampleTree.fs_root sampleTree.fs_changes ∧
    ∃ cd' new', lc_addDirectoryPath (fun _ _ _ => none) sampleTree 8 7
        ⟨8, LC_ADDED, none, 0, []⟩ none [101] 1 =
        some { sampleTree with fs_changes := sampleTree.fs_changes.take 1 ++ cd' :: new' ::
          sampleTree.fs_changes.drop (1 + 1) } ∧
      sampleTree.fs_changes = sampleTree.fs_changes.take 1 ++
        ⟨7, LC_MODIFIED, some [47, 100], 2, []⟩ :: sampleTree.fs_changes.drop (1 + 1) ∧
      cd'.cd_ino = 7 ∧ cd'.cd_type = LC_MODIFIED ∧ cd'.cd_path = some [47, 100] ∧
      cd'.cd_len = 2 ∧ new'.cd_ino = 8 ∧
      (parentFirst samplePar sampleTree.fs_root sampleTree.fs_changes →
        parentFirst samplePar sampleTree.fs_root
          (sampleTree.fs_changes.take 1 ++ cd' :: new' :: sampleTree.fs_changes.drop (1 + 1))) := by
  refine ⟨?_, lc_addDirectoryPath_parentFirst (fun _ _ _ => none) samplePar sampleTree 8 7
    ⟨8, LC_ADDED, none, 0, []⟩ none [101] 1 1 ⟨7, LC_MODIFIED, some [47, 100], 2, []⟩
    [47, 100] [101] 1 (by decide) rfl rfl (Or.inr ⟨rfl, by decide⟩) (by decide) rfl
    (by decide) rfl rfl rfl (by intro _ cf files h; simp [removedEntry] at h)⟩
  intro pre c post h hc
  cases pre with
  | nil =>
    simp only [sampleTree, List.nil_append, List.cons.injEq] at h
    exact absurd (by rw [← h.1]; rfl) hc
  | cons x pre =>
    simp only [sampleTree, List.cons_append, List.cons.injEq] at h
    obtain ⟨hx, h⟩ := h
    cases pre with
    | nil =>
      simp only [List.nil_append, List.cons.injEq] at h
      exact ⟨x, by simp, by rw [← hx, ← h.1]; rfl⟩
    | cons y pre =>
      simp only [List.cons_append, List.cons.injEq] at h
      exact absurd h.2 (by simp)

/-! ### The path of a new directory record -/

/-- The long path of the examples has 65280 bytes. -/
theorem deepPath_length : deepPath.length = 65280 := by
  simp only [deepPath, List.length_flatten, List.map_replicate, List.length_cons,
    List.length_replicate, List.sum_replicate, smul_eq_mul]

/-- The long name of the examples has 255 bytes. -/
theorem longName_length : longName.length = 255 := by
  simp only [longName, List.length_replicate]

/-- An absolute path is "/" exactly when it is one byte long. -/
theorem root_path_iff (P : List Nat) (habs : P.head? = some 47) : P = [47] ↔ ¬ P.length > 1 := by
  match P, habs with
  | [a], ha =>
    simp only [List.head?_cons, Option.some.injEq] at ha
    simp [ha]
  | _ :: _ :: _, _ => simp

/-- The path of a new record while the lengths fit 16 bits: for a directory
other than the root added under a parent record whose path `P` is absolute and
fills its `cd_len` bytes, with entry name `N` of `n` bytes and `|P| + 1 + n`
below `2 ^ 16`, the path of the new record is "/" followed by `N` when `P` is
"/" and `P` followed by "/" and `N` otherwise, and `cd_len` is the length of
that path; the root record gets the path "/" of length 1. -/
theorem lc_addDirectoryPath_path_fits (getDirent : fs → Nat → Nat → Option dirent)
    (s : fs) (ino parent : Nat) (new : cdir) (cdir : Option Nat)
    (name : List Nat) (len k : Nat) (cd : Lcfs.cdir) (P N : List Nat) (n : Nat)
    (hroot : ino ≠ s.fs_root)
    (hk : cdir = some k ∨ (cdir = none ∧ findCdir parent s.fs_changes = some k))
    (hcd : s.fs_changes[k]? = some cd) (hino : cd.cd_ino = parent)
    (hname : entryName getDirent s parent ino name len = some (N, n))
    (hN : N.length = n) (hP : cd.cd_path = some P) (hPlen : P.length = cd.cd_len)
    (habs : P.head? = some 47)
    (hasrt : cd.cd_type = LC_MODIFIED → ∀ cf files,
      removedEntry N n cd.cd_file = some (cf, files) →
      new.cd_type = LC_ADDED ∧ cf.cf_type = LC_REMOVED)
    (hfit : P.length + 1 + n < 65536) :
    (∃ cd' new', lc_addDirectoryPath getDirent s ino parent new cdir name len =
        some { s with fs_changes := s.fs_changes.take k ++ cd' :: new' ::
          s.fs_changes.drop (k + 1) } ∧
      new'.cd_path = some (if P = [47] then 47 :: N else P ++ 47 :: N) ∧
      new'.cd_len = (if P = [47] then n + 1 else P.length + 1 + n) ∧
      new'.cd_len = (if P = [47] then 47 :: N else P ++ 47 :: N).length) ∧
    ∀ (s0 : fs) (new0 : Lcfs.cdir) (parent0 : Nat) (cdir0 : Option Nat) (name0 : List Nat)
      (len0 : Nat), s0.fs_changes = [] →
      lc_addDirectoryPath getDirent s0 s0.fs_root parent0 new0 cdir0 name0 len0 =
        some { s0 with fs_changes := [{ new0 with cd_len := 1, cd_path := some [47] }] } := by
  constructor
  · obtain ⟨files, type, hchk⟩ := checkRemoved_isSome cd new.cd_type N n hasrt
    have hpath := buildPath_eq cd P N n hP hPlen hN
    have hiff := root_path_iff P habs
    rw [hPlen] at hiff
    refine ⟨{ cd with cd_file := files },
      { new with cd_type := type, cd_len := _, cd_path := some _ },
      lc_addDirectoryPath_eq getDirent s ino parent new cdir name len k cd N n files type _ _
        hroot hk hcd hino hname hchk hpath, ?_, ?_, ?_⟩
    · by_cases hP1 : P = [47]
      · simp only [if_neg (hiff.mp hP1), if_pos hP1, List.nil_append]
      · have h1 : cd.cd_len > 1 := by
          by_contra h
          exact hP1 (hiff.mpr h)
        simp only [if_pos h1, if_neg hP1]
    · by_cases hP1 : P = [47]
      · simp only [if_neg (hiff.mp hP1), if_pos hP1, u16]
        omega
      · have h1 : cd.cd_len > 1 := by
          by_contra h
          exact hP1 (hiff.mpr h)
        simp only [if_pos h1, if_neg hP1, u16]
        omega
    · by_cases hP1 : P = [47]
      · simp only [if_neg (hiff.mp hP1), if_pos hP1, u16, List.length_cons, hN]
        omega
      · have h1 : cd.cd_len > 1 := by
          by_contra h
          exact hP1 (hiff.mpr h)
        simp only [if_pos h1, if_neg hP1, u16, List.length_append, List.length_cons, hN]
        omega
  · intro s0 new0 parent0 cdir0 name0 len0 hnil
    simp [lc_addDirectoryPath, hnil]

/-- The path built under the long path of the examples for the long name. -/
theorem buildPath_deep : buildPath ⟨7, LC_ADDED, some deepPath, 65280, []⟩ longName 255 =
    some (0, deepPath ++ 47 :: longName) := by
  rw [buildPath_eq ⟨7, LC_ADDED, some deepPath, 65280, []⟩ deepPath longName 255 rfl
    deepPath_length longName_length]
  simp only [gt_iff_lt, Nat.one_lt_ofNat, if_true, u16, Nat.reduceAdd, Nat.reduceMod]

/-- C7 at the failing input: the parent record has a path of 65280 bytes and the
new directory a name of 255 bytes, lengths that fit 16 bits. The sum 65536 of
the lengths wraps to 0: the record is linked with `cd_len` 0, `lc_malloc` is
asked for 0 bytes, and the copies write the 65536 bytes of the path from the
start of that buffer, past its end; `cd_len` is not the length of the path. -/
theorem lc_addDirectoryPath_path_overflow :
    deepPath.length = 65280 ∧ longName.length = 255 ∧
    buildPath ⟨7, LC_ADDED, some deepPath, 65280, []⟩ longName 255 =
      some (0, deepPath ++ 47 :: longName) ∧
    (deepPath ++ 47 :: longName).length = 65536 ∧
    pathOverrun (0, deepPath ++ 47 :: longName) ∧
    ∃ s' c, lc_addDirectoryPath (fun _ _ _ => none) deepLayer 8 7
        ⟨8, LC_ADDED, none, 0, []⟩ none longName 255 = some s' ∧
      s'.fs_changes[2]? = some c ∧
      c.cd_path = some (deepPath ++ 47 :: longName) ∧
      c.cd_len = 0 ∧ c.cd_len ≠ (deepPath ++ 47 :: longName).length := by
  have hlen : (deepPath ++ 47 :: longName).length = 65536 := by
    rw [List.length_append, List.length_cons, deepPath_length, longName_length]
  have hroot : 8 ≠ deepLayer.fs_root := by simp [deepLayer]
  have hfind : findCdir 7 deepLayer.fs_changes = some 1 := by simp [deepLayer, findCdir]
  have hcd : deepLayer.fs_changes[1]? = some ⟨7, LC_ADDED, some deepPath, 65280, []⟩ := by
    simp [deepLayer]
  have hname : entryName (fun _ _ _ => none) deepLayer 7 8 longName 255 =
      some (longName, 255) := by simp [entryName]
  have hchk : checkRemoved ⟨7, LC_ADDED, some deepPath, 65280, []⟩ LC_ADDED longName 255 =
      some ([], LC_ADDED) := by simp [checkRemoved]
  have hrun := lc_addDirectoryPath_eq (fun _ _ _ => none) deepLayer 8 7
    ⟨8, LC_ADDED, none, 0, []⟩ none longName 255 1
    ⟨7, LC_ADDED, some deepPath, 65280, []⟩ longName 255 [] LC_ADDED 0
    (deepPath ++ 47 :: longName) hroot (Or.inr ⟨rfl, hfind⟩) hcd rfl hname hchk buildPath_deep
  refine ⟨deepPath_length, longName_length, buildPath_deep, hlen, ?_,
    _, ⟨8, LC_ADDED, some (deepPath ++ 47 :: longName), 0, []⟩, hrun,
    by simp [deepLayer], rfl, rfl, ?_⟩
  · simp only [pathOverrun, hlen]
    decide
  · simp only [hlen]
    decide

/-! ### The reply serializer -/

/-- C8 (amended): when the head of the change list is the root record, of path
"/" and length 1, and it holds at least one file record, the first record
`lc_replyDiff` writes has path "/" and type `LC_NONE` (the frame holding more
than one header and one byte); a root record without file records is not
written at all, the records of the call are those of the rest of the list. -/
theorem lc_replyDiff_root_first (LC_BLOCK_SIZE : Nat) (s : fs) (cd : cdir) (next : List cdir)
    (hlist : s.fs_changes = cd :: next) (hroot : cd.cd_ino = s.fs_root)
    (hpath : cd.cd_path = some [47]) (hlen : cd.cd_len = 1)
    (hblock : 1 + sizeofPchange < LC_BLOCK_SIZE) :
    (cd.cd_file ≠ [] →
      (lc_replyDiff LC_BLOCK_SIZE s).records.head? = some ⟨LC_NONE, 1, some [47]⟩) ∧
    (cd.cd_file = [] →
      (lc_replyDiff LC_BLOCK_SIZE s).records =
        if next = [] then [] else (replyLoop LC_BLOCK_SIZE s.fs_root 0 next).1) := by
  have hfit : ¬ (0 + (1 + sizeofPchange) ≥ LC_BLOCK_SIZE) := by omega
  constructor
  · intro hfiles
    simp only [lc_replyDiff, hlist, replyLoop, rootNone, hroot, if_true, hfiles, ne_eq,
      not_true_eq_false, not_false_eq_true, or_true, hlen, hfit, if_false]
    split_ifs <;> simp [packDir, hpath, memcpy]
  · intro hfiles
    simp only [lc_replyDiff, hlist, replyLoop, rootNone, hroot, if_true, hfiles, ne_eq,
      not_true_eq_false, or_self, if_false, or_true]
    split_ifs with h <;> simp_all [replyLoop]

/-- C8 at a concrete change list: the root record with the added file "f". -/
theorem lc_replyDiff_root_first_witness :
    (sampleRootDiff.fs_changes ≠ [] ∧
      (lc_replyDiff 4096 sampleRootDiff).records.head? = some ⟨LC_NONE, 1, some [47]⟩) ∧
    (lc_replyDiff 4096 sampleDiff).records = (replyLoop 4096 sampleDiff.fs_root 0
      [⟨7, LC_MODIFIED, some [47, 100], 2, [⟨[102], 1, LC_ADDED⟩]⟩]).1 :=
  ⟨⟨by decide, (lc_replyDiff_root_first 4096 sampleRootDiff
      ⟨2, LC_MODIFIED, some [47], 1, [⟨[102], 1, LC_ADDED⟩]⟩ [] rfl rfl rfl rfl
      (by decide)).1 (by decide)⟩,
    by
      have h := (lc_replyDiff_root_first 4096 sampleDiff ⟨2, LC_MODIFIED, some [47], 1, []⟩
        [⟨7, LC_MODIFIED, some [47, 100], 2, [⟨[102], 1, LC_ADDED⟩]⟩] rfl rfl rfl rfl
        (by decide)).2 rfl
      simpa using h⟩

/-- C8 as stated fails: the head of the change list is the root record, the
stream is not empty, and the first record written is ("/d", `LC_MODIFIED`): the
root record, of type `LC_NONE` and without file records, is skipped. -/
theorem lc_replyDiff_root_first_counterexample :
    sampleDiff.fs_changes.head?.map cdir.cd_ino = some sampleDiff.fs_root ∧
    (lc_replyDiff 4096 sampleDiff).records ≠ [] ∧
    (lc_replyDiff 4096 sampleDiff).records.head? = some ⟨LC_MODIFIED, 2, some [47, 100]⟩ ∧
    (lc_replyDiff 4096 sampleDiff).records.head? ≠ some ⟨LC_NONE, 1, some [47]⟩ := by
  refine ⟨by decide, by decide, by decide, by decide⟩

/-- The record written for a file whose name has `cf_len` bytes. -/
theorem packFile_eq (cf : cfile) (h : cf.cf_name.length = cf.cf_len) :
    packFile cf = ⟨cf.cf_type, cf.cf_len, some cf.cf_name⟩ := by
  simp [packFile, memcpy, ← h]

/-- The record written for a directory whose path has `cd_len` bytes. -/
theorem packDir_eq (cd : cdir) (P : List Nat) (hP : cd.cd_path = some P)
    (hlen : P.length = cd.cd_len) : packDir cd = ⟨cd.cd_type, cd.cd_len, some P⟩ := by
  simp [packDir, hP, memcpy, ← hlen]

/-- The file loop writes the records of a first part of the file list, whole,
and stays within the buffer. -/
theorem emitFiles_spec (B : Nat) (files : List cfile) (size : Nat) :
    ∃ done, files = done ++ (emitFiles B size files).2.2 ∧
      (emitFiles B size files).1 = done.map packFile ∧
      (emitFiles B size files).2.1 =
        size + (done.map (fun cf => sizeofPchange + cf.cf_len)).sum ∧
      (size ≤ B → (emitFiles B size files).2.1 ≤ B) := by
  induction files generalizing size with
  | nil => exact ⟨[], by simp [emitFiles]⟩
  | cons cf rest ih =>
    by_cases hfit : size + (cf.cf_len + sizeofPchange) ≥ B
    · exact ⟨[], by simp [emitFiles, hfit]⟩
    · obtain ⟨done, h1, h2, h3, h4⟩ := ih (size + (cf.cf_len + sizeofPchange))
      refine ⟨cf :: done, ?_, ?_, ?_, ?_⟩
      · simp only [emitFiles, hfit, if_false, List.cons_append]
        rw [← h1]
      · simp only [emitFiles, hfit, if_false, List.map_cons, h2]
      · simp only [emitFiles, hfit, if_false, List.map_cons, List.sum_cons, h3]
        omega
      · intro _
        simp only [emitFiles, hfit, if_false]
        exact h4 (by omega)

/-- The fields of the head record left alone by the forcing of the root type. -/
theorem rootNone_fields (root : Nat) (cd : cdir) :
    (rootNone root cd).cd_ino = cd.cd_ino ∧ (rootNone root cd).cd_path = cd.cd_path ∧
    (rootNone root cd).cd_len = cd.cd_len ∧ (rootNone root cd).cd_file = cd.cd_file ∧
    (rootNone root cd).cd_type = if cd.cd_ino = root then LC_NONE else cd.cd_type := by
  unfold rootNone
  split_ifs <;> simp

/-- A record copied from the rest of the list is copied from the list. -/
theorem recordOf_tail (root : Nat) (cd : cdir) (next : List cdir) (p : pchange)
    (h : recordOf root next p) : recordOf root (cd :: next) p := by
  rcases h with ⟨c, hc, h⟩ | ⟨c, hc, h⟩
  · exact Or.inl ⟨c, List.mem_cons_of_mem _ hc, h⟩
  · exact Or.inr ⟨c, List.mem_cons_of_mem _ hc, h⟩

/-- One run of the loop of `lc_replyDiff` on well-formed records: the offset
stays within the buffer and counts the bytes of the records written, every
record written is a whole copy of a change record, and the records left are
well formed. -/
theorem replyLoop_frame (B root : Nat) (l : List cdir) (size : Nat)
    (hwf : wellFormed l) (hsize : size ≤ B) :
    (replyLoop B root size l).2.1 ≤ B ∧
    (replyLoop B root size l).2.1 =
      size + ((replyLoop B root size l).1.map (fun p => sizeofPchange + p.ch_len)).sum ∧
    (∀ p ∈ (replyLoop B root size l).1, recordOf root l p) ∧
    wellFormed (replyLoop B root size l).2.2 := by
  induction l generalizing size with
  | nil => exact ⟨by simpa [replyLoop] using hsize, by simp [replyLoop], by simp [replyLoop],
      by simp [replyLoop, wellFormed]⟩
  | cons cd next ih =>
    obtain ⟨hino, hpth, hlen, hfile, htype⟩ := rootNone_fields root cd
    have hcd := hwf cd (List.mem_cons_self _ _)
    have hnext : wellFormed next := fun c hc => hwf c (List.mem_cons_of_mem _ hc)
    have hwf1 : wellFormed (rootNone root cd :: next) := by
      intro c hc
      rcases List.mem_cons.mp hc with rfl | hc
      · refine ⟨fun h => ?_, by rw [hfile]; exact hcd.2⟩
        rw [hpth, hlen]
        apply hcd.1
        rcases h with h | h
        · left
          intro hn
          apply h
          rw [htype, hn]
          simp
        · right
          rwa [hfile] at h
      · exact hnext c hc
    simp only [replyLoop]
    by_cases hemit : (rootNone root cd).cd_type ≠ LC_NONE ∨ (rootNone root cd).cd_file ≠ []
    · rw [if_pos hemit]
      by_cases hfit : size + ((rootNone root cd).cd_len + sizeofPchange) ≥ B
      · rw [if_pos hfit]
        exact ⟨hsize, by simp, by simp, hwf1⟩
      · rw [if_neg hfit]
        obtain ⟨P, hP, hPlen⟩ := (hwf1 _ (List.mem_cons_self _ _)).1 hemit
        have hpack := packDir_eq (rootNone root cd) P hP hPlen
        have hdir : recordOf root (cd :: next) (packDir (rootNone root cd)) := by
          refine Or.inl ⟨cd, List.mem_cons_self _ _, P, by rw [← hpth, hP], by rw [hPlen, hlen], ?_⟩
          rw [hpack, htype, hlen]
        obtain ⟨done, hd1, hd2, hd3, hd4⟩ := emitFiles_spec B (rootNone root cd).cd_file
          (size + ((rootNone root cd).cd_len + sizeofPchange))
        have hdone : ∀ cf ∈ done, cf ∈ cd.cd_file := by
          intro cf hcf
          rw [← hfile, hd1]
          exact List.mem_append_left _ hcf
        have hfiles : ∀ p ∈ (emitFiles B (size + ((rootNone root cd).cd_len + sizeofPchange))
            (rootNone root cd).cd_file).1, recordOf root (cd :: next) p := by
          intro p hp
          rw [hd2] at hp
          obtain ⟨cf, hcf, rfl⟩ := List.mem_map.mp hp
          have hn := hcd.2 cf (hdone cf hcf)
          exact Or.inr ⟨cd, List.mem_cons_self _ _, cf, hdone cf hcf, hn, packFile_eq cf hn⟩
        have hsum : ((emitFiles B (size + ((rootNone root cd).cd_len + sizeofPchange))
            (rootNone root cd).cd_file).1.map (fun p => sizeofPchange + p.ch_len)).sum =
            (done.map (fun cf => sizeofPchange + cf.cf_len)).sum := by
          rw [hd2, List.map_map]
          rfl
        have hle := hd4 (by omega)
        have hplen : (packDir (rootNone root cd)).ch_len = (rootNone root cd).cd_len := rfl
        by_cases hleft : (emitFiles B (size + ((rootNone root cd).cd_len + sizeofPchange))
            (rootNone root cd).cd_file).2.2 ≠ []
        · rw [if_pos hleft]
          refine ⟨hle, ?_, ?_, ?_⟩
          · simp only [List.map_cons, List.sum_cons, hsum, hd3, hplen]
            omega
          · intro p hp
            rcases List.mem_cons.mp hp with rfl | hp
            · exact hdir
            · exact hfiles p hp
          · intro c hc
            rcases List.mem_cons.mp hc with rfl | hc
            · refine ⟨fun _ => ⟨P, hP, hPlen⟩, fun cf hcf => hcd.2 cf ?_⟩
              rw [← hfile, hd1]
              exact List.mem_append_right _ hcf
            · exact hnext c hc
        · rw [if_neg hleft]
          by_cases hmore : next ≠ [] ∨ (emitFiles B
              (size + ((rootNone root cd).cd_len + sizeofPchange))
              (rootNone root cd).cd_file).2.1 = 0
          · rw [if_pos hmore]
            obtain ⟨i1, i2, i3, i4⟩ := ih _ hnext hle
            refine ⟨i1, ?_, ?_, i4⟩
            · rw [i2]
              simp only [List.cons_append, List.map_cons, List.map_append, List.sum_cons,
                List.sum_append, hsum, hd3, hplen]
              omega
            · intro p hp
              rcases List.mem_cons.mp hp with rfl | hp
              · exact hdir
              · rcases List.mem_append.mp hp with hp | hp
                · exact hfiles p hp
                · exact recordOf_tail root cd next p (i3 p hp)
          · rw [if_neg hmore]
            refine ⟨hle, ?_, ?_, ?_⟩
            · simp only [List.map_cons, List.sum_cons, hsum, hd3, hplen]
              omega
            · intro p hp
              rcases List.mem_cons.mp hp with rfl | hp
              · exact hdir
              · exact hfiles p hp
            · intro c hc
              rcases List.mem_cons.mp hc with rfl | hc
              · exact ⟨fun h => by simp at h, by simp⟩
              · cases hc
    · rw [if_neg hemit]
      by_cases hmore : next ≠ [] ∨ size = 0
      · rw [if_pos hmore]
        obtain ⟨i1, i2, i3, i4⟩ := ih size hnext hsize
        exact ⟨i1, i2, fun p hp => recordOf_tail root cd next p (i3 p hp), i4⟩
      · rw [if_neg hmore]
        refine ⟨hsize, by simp, by simp, ?_⟩
        intro c hc
        rcases List.mem_cons.mp hc with rfl | hc
        · exact ⟨fun h => absurd h hemit, by
            intro cf hcf
            exact hcd.2 cf (by rw [← hfile]; exact hcf)⟩
        · cases hc

/-- A record copied whole from the change list carries as many path bytes as
its length field says. -/
theorem recordOf_path (root : Nat) (l : List cdir) (p : pchange) (h : recordOf root l p) :
    ∃ path, p.ch_path = some path ∧ path.length = p.ch_len ∧
      wireBytes p = packHeader p.ch_type p.ch_len ++ path := by
  rcases h with ⟨cd, _, P, _, hlen, rfl⟩ | ⟨cd, _, cf, _, hlen, rfl⟩
  · exact ⟨P, rfl, hlen, rfl⟩
  · exact ⟨cf.cf_name, rfl, hlen, rfl⟩

/-- The bytes of records that carry their paths: the records one after the
other, header and path, `sizeofPchange + ch_len` bytes each. -/
theorem packRecords_spec (recs : List pchange)
    (h : ∀ p ∈ recs, ∃ path, p.ch_path = some path ∧ path.length = p.ch_len) :
    packRecords recs = some (recs.map wireBytes).flatten ∧
    (recs.map wireBytes).flatten.length =
      (recs.map (fun p => sizeofPchange + p.ch_len)).sum := by
  induction recs with
  | nil => simp [packRecords]
  | cons p ps ih =>
    obtain ⟨path, hp, hlen⟩ := h p (List.mem_cons_self _ _)
    obtain ⟨h1, h2⟩ := ih (fun q hq => h q (List.mem_cons_of_mem _ hq))
    constructor
    · simp [packRecords, hp, h1, wireBytes]
    · simp only [List.map_cons, List.flatten_cons, List.length_append, h2, List.sum_cons,
        wireBytes, hp, Option.getD_some, packHeader, List.length_cons, List.length_nil,
        sizeofPchange, hlen]

/-- C9: every frame `lc_replyDiff` produces from well-formed change records is
exactly `LC_BLOCK_SIZE` bytes long: the records written one after the other,
each the header with the type and length copied from a change record (the type
`LC_NONE` for the root directory) followed by exactly that many path bytes, and
after them zero bytes only; the records left in the list are well formed, so
the same holds for the next frame. -/
theorem lc_replyDiff_frame (LC_BLOCK_SIZE : Nat) (s : fs) (hwf : wellFormed s.fs_changes) :
    ∃ bytes, replyFrame LC_BLOCK_SIZE (lc_replyDiff LC_BLOCK_SIZE s) = some bytes ∧
      bytes.length = LC_BLOCK_SIZE ∧
      bytes = ((lc_replyDiff LC_BLOCK_SIZE s).records.map wireBytes).flatten ++
        List.replicate (LC_BLOCK_SIZE - (lc_replyDiff LC_BLOCK_SIZE s).size) 0 ∧
      ((lc_replyDiff LC_BLOCK_SIZE s).records.map wireBytes).flatten.length =
        (lc_replyDiff LC_BLOCK_SIZE s).size ∧
      (∀ p ∈ (lc_replyDiff LC_BLOCK_SIZE s).records,
        recordOf s.fs_root s.fs_changes p ∧
        ∃ path, p.ch_path = some path ∧ path.length = p.ch_len ∧
          wireBytes p = packHeader p.ch_type p.ch_len ++ path) ∧
      wellFormed (lc_replyDiff LC_BLOCK_SIZE s).layer.fs_changes := by
  obtain ⟨h1, h2, h3, h4⟩ := replyLoop_frame LC_BLOCK_SIZE s.fs_root s.fs_changes 0 hwf
    (Nat.zero_le _)
  have hpaths : ∀ p ∈ (replyLoop LC_BLOCK_SIZE s.fs_root 0 s.fs_changes).1,
      ∃ path, p.ch_path = some path ∧ path.length = p.ch_len := by
    intro p hp
    obtain ⟨path, hp1, hp2, _⟩ := recordOf_path _ _ p (h3 p hp)
    exact ⟨path, hp1, hp2⟩
  obtain ⟨hpack, hlen⟩ := packRecords_spec _ hpaths
  have hsize : ((replyLoop LC_BLOCK_SIZE s.fs_root 0 s.fs_changes).1.map wireBytes).flatten.length
      = (replyLoop LC_BLOCK_SIZE s.fs_root 0 s.fs_changes).2.1 := by
    rw [hlen, h2]
    omega
  refine ⟨_, by simp only [replyFrame, lc_replyDiff, hpack, Option.map_some'], ?_, rfl, hsize,
    fun p hp => ⟨h3 p hp, recordOf_path _ _ p (h3 p hp)⟩, h4⟩
  simp only [lc_replyDiff, List.length_append, List.length_replicate, hsize]
  omega

/-- C9 at a concrete change list: the frame of 4096 bytes for the root record
with the added file "f". -/
theorem lc_replyDiff_frame_witness :
    ∃ bytes, replyFrame 4096 (lc_replyDiff 4096 sampleRootDiff) = some bytes ∧
      bytes.length = 4096 ∧
      bytes = ((lc_replyDiff 4096 sampleRootDiff).records.map wireBytes).flatten ++
        List.replicate (4096 - (lc_replyDiff 4096 sampleRootDiff).size) 0 ∧
      ((lc_replyDiff 4096 sampleRootDiff).records.map wireBytes).flatten.length =
        (lc_replyDiff 4096 sampleRootDiff).size ∧
      (∀ p ∈ (lc_replyDiff 4096 sampleRootDiff).records,
        recordOf sampleRootDiff.fs_root sampleRootDiff.fs_changes p ∧
        ∃ path, p.ch_path = some path ∧ path.length = p.ch_len ∧
          wireBytes p = packHeader p.ch_type p.ch_len ++ path) ∧
      wellFormed (lc_replyDiff 4096 sampleRootDiff).layer.fs_changes :=
  lc_replyDiff_frame 4096 sampleRootDiff (by
    intro cd hcd
    simp only [sampleRootDiff, List.mem_singleton] at hcd
    subst hcd
    exact ⟨fun _ => ⟨[47], rfl, rfl⟩, by simp⟩)

/-! ### Frames and the single-buffer serialization -/

/-- The root forcing leaves the record of another directory as it is. -/
theorem rootNone_of_ne (root : Nat) (cd : cdir) (h : cd.cd_ino ≠ root) :
    rootNone root cd = cd := by
  simp [rootNone, h]

/-- The root forcing leaves a record of type `LC_NONE` as it is. -/
theorem rootNone_of_none (root : Nat) (cd : cdir) (h : cd.cd_type = LC_NONE) :
    rootNone root cd = cd := by
  unfold rootNone
  split_ifs
  · cases cd
    simp only [cdir.mk.injEq, true_and]
    simp only at h
    simp [h]
  · rfl

/-- One turn of the loop of `lc_replyDiff` for a head record that has something
to report and whose own record fits: what the turn and the rest of the call
write, followed by what is left pending, is the head's record, its file records
and the serialization of the rest of the list. `hrec` is the same statement
for the rest of the list. -/
theorem replyLoop_emit (B root size : Nat) (cd : cdir) (next : List cdir)
    (hemit : (rootNone root cd).cd_type ≠ LC_NONE ∨ (rootNone root cd).cd_file ≠ [])
    (hfit : ¬ size + ((rootNone root cd).cd_len + sizeofPchange) ≥ B)
    (hnext : typedDirs root next)
    (hrec : ∀ size', serialize root next =
        (replyLoop B root size' next).1 ++ pending root (replyLoop B root size' next).2.2 ∧
      laterOK root (replyLoop B root size' next).2.2 ∧
      (dirsFit B next → dirsFit B (replyLoop B root size' next).2.2)) :
    serialize root (cd :: next) =
      (replyLoop B root size (cd :: next)).1 ++
        pending root (replyLoop B root size (cd :: next)).2.2 ∧
    laterOK root (replyLoop B root size (cd :: next)).2.2 ∧
    (dirsFit B (cd :: next) → dirsFit B (replyLoop B root size (cd :: next)).2.2) ∧
    (replyLoop B root size (cd :: next)).1 ≠ [] := by
  obtain ⟨_, _, hlen, _, _⟩ := rootNone_fields root cd
  obtain ⟨done, hd1, hd2, _, _⟩ := emitFiles_spec B (rootNone root cd).cd_file
    (size + ((rootNone root cd).cd_len + sizeofPchange))
  have hser : serialize root (cd :: next) =
      packDir (rootNone root cd) :: (rootNone root cd).cd_file.map packFile ++
        serialize root next := by
    simp only [serialize, if_pos hemit]
  have hfitnext : dirsFit B (cd :: next) → dirsFit B next :=
    fun h c hc => h c (List.mem_cons_of_mem _ hc)
  simp only [replyLoop, if_pos hemit, if_neg hfit]
  by_cases hleft : (emitFiles B (size + ((rootNone root cd).cd_len + sizeofPchange))
      (rootNone root cd).cd_file).2.2 ≠ []
  · rw [if_pos hleft]
    refine ⟨?_, ⟨hnext, fun c hc hty => ?_⟩, fun h c hc => ?_, by simp⟩
    · rw [hser]
      simp only [pending, if_true, hd2]
      conv_lhs => rw [hd1]
      simp
    · simp only [List.head?_cons, Option.some.injEq] at hc
      subst hc
      exact absurd rfl hty
    · rcases List.mem_cons.mp hc with rfl | hc
      · simpa [hlen] using h cd (List.mem_cons_self _ _)
      · exact hfitnext h c hc
  · rw [if_neg hleft]
    have hnil : (emitFiles B (size + ((rootNone root cd).cd_len + sizeofPchange))
        (rootNone root cd).cd_file).2.2 = [] := by
      by_contra h
      exact hleft h
    have hall : (rootNone root cd).cd_file.map packFile =
        (emitFiles B (size + ((rootNone root cd).cd_len + sizeofPchange))
          (rootNone root cd).cd_file).1 := by
      rw [hd2]
      conv_lhs => rw [hd1, hnil]
      simp
    by_cases hmore : next ≠ [] ∨ (emitFiles B
        (size + ((rootNone root cd).cd_len + sizeofPchange))
        (rootNone root cd).cd_file).2.1 = 0
    · rw [if_pos hmore]
      obtain ⟨r1, r2, r3⟩ := hrec (emitFiles B
        (size + ((rootNone root cd).cd_len + sizeofPchange)) (rootNone root cd).cd_file).2.1
      refine ⟨?_, r2, fun h => r3 (hfitnext h), by simp⟩
      rw [hser, hall]
      conv_lhs => rw [r1]
      simp
    · rw [if_neg hmore]
      have hlast : next = [] := by
        by_contra h
        exact hmore (Or.inl h)
      subst hlast
      refine ⟨?_, ⟨by simp [typedDirs], fun c hc hty => ?_⟩, fun h c hc => ?_, by simp⟩
      · rw [hser, hall]
        simp [pending, serialize]
      · simp only [List.head?_cons, Option.some.injEq] at hc
        subst hc
        exact absurd rfl hty
      · rcases List.mem_cons.mp hc with rfl | hc
        · simpa [hlen] using h cd (List.mem_cons_self _ _)
        · cases hc

/-- The loop of `lc_replyDiff` over typed directories other than the root, from
any buffer offset: the records written followed by what is left pending are
the serialization of the list. -/
theorem replyLoop_typed (B root : Nat) (l : List cdir) (htyped : typedDirs root l) :
    ∀ size, serialize root l =
        (replyLoop B root size l).1 ++ pending root (replyLoop B root size l).2.2 ∧
      laterOK root (replyLoop B root size l).2.2 ∧
      (dirsFit B l → dirsFit B (replyLoop B root size l).2.2) ∧
      (size = 0 → dirsFit B l → (replyLoop B root size l).1 = [] →
        (replyLoop B root size l).2.2 = []) := by
  induction l with
  | nil =>
    intro size
    simp [replyLoop, serialize, pending, laterOK, typedDirs]
  | cons cd next ih =>
    intro size
    have hcd := htyped cd (List.mem_cons_self _ _)
    have hnext : typedDirs root next := fun c hc => htyped c (List.mem_cons_of_mem _ hc)
    have hrn := rootNone_of_ne root cd hcd.1
    have hemit : (rootNone root cd).cd_type ≠ LC_NONE ∨ (rootNone root cd).cd_file ≠ [] :=
      Or.inl (by rw [hrn]; exact hcd.2)
    by_cases hfit : size + ((rootNone root cd).cd_len + sizeofPchange) ≥ B
    · have hval : replyLoop B root size (cd :: next) = ([], size, rootNone root cd :: next) := by
        simp only [replyLoop, if_pos hemit, if_pos hfit]
      rw [hval, hrn]
      refine ⟨?_, ⟨hnext, fun c hc _ => ?_⟩, fun h => h, fun hz hf _ => ?_⟩
      · simp [serialize, pending, hrn, hcd.2]
      · simp only [List.head?_cons, Option.some.injEq] at hc
        subst hc
        exact hcd.1
      · have := hf cd (List.mem_cons_self _ _)
        rw [hrn] at hfit
        omega
    · obtain ⟨h1, h2, h3, h4⟩ := replyLoop_emit B root size cd next hemit hfit hnext
        (fun size' => ⟨(ih hnext size').1, (ih hnext size').2.1, (ih hnext size').2.2.1⟩)
      exact ⟨h1, h2, h3, fun _ _ h => absurd h h4⟩

/-- The first call of `lc_replyDiff` on a change list whose records after the
head are typed directories other than the root, every directory record fitting
an empty frame: the records written followed by what is left pending are the
serialization of the list, and a frame without record leaves no record. -/
theorem replyLoop_first (B root : Nat) (l : List cdir) (htail : typedDirs root l.tail)
    (hfit : dirsFit B l) :
    serialize root l = (replyLoop B root 0 l).1 ++ pending root (replyLoop B root 0 l).2.2 ∧
    laterOK root (replyLoop B root 0 l).2.2 ∧ dirsFit B (replyLoop B root 0 l).2.2 ∧
    ((replyLoop B root 0 l).1 = [] → (replyLoop B root 0 l).2.2 = []) := by
  cases l with
  | nil => simp [replyLoop, serialize, pending, laterOK, typedDirs, dirsFit]
  | cons cd next =>
    have hnext : typedDirs root next := htail
    have hfitnext : dirsFit B next := fun c hc => hfit c (List.mem_cons_of_mem _ hc)
    obtain ⟨_, _, hlen, _, _⟩ := rootNone_fields root cd
    by_cases hemit : (rootNone root cd).cd_type ≠ LC_NONE ∨ (rootNone root cd).cd_file ≠ []
    · have hfit0 : ¬ 0 + ((rootNone root cd).cd_len + sizeofPchange) ≥ B := by
        have := hfit cd (List.mem_cons_self _ _)
        rw [hlen]
        omega
      obtain ⟨h1, h2, h3, h4⟩ := replyLoop_emit B root 0 cd next hemit hfit0 hnext
        (fun size' => ⟨(replyLoop_typed B root next hnext size').1,
          (replyLoop_typed B root next hnext size').2.1,
          (replyLoop_typed B root next hnext size').2.2.1⟩)
      exact ⟨h1, h2, h3 hfit, fun h => absurd h h4⟩
    · obtain ⟨h1, h2, h3, h4⟩ := replyLoop_typed B root next hnext 0
      have hser : serialize root (cd :: next) = serialize root next := by
        simp only [serialize, if_neg hemit, List.nil_append]
      simp only [replyLoop, if_neg hemit, or_true, if_true]
      exact ⟨by rw [hser]; exact h1, h2, h3 hfitnext, h4 rfl hfitnext⟩

/-- A later call of `lc_replyDiff`: what was pending is the records written,
less the continuation record, followed by what is pending afterwards. -/
theorem replyLoop_later (B root : Nat) (l : List cdir) (hok : laterOK root l)
    (hfit : dirsFit B l) :
    pending root l = dropContinuation l (replyLoop B root 0 l).1 ++
      pending root (replyLoop B root 0 l).2.2 ∧
    laterOK root (replyLoop B root 0 l).2.2 ∧ dirsFit B (replyLoop B root 0 l).2.2 ∧
    ((replyLoop B root 0 l).1 = [] → (replyLoop B root 0 l).2.2 = []) := by
  obtain ⟨h1, h2, h3, h4⟩ := replyLoop_first B root l hok.1 hfit
  refine ⟨?_, h2, h3, h4⟩
  cases l with
  | nil => simp [replyLoop, pending, dropContinuation, isContinuation]
  | cons cd next =>
    by_cases hty : cd.cd_type = LC_NONE
    · have hrn := rootNone_of_none root cd hty
      by_cases hfiles : cd.cd_file = []
      · have hser : serialize root (cd :: next) = pending root (cd :: next) := by
          simp [serialize, pending, hrn, hty, hfiles]
        rw [← hser, h1]
        simp [dropContinuation, isContinuation, hfiles]
      · have hser : serialize root (cd :: next) = packDir cd :: pending root (cd :: next) := by
          simp [serialize, pending, hrn, hty, hfiles]
        rw [hser] at h1
        have hcont : isContinuation (cd :: next) = true := by
          simp [isContinuation, hty, hfiles]
        simp only [dropContinuation, hcont, if_true]
        cases hrec : (replyLoop B root 0 (cd :: next)).1 with
        | nil =>
          rw [hrec] at h1
          rw [h4 hrec] at h1
          simp [pending] at h1
        | cons x t =>
          rw [hrec] at h1
          simp only [List.cons_append, List.cons.injEq] at h1
          simpa using h1.2
    · have hne := hok.2 cd rfl hty
      have hrn := rootNone_of_ne root cd hne
      have hser : serialize root (cd :: next) = pending root (cd :: next) := by
        simp [serialize, pending, hrn, hty]
      rw [← hser, h1]
      simp [dropContinuation, isContinuation, hty]

/-- The records of `n` later frames, less the continuation records, followed
by what is pending after them, are what was pending before. -/
theorem streamOf_later (B : Nat) (n : Nat) : ∀ s : fs, laterOK s.fs_root s.fs_changes →
    dirsFit B s.fs_changes →
    pending s.fs_root s.fs_changes =
      streamOf B false n s ++ pending s.fs_root (layerAfter B n s).fs_changes ∧
    laterOK s.fs_root (layerAfter B n s).fs_changes ∧
    dirsFit B (layerAfter B n s).fs_changes ∧ (layerAfter B n s).fs_root = s.fs_root := by
  induction n with
  | zero =>
    intro s hok hfit
    exact ⟨by simp [streamOf, layerAfter], hok, hfit, rfl⟩
  | succ n ih =>
    intro s hok hfit
    obtain ⟨h1, h2, h3, _⟩ := replyLoop_later B s.fs_root s.fs_changes hok hfit
    obtain ⟨i1, i2, i3, i4⟩ := ih (lc_replyDiff B s).layer h2 h3
    refine ⟨?_, i2, i3, i4⟩
    rw [h1]
    simp only [streamOf, Bool.false_eq_true, if_false, layerAfter, List.append_assoc]
    congr 1

/-- A call of `lc_replyDiff` that writes no record and uses no byte answers the
all-zero frame. -/
theorem replyFrame_zero (B : Nat) (r : reply) (hrec : r.records = []) (hsize : r.size = 0) :
    replyFrame B r = some (List.replicate B 0) := by
  simp only [replyFrame, hrec, packRecords, hsize, Option.map_some', List.nil_append,
    Nat.sub_zero]

/-- The file loop from offset `size`: the final offset counts the bytes of the
records written, it stays below `LC_BLOCK_SIZE` when it starts below, and the
file record left at the head of the list did not fit: the final offset plus
its header and name reaches or exceeds `LC_BLOCK_SIZE`. -/
theorem emitFiles_defer (B : Nat) (files : List cfile) :
    ∀ size,
      (emitFiles B size files).2.1 =
        size + ((emitFiles B size files).1.map (fun p => sizeofPchange + p.ch_len)).sum ∧
      (size < B → (emitFiles B size files).2.1 < B) ∧
      ∀ cf rest, (emitFiles B size files).2.2 = cf :: rest →
        (emitFiles B size files).2.1 + (cf.cf_len + sizeofPchange) ≥ B := by
  induction files with
  | nil => intro size; simp [emitFiles]
  | cons c cs ih =>
    intro size
    by_cases hfit : size + (c.cf_len + sizeofPchange) ≥ B
    · simp only [emitFiles, if_pos hfit, List.map_nil, List.sum_nil, Nat.add_zero, imp_self,
        true_and]
      intro cf rest h
      simp only [List.cons.injEq] at h
      rw [← h.1]
      exact hfit
    · obtain ⟨h1, h2, h3⟩ := ih (size + (c.cf_len + sizeofPchange))
      simp only [emitFiles, if_neg hfit, List.map_cons, List.sum_cons]
      refine ⟨?_, fun _ => h2 (by omega), h3⟩
      rw [h1]
      simp only [packFile]
      omega

/-- The loop of `lc_replyDiff` from offset `size`: the final offset counts the
bytes of the records written, it stays below `LC_BLOCK_SIZE` when it starts
below, and when the head of the change list left has something to report, the
record deferred did not fit: the final offset plus the header and path of the
directory record reaches or exceeds `LC_BLOCK_SIZE`, or the record of the
directory is written and the same holds of its first file record left. -/
theorem replyLoop_defer (B root : Nat) (l : List cdir) :
    ∀ size,
      (replyLoop B root size l).2.1 =
        size + ((replyLoop B root size l).1.map (fun p => sizeofPchange + p.ch_len)).sum ∧
      (size < B → (replyLoop B root size l).2.1 < B) ∧
      ∀ cd next, (replyLoop B root size l).2.2 = cd :: next →
        cd.cd_type ≠ LC_NONE ∨ cd.cd_file ≠ [] →
        (replyLoop B root size l).2.1 + (cd.cd_len + sizeofPchange) ≥ B ∨
        (cd.cd_type = LC_NONE ∧ ∃ cf rest, cd.cd_file = cf :: rest ∧
          (replyLoop B root size l).2.1 + (cf.cf_len + sizeofPchange) ≥ B) := by
  induction l with
  | nil => intro size; simp [replyLoop]
  | cons c next ih =>
    intro size
    by_cases hemit : (rootNone root c).cd_type ≠ LC_NONE ∨ (rootNone root c).cd_file ≠ []
    · by_cases hfit : size + ((rootNone root c).cd_len + sizeofPchange) ≥ B
      · simp only [replyLoop, if_pos hemit, if_pos hfit, List.map_nil, List.sum_nil,
          Nat.add_zero, imp_self, true_and]
        intro cd nx h _
        simp only [List.cons.injEq] at h
        rw [← h.1]
        exact Or.inl hfit
      · obtain ⟨f1, f2, f3⟩ := emitFiles_defer B (rootNone root c).cd_file
          (size + ((rootNone root c).cd_len + sizeofPchange))
        have hlt : size < B → (emitFiles B (size + ((rootNone root c).cd_len + sizeofPchange))
            (rootNone root c).cd_file).2.1 < B := fun _ => f2 (by omega)
        have hsum : (emitFiles B (size + ((rootNone root c).cd_len + sizeofPchange))
            (rootNone root c).cd_file).2.1 = size + (sizeofPchange + (rootNone root c).cd_len +
              ((emitFiles B (size + ((rootNone root c).cd_len + sizeofPchange))
                (rootNone root c).cd_file).1.map (fun p => sizeofPchange + p.ch_len)).sum) := by
          rw [f1]
          omega
        by_cases hleft : (emitFiles B (size + ((rootNone root c).cd_len + sizeofPchange))
            (rootNone root c).cd_file).2.2 ≠ []
        · simp only [replyLoop, if_pos hemit, if_neg hfit, if_pos hleft, List.map_cons,
            List.sum_cons]
          refine ⟨hsum, hlt, ?_⟩
          intro cd nx h _
          simp only [List.cons.injEq] at h
          rw [← h.1]
          cases hfl : (emitFiles B (size + ((rootNone root c).cd_len + sizeofPchange))
              (rootNone root c).cd_file).2.2 with
          | nil => exact absurd hfl hleft
          | cons cf rest => exact Or.inr ⟨rfl, cf, rest, rfl, f3 cf rest hfl⟩
        · by_cases hcond : next ≠ [] ∨ (emitFiles B (size + ((rootNone root c).cd_len +
              sizeofPchange)) (rootNone root c).cd_file).2.1 = 0
          · obtain ⟨r1, r2, r3⟩ := ih (emitFiles B (size + ((rootNone root c).cd_len +
              sizeofPchange)) (rootNone root c).cd_file).2.1
            simp only [replyLoop, if_pos hemit, if_neg hfit, if_neg hleft, if_pos hcond,
              List.map_cons, List.sum_cons, List.map_append, List.sum_append, List.cons_append]
            refine ⟨?_, fun h => r2 (hlt h), r3⟩
            rw [r1, hsum]
            simp only [packDir]
            omega
          · simp only [replyLoop, if_pos hemit, if_neg hfit, if_neg hleft, if_neg hcond,
              List.map_cons, List.sum_cons]
            refine ⟨hsum, hlt, ?_⟩
            intro cd nx h hrep
            simp only [List.cons.injEq] at h
            rw [← h.1] at hrep
            simp at hrep
    · by_cases hcond : next ≠ [] ∨ size = 0
      · simp only [replyLoop, if_neg hemit, if_pos hcond]
        exact ih size
      · simp only [replyLoop, if_neg hemit, if_neg hcond, List.map_nil, List.sum_nil,
          Nat.add_zero, imp_self, true_and]
        intro cd nx h hrep
        simp only [List.cons.injEq] at h
        rw [← h.1] at hrep
        exact absurd hrep hemit

/-- When the call after the first `n` writes no record, the records of the `n`
frames one after the other, the continuation records left out, are the record
sequence of the single-buffer serialization. -/
theorem streamOf_zero (B : Nat) (s : fs) (n : Nat)
    (htail : typedDirs s.fs_root s.fs_changes.tail) (hfit : dirsFit B s.fs_changes)
    (hzero : (lc_replyDiff B (layerAfter B n s)).records = []) :
    streamOf B true n s = serialize s.fs_root s.fs_changes := by
  obtain ⟨h1, h2, h3, h4⟩ := replyLoop_first B s.fs_root s.fs_changes htail hfit
  cases n with
  | zero =>
    have hrec : (replyLoop B s.fs_root 0 s.fs_changes).1 = [] := hzero
    rw [h1, hrec, h4 hrec]
    simp [streamOf, pending]
  | succ n =>
    obtain ⟨i1, i2, i3, i4⟩ := streamOf_later B n (lc_replyDiff B s).layer h2 h3
    obtain ⟨j1, _, _, j4⟩ := replyLoop_later B s.fs_root
      (layerAfter B n (lc_replyDiff B s).layer).fs_changes i2 i3
    have hroot : (layerAfter B n (lc_replyDiff B s).layer).fs_root = s.fs_root := i4
    have hrec : (replyLoop B s.fs_root 0
        (layerAfter B n (lc_replyDiff B s).layer).fs_changes).1 = [] := by
      have := hzero
      simp only [layerAfter, lc_replyDiff] at this
      simp only [lc_replyDiff] at hroot
      rw [hroot] at this
      exact this
    have hdone : pending s.fs_root
        (layerAfter B n (lc_replyDiff B s).layer).fs_changes = [] := by
      rw [j1, hrec, j4 hrec]
      simp [dropContinuation, pending]
    have i1' : pending s.fs_root (replyLoop B s.fs_root 0 s.fs_changes).2.2 =
        streamOf B false n (lc_replyDiff B s).layer ++
          pending s.fs_root (layerAfter B n (lc_replyDiff B s).layer).fs_changes := i1
    rw [h1, i1', hdone]
    simp [streamOf, lc_replyDiff]

/-- The loop of `lc_replyDiff` leaves file records that fit a frame with the
record of their directory: a record left keeps its length and the files left
are files it had. -/
theorem replyLoop_filesFit (B root : Nat) (l : List cdir) :
    ∀ size, filesFit B l → filesFit B (replyLoop B root size l).2.2 := by
  induction l with
  | nil => intro size _; simp [replyLoop, filesFit]
  | cons cd next ih =>
    intro size h
    obtain ⟨_, _, hlen, hfile, _⟩ := rootNone_fields root cd
    have hnext : filesFit B next := fun c hc => h c (List.mem_cons_of_mem _ hc)
    have hcd := h cd (List.mem_cons_self _ _)
    obtain ⟨done, hd1, _, _, _⟩ := emitFiles_spec B (rootNone root cd).cd_file
      (size + ((rootNone root cd).cd_len + sizeofPchange))
    simp only [replyLoop]
    split_ifs
    · intro c hc
      rcases List.mem_cons.mp hc with rfl | hc
      · rw [hlen, hfile]
        exact hcd
      · exact hnext c hc
    · intro c hc
      rcases List.mem_cons.mp hc with rfl | hc
      · intro cf hcf
        simp only at hcf ⊢
        rw [hlen]
        apply hcd
        rw [← hfile, hd1]
        exact List.mem_append_right _ hcf
      · exact hnext c hc
    · exact ih _ hnext
    · intro c hc
      simp only [List.mem_singleton] at hc
      subst hc
      intro cf hcf
      simp at hcf
    · exact ih _ hnext
    · intro c hc
      simp only [List.mem_singleton] at hc
      subst hc
      intro cf hcf
      simp only at hcf ⊢
      rw [hlen]
      apply hcd
      rw [← hfile]
      exact hcf

/-- A later call of `lc_replyDiff` with records pending writes one of them, when
every directory record fits an empty frame and every file record fits a frame
with the record of its directory: the frame holds a record besides the
continuation record. -/
theorem replyLoop_progress (B root : Nat) (l : List cdir) (hok : laterOK root l)
    (hfit : dirsFit B l) (hfiles : filesFit B l) (hpend : pending root l ≠ []) :
    dropContinuation l (replyLoop B root 0 l).1 ≠ [] := by
  obtain ⟨h1, _, _, h4⟩ := replyLoop_later B root l hok hfit
  by_cases hcont : isContinuation l = true
  · cases l with
    | nil => simp [isContinuation] at hcont
    | cons cd next =>
      simp only [isContinuation, decide_eq_true_eq] at hcont
      have hrn := rootNone_of_none root cd hcont.1
      have hemit : cd.cd_type ≠ LC_NONE ∨ cd.cd_file ≠ [] := Or.inr hcont.2
      have hdir := hfit cd (List.mem_cons_self _ _)
      have hfit0 : ¬ 0 + (cd.cd_len + sizeofPchange) ≥ B := by omega
      cases hcf : cd.cd_file with
      | nil => exact absurd hcf hcont.2
      | cons cf rest =>
        have hfile := hfiles cd (List.mem_cons_self _ _) cf (by rw [hcf]; exact List.mem_cons_self _ _)
        have hffit : ¬ 0 + (cd.cd_len + sizeofPchange) + (cf.cf_len + sizeofPchange) ≥ B := by
          omega
        have ht : (emitFiles B (0 + (cd.cd_len + sizeofPchange)) cd.cd_file).1 =
            packFile cf :: (emitFiles B (0 + (cd.cd_len + sizeofPchange) +
              (cf.cf_len + sizeofPchange)) rest).1 := by
          rw [hcf]
          simp only [emitFiles, if_neg hffit]
        have hc2 : isContinuation (cd :: next) = true := by
          simp [isContinuation, hcont.1, hcont.2]
        simp only [dropContinuation, hc2, if_true, replyLoop, hrn, if_pos hemit, if_neg hfit0]
        simp only [Nat.zero_add] at ht
        split_ifs <;> simp [ht]
  · intro hdrop
    simp only [dropContinuation, if_neg hcont] at hdrop h1
    apply hpend
    rw [h1, hdrop, h4 hdrop]
    simp [pending]

/-- A later call of `lc_replyDiff` with no record pending writes no record. -/
theorem replyLoop_idle (B root : Nat) (l : List cdir) (hok : laterOK root l)
    (hfit : dirsFit B l) (hpend : pending root l = []) : (replyLoop B root 0 l).1 = [] := by
  obtain ⟨h1, _, _, _⟩ := replyLoop_later B root l hok hfit
  have hcont : ¬ isContinuation l = true := by
    intro hcont
    cases l with
    | nil => simp [isContinuation] at hcont
    | cons cd next =>
      simp only [isContinuation, decide_eq_true_eq] at hcont
      simp [pending, hcont.1, hcont.2] at hpend
  rw [hpend] at h1
  simp only [dropContinuation, if_neg hcont] at h1
  have := congrArg List.length h1
  simp only [List.length_nil, List.length_append] at this
  exact List.eq_nil_of_length_eq_zero (by omega)

/-- The calls of `lc_replyDiff` after the first reach a call that writes no
record, when every directory record fits an empty frame and every file record
fits a frame with the record of its directory: each call before it takes a
record off what is pending. -/
theorem layerAfter_done (B : Nat) (k : Nat) : ∀ s : fs, laterOK s.fs_root s.fs_changes →
    dirsFit B s.fs_changes → filesFit B s.fs_changes →
    (pending s.fs_root s.fs_changes).length ≤ k →
    ∃ n, (lc_replyDiff B (layerAfter B n s)).records = [] := by
  induction k with
  | zero =>
    intro s hok hfit _ hlen
    exact ⟨0, replyLoop_idle B s.fs_root s.fs_changes hok hfit
      (List.eq_nil_of_length_eq_zero (by omega))⟩
  | succ k ih =>
    intro s hok hfit hfiles hlen
    by_cases hp : pending s.fs_root s.fs_changes = []
    · exact ⟨0, replyLoop_idle B s.fs_root s.fs_changes hok hfit hp⟩
    · obtain ⟨h1, h2, h3, _⟩ := replyLoop_later B s.fs_root s.fs_changes hok hfit
      have hdrop := replyLoop_progress B s.fs_root s.fs_changes hok hfit hfiles hp
      have hpos := List.length_pos.mpr hdrop
      have hlen1 := congrArg List.length h1
      simp only [List.length_append] at hlen1
      obtain ⟨n, hn⟩ := ih (lc_replyDiff B s).layer h2 h3
        (replyLoop_filesFit B s.fs_root s.fs_changes 0 hfiles) (by
          show (pending s.fs_root (replyLoop B s.fs_root 0 s.fs_changes).2.2).length ≤ k
          omega)
      exact ⟨n + 1, hn⟩

/-- C10 (amended): for a change list whose records after the head are typed
directories other than the root, whose directory records each fit an empty
frame and whose file records each fit a frame together with the record of their
directory, the successive calls of `lc_replyDiff` reach the all-zero frame, a
call that writes no record, after finitely many frames, and the records of the
frames before it one after the other, the continuation record at the head of a
later frame left out, are the record sequence of the single-buffer
serialization; so it is for every number `n` of frames followed by a call that
writes no record. The continuation record is the record of the directory cut
off by the frame before, written again with type `LC_NONE` ahead of its files
left. -/
theorem lc_replyDiff_stream (LC_BLOCK_SIZE : Nat) (s : fs)
    (htail : typedDirs s.fs_root s.fs_changes.tail) (hfit : dirsFit LC_BLOCK_SIZE s.fs_changes)
    (hfiles : filesFit LC_BLOCK_SIZE s.fs_changes) :
    (∃ n, (lc_replyDiff LC_BLOCK_SIZE (layerAfter LC_BLOCK_SIZE n s)).records = [] ∧
      replyFrame LC_BLOCK_SIZE (lc_replyDiff LC_BLOCK_SIZE (layerAfter LC_BLOCK_SIZE n s)) =
        some (List.replicate LC_BLOCK_SIZE 0) ∧
      streamOf LC_BLOCK_SIZE true n s = serialize s.fs_root s.fs_changes) ∧
    (∀ n, (lc_replyDiff LC_BLOCK_SIZE (layerAfter LC_BLOCK_SIZE n s)).records = [] →
      streamOf LC_BLOCK_SIZE true n s = serialize s.fs_root s.fs_changes) ∧
    ∀ (s' : fs) (cd : cdir) (next : List cdir), s'.fs_changes = cd :: next →
      cd.cd_type = LC_NONE → cd.cd_file ≠ [] → cd.cd_len + sizeofPchange < LC_BLOCK_SIZE →
      (lc_replyDiff LC_BLOCK_SIZE s').records.head? =
        some ⟨LC_NONE, cd.cd_len, (packDir cd).ch_path⟩ := by
  refine ⟨?_, fun n hzero => streamOf_zero LC_BLOCK_SIZE s n htail hfit hzero, ?_⟩
  · obtain ⟨_, h2, h3, _⟩ := replyLoop_first LC_BLOCK_SIZE s.fs_root s.fs_changes htail hfit
    obtain ⟨n, hn⟩ := layerAfter_done LC_BLOCK_SIZE _ (lc_replyDiff LC_BLOCK_SIZE s).layer h2 h3
      (replyLoop_filesFit LC_BLOCK_SIZE s.fs_root s.fs_changes 0 hfiles) (Nat.le_refl _)
    have hzero : (lc_replyDiff LC_BLOCK_SIZE (layerAfter LC_BLOCK_SIZE (n + 1) s)).records =
        [] := hn
    refine ⟨n + 1, hzero, ?_, streamOf_zero LC_BLOCK_SIZE s (n + 1) htail hfit hzero⟩
    apply replyFrame_zero _ _ hzero
    have hsize := (replyLoop_defer LC_BLOCK_SIZE (layerAfter LC_BLOCK_SIZE (n + 1) s).fs_root
      (layerAfter LC_BLOCK_SIZE (n + 1) s).fs_changes 0).1
    have hrec : (replyLoop LC_BLOCK_SIZE (layerAfter LC_BLOCK_SIZE (n + 1) s).fs_root 0
      (layerAfter LC_BLOCK_SIZE (n + 1) s).fs_changes).1 = [] := hzero
    rw [hrec] at hsize
    simpa [lc_replyDiff] using hsize
  · intro s' cd next hlist hty hfiles hlen
    have hrn := rootNone_of_none s'.fs_root cd hty
    have hfit0 : ¬ 0 + (cd.cd_len + sizeofPchange) ≥ LC_BLOCK_SIZE := by omega
    have hpack : packDir cd = ⟨LC_NONE, cd.cd_len, (packDir cd).ch_path⟩ := by
      simp [packDir, hty]
    simp only [lc_replyDiff, hlist, replyLoop, hrn, hfiles, ne_eq, not_false_eq_true, or_true,
      if_true, hfit0, if_false]
    split_ifs <;> simp only [List.head?_cons, List.cons_append] <;> rw [← hpack]

/-- C10 at a concrete change list: the root record with sixteen files of 255
bytes of name takes two frames of 4096 bytes, the third is the all-zero frame. -/
theorem lc_replyDiff_stream_witness :
    (∃ n, (lc_replyDiff 4096 (layerAfter 4096 n sampleBigDiff)).records = [] ∧
      replyFrame 4096 (lc_replyDiff 4096 (layerAfter 4096 n sampleBigDiff)) =
        some (List.replicate 4096 0) ∧
      streamOf 4096 true n sampleBigDiff =
        serialize sampleBigDiff.fs_root sampleBigDiff.fs_changes) ∧
    (lc_replyDiff 4096 (layerAfter 4096 2 sampleBigDiff)).records = [] ∧
    streamOf 4096 true 2 sampleBigDiff =
      serialize sampleBigDiff.fs_root sampleBigDiff.fs_changes :=
  ⟨(lc_replyDiff_stream 4096 sampleBigDiff
      (by intro cd hcd; simp [sampleBigDiff] at hcd)
      (by
        intro cd hcd
        simp only [sampleBigDiff, List.mem_singleton] at hcd
        subst hcd
        decide)
      (by
        intro cd hcd
        simp only [sampleBigDiff, List.mem_singleton] at hcd
        subst hcd
        intro cf hcf
        simp only [List.mem_replicate] at hcf
        rw [hcf.2]
        decide)).1,
    by decide,
    (lc_replyDiff_stream 4096 sampleBigDiff
      (by intro cd hcd; simp [sampleBigDiff] at hcd)
      (by
        intro cd hcd
        simp only [sampleBigDiff, List.mem_singleton] at hcd
        subst hcd
        decide)
      (by
        intro cd hcd
        simp only [sampleBigDiff, List.mem_singleton] at hcd
        subst hcd
        intro cf hcf
        simp only [List.mem_replicate] at hcf
        rw [hcf.2]
        decide)).2.1 2 (by decide)⟩

/-- C10 as stated fails: the root record with sixteen files of 255 bytes of
name goes out in two frames of 4096 bytes before the all-zero frame; the two
of them hold eighteen records, the single-buffer serialization seventeen, and
the record of the root directory heads the second frame again. And a directory
record longer than a frame is never written: the first frame is the all-zero
frame while the serialization holds its record. -/
theorem lc_replyDiff_stream_counterexample :
    ((framesOf 4096 3 sampleBigDiff).map List.length = [16, 2, 0] ∧
      (framesOf 4096 2 sampleBigDiff).flatten ≠
        serialize sampleBigDiff.fs_root sampleBigDiff.fs_changes ∧
      (framesOf 4096 2 sampleBigDiff).map List.head? =
        [some ⟨LC_NONE, 1, some [47]⟩, some ⟨LC_NONE, 1, some [47]⟩]) ∧
    ((lc_replyDiff 4096 deepLayer).records = [] ∧
      (serialize deepLayer.fs_root deepLayer.fs_changes).length = 1) := by
  refine ⟨⟨by decide, fun h => ?_, by decide⟩, by decide, by decide⟩
  have hlen := congrArg List.length h
  revert hlen
  decide

/-! ### The all-zero frame -/

/-- The long path of the examples has 4095 bytes. -/
theorem longPath_length : longPath.length = 4095 := by
  simp only [longPath, List.length_append, List.length_flatten, List.map_replicate,
    List.length_cons, List.length_replicate, List.sum_replicate, smul_eq_mul]

/-- When every directory record fits an empty frame, a call of `lc_replyDiff`
that writes no record leaves the change list empty. -/
theorem replyLoop_done (B root : Nat) (l : List cdir) (hfit : dirsFit B l)
    (hrec : (replyLoop B root 0 l).1 = []) : (replyLoop B root 0 l).2.2 = [] := by
  induction l with
  | nil => simp [replyLoop]
  | cons cd next ih =>
    have hnext : dirsFit B next := fun c hc => hfit c (List.mem_cons_of_mem _ hc)
    obtain ⟨_, _, hlen, _, _⟩ := rootNone_fields root cd
    have hfit0 : ¬ 0 + ((rootNone root cd).cd_len + sizeofPchange) ≥ B := by
      have := hfit cd (List.mem_cons_self _ _)
      rw [hlen]
      omega
    by_cases hemit : (rootNone root cd).cd_type ≠ LC_NONE ∨ (rootNone root cd).cd_file ≠ []
    · exfalso
      revert hrec
      simp only [replyLoop, if_pos hemit, if_neg hfit0]
      split_ifs <;> simp
    · simp only [replyLoop, if_neg hemit, or_true, if_true] at hrec ⊢
      exact ih hnext hrec

/-- C11 at the failing input: the change list holds the record of a directory
whose path has 4095 bytes, with one file record; `lc_replyDiff` with a buffer of
4096 bytes answers the all-zero frame, the frame of the end of the diff, while
the record of the directory and its file record stay in the change list, and
the next call answers the same frame and leaves the same list. -/
theorem lc_replyDiff_zero_frame_pending :
    longPath.length = 4095 ∧
    replyFrame 4096 (lc_replyDiff 4096 longPathLayer) = some (List.replicate 4096 0) ∧
    (lc_replyDiff 4096 longPathLayer).layer.fs_changes =
      [⟨7, LC_ADDED, some longPath, 4095, [⟨[102], 1, LC_ADDED⟩]⟩] ∧
    replyFrame 4096 (lc_replyDiff 4096 (lc_replyDiff 4096 longPathLayer).layer) =
      some (List.replicate 4096 0) ∧
    (lc_replyDiff 4096 (lc_replyDiff 4096 longPathLayer).layer).layer.fs_changes =
      [⟨7, LC_ADDED, some longPath, 4095, [⟨[102], 1, LC_ADDED⟩]⟩] := by
  have h1 : lc_replyDiff 4096 longPathLayer =
      ⟨[], 0, ⟨1, 2, [⟨7, LC_ADDED, some longPath, 4095, [⟨[102], 1, LC_ADDED⟩]⟩], [], []⟩⟩ := by
    simp [lc_replyDiff, longPathLayer, replyLoop, rootNone, sizeofPchange]
  have h2 : lc_replyDiff 4096
      ⟨1, 2, [⟨7, LC_ADDED, some longPath, 4095, [⟨[102], 1, LC_ADDED⟩]⟩], [], []⟩ =
      ⟨[], 0, ⟨1, 2, [⟨7, LC_ADDED, some longPath, 4095, [⟨[102], 1, LC_ADDED⟩]⟩], [], []⟩⟩ := by
    simp [lc_replyDiff, replyLoop, rootNone, sizeofPchange]
  refine ⟨longPath_length, ?_, ?_, ?_, ?_⟩
  · rw [h1]; exact replyFrame_zero 4096 _ rfl rfl
  · rw [h1]
  · rw [h1, h2]; exact replyFrame_zero 4096 _ rfl rfl
  · rw [h1, h2]

/-! ### A directory that replaces a removed entry -/

/-- The search for a file record of the name on a list split at the first such
record: that record, and the list without it. -/
theorem removedEntry_split (name : List Nat) (len : Nat) (pre : List cfile) (cf : cfile)
    (post : List cfile) (hpre : ∀ x ∈ pre, sameName x name len = false)
    (hcf : sameName cf name len = true) :
    removedEntry name len (pre ++ cf :: post) = some (cf, pre ++ post) := by
  induction pre with
  | nil => simp [removedEntry, hcf]
  | cons a pre ih =>
    have ha : sameName a name len = false := hpre a (List.mem_cons_self _ _)
    have ih' := ih (fun x hx => hpre x (List.mem_cons_of_mem _ hx))
    rw [List.cons_append]
    simp only [removedEntry, ha, Bool.false_eq_true, if_false]
    rw [ih']
    simp

/-- The search for a file record of the name finds nothing in a list without one. -/
theorem removedEntry_none (name : List Nat) (len : Nat) (l : List cfile)
    (h : ∀ x ∈ l, sameName x name len = false) : removedEntry name len l = none := by
  induction l with
  | nil => simp [removedEntry]
  | cons a l ih =>
    have ha : sameName a name len = false := h a (List.mem_cons_self _ _)
    simp only [removedEntry, ha, Bool.false_eq_true, if_false,
      ih (fun x hx => h x (List.mem_cons_of_mem _ hx)), Option.map_none']

/-- C20: `lc_addDirectoryPath` for a directory other than the root, whose parent
record is in the change list, whose name `N` of `n` bytes resolves and whose
parent path fills its `cd_len` bytes. When the new record is `LC_ADDED`, the
parent record `LC_MODIFIED` and the first file record of the name in its file
list is `LC_REMOVED`, exactly that file record is unlinked, the others kept in
order, and the new record is linked with type `LC_MODIFIED`. When the parent
record is not `LC_MODIFIED` or holds no file record of the name, the parent
record is left as it is and the new record is linked with its own type. -/
theorem lc_addDirectoryPath_promote (getDirent : fs → Nat → Nat → Option dirent)
    (s : fs) (ino parent : Nat) (new : cdir) (cdir : Option Nat)
    (name : List Nat) (len k : Nat) (cd : Lcfs.cdir) (P N : List Nat) (n : Nat)
    (hroot : ino ≠ s.fs_root)
    (hk : cdir = some k ∨ (cdir = none ∧ findCdir parent s.fs_changes = some k))
    (hcd : s.fs_changes[k]? = some cd) (hino : cd.cd_ino = parent)
    (hname : entryName getDirent s parent ino name len = some (N, n))
    (hN : N.length = n) (hP : cd.cd_path = some P) (hPlen : P.length = cd.cd_len) :
    (cd.cd_type = LC_MODIFIED → new.cd_type = LC_ADDED →
      ∀ (pre : List cfile) (cf : cfile) (post : List cfile), cd.cd_file = pre ++ cf :: post →
        (∀ x ∈ pre, sameName x N n = false) → sameName cf N n = true →
        cf.cf_type = LC_REMOVED →
        ∃ new', lc_addDirectoryPath getDirent s ino parent new cdir name len =
            some { s with fs_changes := s.fs_changes.take k ++
              { cd with cd_file := pre ++ post } :: new' :: s.fs_changes.drop (k + 1) } ∧
          new'.cd_type = LC_MODIFIED ∧ new'.cd_ino = new.cd_ino) ∧
    (cd.cd_type ≠ LC_MODIFIED ∨ (∀ x ∈ cd.cd_file, sameName x N n = false) →
      ∃ new', lc_addDirectoryPath getDirent s ino parent new cdir name len =
          some { s with fs_changes := s.fs_changes.take k ++ cd :: new' ::
            s.fs_changes.drop (k + 1) } ∧
        new'.cd_type = new.cd_type ∧ new'.cd_ino = new.cd_ino) := by
  have hpath := buildPath_eq cd P N n hP hPlen hN
  constructor
  · intro hmod hadd pre cf post hfiles hpre hcf hrem
    have hchk : checkRemoved cd new.cd_type N n = some (pre ++ post, LC_MODIFIED) := by
      simp [checkRemoved, hmod, hfiles, removedEntry_split N n pre cf post hpre hcf, hadd, hrem]
    exact ⟨_, lc_addDirectoryPath_eq getDirent s ino parent new cdir name len k cd N n _ _ _ _
      hroot hk hcd hino hname hchk hpath, rfl, rfl⟩
  · intro h
    have hchk : checkRemoved cd new.cd_type N n = some (cd.cd_file, new.cd_type) := by
      rcases h with h | h
      · simp [checkRemoved, h]
      · simp [checkRemoved, removedEntry_none N n cd.cd_file h]
    exact ⟨_, lc_addDirectoryPath_eq getDirent s ino parent new cdir name len k cd N n _ _ _ _
      hroot hk hcd hino hname hchk hpath, rfl, rfl⟩

/-- C20 at a concrete change list: the added directory "e" of inode 8 under
"/d", whose record holds an added "a" and a removed "e". -/
theorem lc_addDirectoryPath_promote_witness :
    ∃ new', lc_addDirectoryPath (fun _ _ _ => none) sampleReplaced 8 7
        ⟨8, LC_ADDED, none, 0, []⟩ none [101] 1 =
        some { sampleReplaced with fs_changes := sampleReplaced.fs_changes.take 1 ++
          { (⟨7, LC_MODIFIED, some [47, 100], 2,
              [⟨[97], 1, LC_ADDED⟩, ⟨[101], 1, LC_REMOVED⟩]⟩ : Lcfs.cdir) with
            cd_file := [⟨[97], 1, LC_ADDED⟩] ++ [] } :: new' ::
          sampleReplaced.fs_changes.drop (1 + 1) } ∧
      new'.cd_type = LC_MODIFIED ∧ new'.cd_ino = 8 :=
  (lc_addDirectoryPath_promote (fun _ _ _ => none) sampleReplaced 8 7
    ⟨8, LC_ADDED, none, 0, []⟩ none [101] 1 1
    ⟨7, LC_MODIFIED, some [47, 100], 2, [⟨[97], 1, LC_ADDED⟩, ⟨[101], 1, LC_REMOVED⟩]⟩
    [47, 100] [101] 1 (by decide) (Or.inr ⟨rfl, by decide⟩) (by decide) rfl
    (by decide) rfl rfl rfl).1 rfl rfl [⟨[97], 1, LC_ADDED⟩] ⟨[101], 1, LC_REMOVED⟩ [] rfl
    (by decide) (by decide) rfl

/-! ### The ordered walk and the assertions of `lc_addFile` -/

/-- C18 at the failing input: the parent bucket holds the files "x" of inode 11
and "y" of inode 12, the child bucket the same inodes in the same order under
the names "y" and "z"; the entries are no directories, the names of each bucket
are distinct and so are the inode numbers. The ordered walk calls `lc_addName`
with ("x", removed), ("y", added), ("y", removed), ("z", added); on the root
record without file records the third call reaches `lc_addFile` with a removed
"y" while "y" is recorded as added, the assertion fails and the walk aborts. -/
theorem lc_processBucketInto_rename_chain :
    (∀ d ∈ chainParent ++ chainChild, S_ISDIR d.di_mode = false) ∧
    sameOrder chainParent chainChild ∧
    (chainParent.map dirent.di_name).Nodup ∧ (chainChild.map dirent.di_name).Nodup ∧
    (chainParent.map dirent.di_ino).Nodup ∧ (chainChild.map dirent.di_ino).Nodup ∧
    lc_processBucket chainParent chainChild =
      some [⟨11, [120], 33188, 1, LC_REMOVED⟩, ⟨11, [121], 33188, 1, LC_ADDED⟩,
        ⟨12, [121], 33188, 1, LC_REMOVED⟩, ⟨12, [122], 33188, 1, LC_ADDED⟩] ∧
    (runCalls (fun _ _ => none) (fun _ _ _ _ _ _ => none) 0 20 chainLayer
        [⟨11, [120], 33188, 1, LC_REMOVED⟩, ⟨11, [121], 33188, 1, LC_ADDED⟩]).map fs.fs_changes =
      some [⟨2, LC_MODIFIED, some [47], 1, [⟨[120], 1, LC_REMOVED⟩, ⟨[121], 1, LC_ADDED⟩]⟩] ∧
    lc_addFile ⟨2, LC_MODIFIED, some [47], 1, [⟨[120], 1, LC_REMOVED⟩, ⟨[121], 1, LC_ADDED⟩]⟩
      12 [121] 1 LC_REMOVED = none ∧
    lc_processBucketInto (fun _ _ => none) (fun _ _ _ _ _ _ => none) chainLayer 0 20
      chainParent chainChild = none := by
  refine ⟨by decide, by unfold sameOrder; decide, by decide, by decide, by decide, by decide,
    by decide, by decide, by decide, by decide⟩

/-! ### The entries only the child bucket holds -/

/-- The inner scan stops at the first entry of the inode number: the entries it
passes have another number. -/
theorem scanIno_cons (ino : Nat) (l : List dirent) (d : dirent) (rest : List dirent)
    (h : scanIno ino l = d :: rest) :
    d.di_ino = ino ∧ ∃ pre, l = pre ++ d :: rest ∧ ∀ x ∈ pre, x.di_ino ≠ ino := by
  induction l with
  | nil => simp [scanIno] at h
  | cons a l ih =>
    by_cases ha : a.di_ino ≠ ino
    · simp only [scanIno, if_pos ha] at h
      obtain ⟨h1, pre, h2, h3⟩ := ih h
      refine ⟨h1, a :: pre, by rw [h2]; rfl, ?_⟩
      intro x hx
      rcases List.mem_cons.mp hx with rfl | hx
      · exact ha
      · exact h3 x hx
    · simp only [scanIno, if_neg ha, List.cons.injEq] at h
      obtain ⟨h1, h2⟩ := h
      subst h1 h2
      exact ⟨not_not.mp ha, [], rfl, by simp⟩

/-- The inner scan runs into `NULL` only when no entry has the inode number. -/
theorem scanIno_nil (ino : Nat) (l : List dirent) (h : scanIno ino l = []) :
    ∀ x ∈ l, x.di_ino ≠ ino := by
  induction l with
  | nil => simp
  | cons a l ih =>
    by_cases ha : a.di_ino ≠ ino
    · simp only [scanIno, if_pos ha] at h
      intro x hx
      rcases List.mem_cons.mp hx with rfl | hx
      · exact ha
      · exact ih h x hx
    · simp [scanIno, ha] at h

/-- An anchor that is set stays as it is to the end of the parent walk. -/
theorem parentWalk_anchor_keep (ps cur ad : List dirent) (had : ad ≠ []) :
    (parentWalk ps cur ad).2 = ad := by
  induction ps generalizing cur with
  | nil => simp [parentWalk]
  | cons p ps ih =>
    cases hscan : scanIno p.di_ino cur with
    | nil => simp only [parentWalk, hscan, ih]
    | cons d rest =>
      simp only [parentWalk, hscan, if_neg had]
      split_ifs
      · exact ih rest
      · exact ih rest

/-- Every call of the parent walk is for an inode number of the parent bucket. -/
theorem parentWalk_calls_ino (ps cur ad : List dirent) :
    ∀ c ∈ (parentWalk ps cur ad).1, c.ino ∈ ps.map dirent.di_ino := by
  induction ps generalizing cur ad with
  | nil => simp [parentWalk]
  | cons p ps ih =>
    cases hscan : scanIno p.di_ino cur with
    | nil =>
      intro c hc
      simp only [parentWalk, hscan, List.mem_cons] at hc
      rcases hc with rfl | hc
      · simp [removedCall]
      · exact List.mem_cons_of_mem _ (ih cur ad c hc)
    | cons d rest =>
      have hd := (scanIno_cons p.di_ino cur d rest hscan).1
      intro c hc
      simp only [parentWalk, hscan] at hc
      generalize (if ad = [] then d :: rest else ad) = ad' at hc
      split_ifs at hc
      · simp only [List.mem_cons] at hc
        rcases hc with rfl | rfl | hc
        · simp [removedCall]
        · simp [addedCall, hd]
        · exact List.mem_cons_of_mem _ (ih rest _ c hc)
      · exact List.mem_cons_of_mem _ (ih rest _ c hc)

/-- The anchor at the end of a parent walk that starts without one: either no
parent entry has its inode number in the child bucket and the anchor is `NULL`,
or the anchor is the child entry of the first parent entry that has one. -/
theorem parentWalk_anchor (ps cur : List dirent) :
    ((parentWalk ps cur []).2 = [] ∧ ∀ p ∈ ps, ∀ x ∈ cur, x.di_ino ≠ p.di_ino) ∨
    ∃ ps1 p ps2 pre d rest, ps = ps1 ++ p :: ps2 ∧ cur = pre ++ d :: rest ∧
      (parentWalk ps cur []).2 = d :: rest ∧ d.di_ino = p.di_ino ∧
      (∀ x ∈ pre, x.di_ino ≠ p.di_ino) ∧ ∀ p' ∈ ps1, ∀ x ∈ cur, x.di_ino ≠ p'.di_ino := by
  induction ps with
  | nil => exact Or.inl ⟨by simp [parentWalk], by simp⟩
  | cons p ps ih =>
    cases hscan : scanIno p.di_ino cur with
    | nil =>
      have hp := scanIno_nil p.di_ino cur hscan
      have hval : (parentWalk (p :: ps) cur []).2 = (parentWalk ps cur []).2 := by
        simp only [parentWalk, hscan]
      rcases ih with ⟨h1, h2⟩ | ⟨ps1, q, ps2, pre, d, rest, h1, h2, h3, h4, h5, h6⟩
      · refine Or.inl ⟨by rw [hval, h1], ?_⟩
        intro p' hp' x hx
        rcases List.mem_cons.mp hp' with rfl | hp'
        · exact hp x hx
        · exact h2 p' hp' x hx
      · refine Or.inr ⟨p :: ps1, q, ps2, pre, d, rest, by rw [h1]; rfl, h2, by rw [hval, h3],
          h4, h5, ?_⟩
        intro p' hp' x hx
        rcases List.mem_cons.mp hp' with rfl | hp'
        · exact hp x hx
        · exact h6 p' hp' x hx
    | cons d rest =>
      obtain ⟨hd, pre, hcur, hpre⟩ := scanIno_cons p.di_ino cur d rest hscan
      have hval : (parentWalk (p :: ps) cur []).2 = d :: rest := by
        simp only [parentWalk, hscan, if_true]
        split_ifs
        · exact parentWalk_anchor_keep ps rest (d :: rest) (by simp)
        · exact parentWalk_anchor_keep ps rest (d :: rest) (by simp)
      exact Or.inr ⟨[], p, ps, pre, d, rest, rfl, hcur, hval, hd, hpre, by simp⟩

/-- The loop over the newly created entries, from the head of the child bucket
to the anchor: one call for each entry ahead of the anchor. -/
theorem newEntries_ahead (pre ad : List dirent) :
    newEntries ad (pre ++ ad) = some (pre.map addedCall) := by
  induction pre with
  | nil => simpa using newEntries_self ad
  | cons x pre ih =>
    have hlen : ¬ (x :: (pre ++ ad)).length = ad.length := by
      simp only [List.length_cons, List.length_append]
      omega
    rw [List.cons_append]
    simp only [newEntries, if_neg hlen, ih, Option.map_some', List.map_cons]

/-- Two inode numbers in their order of a list that holds the second after the
first. -/
theorem pair_sublist (l1 l2 : List Nat) (a b : Nat) (hb : b ∈ l2) :
    List.Sublist [a, b] (l1 ++ a :: l2) :=
  List.Sublist.trans ((List.singleton_sublist.mpr hb).cons₂ a)
    (List.sublist_append_right l1 (a :: l2))

/-- The call for an added entry tells the entry. -/
theorem addedCall_injective : Function.Injective addedCall := by
  intro d e h
  cases d
  cases e
  simp only [addedCall, addNameCall.mk.injEq] at h
  simp [h.1, h.2.1, h.2.2.1, h.2.2.2.1]

/-- The call list of the walk of one bucket pair, the calls made when every call
returns: the calls of the parent walk, all for inode numbers of the parent
bucket, then one call with type `LC_ADDED` for each child entry ahead of the
anchor, the first child entry matched by the parent walk (every child entry
when none is matched), whose inode number is one of the parent bucket. In that
list a child entry whose inode number occurs in no parent entry comes as added
once when it lies ahead of the anchor and not at all otherwise; and when no two
inode numbers come in opposite orders in the two buckets, every entry ahead of
the anchor is such an entry. -/
theorem lc_processBucket_calls (ps ds : List dirent) :
    ∃ k, k ≤ ds.length ∧ ds.drop k = (parentWalk ps ds []).2 ∧
      lc_processBucket ps ds =
        some ((parentWalk ps ds []).1 ++ (ds.take k).map addedCall) ∧
      (∀ c ∈ (parentWalk ps ds []).1, c.ino ∈ ps.map dirent.di_ino) ∧
      (∀ d, (ds.drop k).head? = some d → d.di_ino ∈ ps.map dirent.di_ino) ∧
      (∀ d : dirent, d.di_ino ∉ ps.map dirent.di_ino →
        ((parentWalk ps ds []).1 ++ (ds.take k).map addedCall).count (addedCall d) =
          (ds.take k).count d) ∧
      (sameOrder ps ds → ∀ d ∈ ds.take k, d.di_ino ∉ ps.map dirent.di_ino) := by
  have hcalls := parentWalk_calls_ino ps ds []
  have hcount : ∀ (pre : List dirent) (d : dirent), d.di_ino ∉ ps.map dirent.di_ino →
      ((parentWalk ps ds []).1 ++ pre.map addedCall).count (addedCall d) = pre.count d := by
    intro pre d hd
    have hzero : (parentWalk ps ds []).1.count (addedCall d) = 0 := by
      apply List.count_eq_zero_of_not_mem
      intro hmem
      exact hd (hcalls _ hmem)
    rw [List.count_append, hzero, Nat.zero_add,
      List.count_map_of_injective pre addedCall addedCall_injective d]
  rcases parentWalk_anchor ps ds with
    ⟨h1, h2⟩ | ⟨ps1, p, ps2, pre, d, rest, hps, hds, ha, hd, hpre, hps1⟩
  · refine ⟨ds.length, le_refl _, by simp [h1], ?_, hcalls, by simp, ?_, ?_⟩
    · have := newEntries_ahead ds []
      simp only [List.append_nil] at this
      simp only [lc_processBucket, h1, this, Option.map_some', List.take_length]
    · intro e he
      rw [List.take_length]
      exact hcount ds e he
    · intro _ e he hmem
      rw [List.take_length] at he
      obtain ⟨q, hq, hqe⟩ := List.mem_map.mp hmem
      exact h2 q hq e he hqe.symm
  · have htake : ds.take pre.length = pre := by rw [hds]; simp
    have hdrop : ds.drop pre.length = d :: rest := by rw [hds]; simp
    refine ⟨pre.length, by rw [hds]; simp, by rw [hdrop, ha], ?_, hcalls, ?_, ?_, ?_⟩
    · have := newEntries_ahead pre (d :: rest)
      rw [← hds] at this
      simp only [lc_processBucket, ha, this, Option.map_some', htake]
    · intro e he
      rw [hdrop] at he
      simp only [List.head?_cons, Option.some.injEq] at he
      subst he
      rw [hd, hps]
      simp
    · intro e he
      rw [htake]
      exact hcount pre e he
    · intro hord e he hmem
      rw [htake] at he
      obtain ⟨q, hq, hqe⟩ := List.mem_map.mp hmem
      have hecur : e ∈ ds := by rw [hds]; exact List.mem_append_left _ he
      rw [hps] at hq
      rcases List.mem_append.mp hq with hq | hq
      · exact hps1 q hq e hecur hqe.symm
      · rcases List.mem_cons.mp hq with rfl | hq
        · exact hpre e he hqe.symm
        · obtain ⟨e1, e2, hsplit⟩ := List.append_of_mem he
          have hpm : p.di_ino ∈ ps.map dirent.di_ino := by rw [hps]; simp
          have hqm : q.di_ino ∈ ps.map dirent.di_ino := by
            rw [hps]
            simp only [List.map_append, List.map_cons, List.mem_append, List.mem_cons,
              List.mem_map]
            exact Or.inr (Or.inr ⟨q, hq, rfl⟩)
          have hsub1 : List.Sublist [p.di_ino, q.di_ino] (ps.map dirent.di_ino) := by
            rw [hps, List.map_append, List.map_cons]
            exact pair_sublist _ _ _ _ (List.mem_map.mpr ⟨q, hq, rfl⟩)
          have hsub2 : List.Sublist [q.di_ino, p.di_ino] (ds.map dirent.di_ino) := by
            rw [hds, hsplit, List.append_assoc, List.map_append, List.cons_append,
              List.map_cons, hqe]
            apply pair_sublist
            rw [← hd]
            exact List.mem_map.mpr ⟨d, by simp, rfl⟩
          exact hord _ hpm _ hqm hsub1 hsub2

/-- A walk whose calls all return makes every call of its list. -/
theorem callsMade_of_runCalls (getInode : fs → Nat → Option inode)
    (addDirectory : fs → inode → List Nat → Nat → Nat → lc_changeType → Option (fs × Nat))
    (k lastIno : Nat) (calls : List addNameCall) :
    ∀ s s', runCalls getInode addDirectory k lastIno s calls = some s' →
      callsMade getInode addDirectory k lastIno s calls = calls := by
  induction calls with
  | nil => intro s s' _; rfl
  | cons c cs ih =>
    intro s s' h
    simp only [runCalls] at h
    cases hc : lc_addName getInode addDirectory s k lastIno c with
    | none => simp [hc] at h
    | some s1 =>
      simp only [hc] at h
      simp only [callsMade, hc, ih s1 s' h]

/-- A name recorded by `lc_addFile` as added cannot be recorded as removed
afterwards: the assertion `ctype != LC_REMOVED` fails. -/
theorem lc_addFileList_removed_after (name : List Nat) (len : Nat) (l : List cfile) :
    ∀ l', lc_addFileList name len LC_ADDED l = some l' →
      lc_addFileList name len LC_REMOVED l' = none := by
  induction l with
  | nil =>
    intro l' h
    simp only [lc_addFileList, Option.some.injEq] at h
    subst h
    have hs : sameName ⟨name, len, LC_ADDED⟩ name len = true :=
      sameName_of_eq ⟨name, len, LC_ADDED⟩ name len rfl rfl
    simp [lc_addFileList, hs]
  | cons cf rest ih =>
    intro l' h
    by_cases hs : sameName cf name len = true
    · simp only [lc_addFileList, hs, if_true] at h
      split_ifs at h with h1 h2
      · simp only [Option.some.injEq] at h
        subst h
        have hs' : sameName { cf with cf_type := LC_MODIFIED } name len = true := hs
        simp [lc_addFileList, hs']
      · simp only [Option.some.injEq] at h
        subst h
        have hne : cf.cf_type ≠ LC_REMOVED := by
          rcases h2.1 with h3 | h3 <;> rw [h3] <;> decide
        simp [lc_addFileList, hs, hne]
    · have hs0 : sameName cf name len = false := by simpa using hs
      simp only [lc_addFileList, hs0, Bool.false_eq_true, if_false] at h
      cases hrec : lc_addFileList name len LC_ADDED rest with
      | none => simp [hrec] at h
      | some r =>
        simp only [hrec, Option.map_some', Option.some.injEq] at h
        subst h
        simp [lc_addFileList, hs0, ih r hrec]

/-- After a call of `lc_addName` that records a file name as added has returned,
a call that records the same name as removed aborts, whatever the layer. -/
theorem lc_addName_removed_after (getInode : fs → Nat → Option inode)
    (addDirectory : fs → inode → List Nat → Nat → Nat → lc_changeType → Option (fs × Nat))
    (s s' : fs) (k lastIno ino ino' mode mode' len : Nat) (name : List Nat)
    (hfile : S_ISDIR mode = false)
    (h : lc_addName getInode addDirectory s k lastIno ⟨ino, name, mode, len, LC_ADDED⟩ =
      some s') :
    lc_addName getInode addDirectory s' k lastIno ⟨ino', name, mode', len, LC_REMOVED⟩ =
      none := by
  simp only [lc_addName, hfile, Bool.false_eq_true, false_and, if_false] at h
  cases hcd : s.fs_changes[k]? with
  | none => simp [hcd] at h
  | some cd =>
    simp only [hcd] at h
    have hk : k < s.fs_changes.length := by
      rcases List.getElem?_eq_some.mp hcd with ⟨hlt, _⟩
      exact hlt
    cases hf : lc_addFile cd ino name len LC_ADDED with
    | none => simp [hf] at h
    | some cd' =>
      simp only [hf, ne_eq, not_false_eq_true, if_true] at h
      have hlist : s'.fs_changes = s.fs_changes.set k cd' := by
        cases ht : trackInode s.fs_id ino lastIno s.fs_icache with
        | none => simp [ht] at h
        | some ic =>
          simp [ht] at h
          rw [← h]
      have hget : s'.fs_changes[k]? = some cd' := by
        rw [hlist]
        exact List.getElem?_set_self hk
      have hfail : lc_addFile cd' ino' name len LC_REMOVED = none := by
        simp only [lc_addFile] at hf ⊢
        split_ifs at hf with hty
        cases hl : lc_addFileList name len LC_ADDED cd.cd_file with
        | none => simp [hl] at hf
        | some l' =>
          simp only [hl, Option.map_some', Option.some.injEq] at hf
          subst hf
          simp [hty, lc_addFileList_removed_after name len cd.cd_file l' hl]
      simp [lc_addName, hget, hfail]

/-- C19 at the failing input: the parent bucket holds "x" of inode 11 and "y" of
inode 12, the child bucket the new file "w" of inode 21, then "y" of inode 11
and "z" of inode 12. The inode number 21 is in no parent entry and "w" lies
ahead of the anchor, the entry of inode 11, so the call list of the walk ends
with ("w", added). Carried out on the root record without file records, the
walk makes the calls ("x", removed), ("y", added), ("y", removed) and aborts in
the third, on the assertion of `lc_addFile`: the call for "w" is never made.
The walk aborts in every layer, at that call or at one before it. -/
theorem lc_processBucketInto_child_only_abort :
    (∀ p ∈ chainParent, p.di_ino ≠ 21) ∧
    aheadChild = ⟨21, [119], 1, 33188⟩ :: (parentWalk chainParent aheadChild []).2 ∧
    sameOrder chainParent aheadChild ∧
    (chainParent.map dirent.di_ino).Nodup ∧ (aheadChild.map dirent.di_ino).Nodup ∧
    (chainParent.map dirent.di_name).Nodup ∧ (aheadChild.map dirent.di_name).Nodup ∧
    lc_processBucket chainParent aheadChild =
      some [⟨11, [120], 33188, 1, LC_REMOVED⟩, ⟨11, [121], 33188, 1, LC_ADDED⟩,
        ⟨12, [121], 33188, 1, LC_REMOVED⟩, ⟨12, [122], 33188, 1, LC_ADDED⟩,
        ⟨21, [119], 33188, 1, LC_ADDED⟩] ∧
    callsMade (fun _ _ => none) (fun _ _ _ _ _ _ => none) 0 20 aheadLayer
        [⟨11, [120], 33188, 1, LC_REMOVED⟩, ⟨11, [121], 33188, 1, LC_ADDED⟩,
          ⟨12, [121], 33188, 1, LC_REMOVED⟩, ⟨12, [122], 33188, 1, LC_ADDED⟩,
          ⟨21, [119], 33188, 1, LC_ADDED⟩] =
      [⟨11, [120], 33188, 1, LC_REMOVED⟩, ⟨11, [121], 33188, 1, LC_ADDED⟩,
        ⟨12, [121], 33188, 1, LC_REMOVED⟩] ∧
    lc_processBucketInto (fun _ _ => none) (fun _ _ _ _ _ _ => none) aheadLayer 0 20
      chainParent aheadChild = none ∧
    ∀ (getInode : fs → Nat → Option inode)
      (addDirectory : fs → inode → List Nat → Nat → Nat → lc_changeType → Option (fs × Nat))
      (s : fs) (k lastIno : Nat),
      lc_processBucketInto getInode addDirectory s k lastIno chainParent aheadChild = none ∧
      addedCall ⟨21, [119], 1, 33188⟩ ∉ callsMade getInode addDirectory k lastIno s
        [⟨11, [120], 33188, 1, LC_REMOVED⟩, ⟨11, [121], 33188, 1, LC_ADDED⟩,
          ⟨12, [121], 33188, 1, LC_REMOVED⟩, ⟨12, [122], 33188, 1, LC_ADDED⟩,
          ⟨21, [119], 33188, 1, LC_ADDED⟩] := by
  have hcalls : lc_processBucket chainParent aheadChild =
      some [⟨11, [120], 33188, 1, LC_REMOVED⟩, ⟨11, [121], 33188, 1, LC_ADDED⟩,
        ⟨12, [121], 33188, 1, LC_REMOVED⟩, ⟨12, [122], 33188, 1, LC_ADDED⟩,
        ⟨21, [119], 33188, 1, LC_ADDED⟩] := by decide
  refine ⟨by decide, by decide, by unfold sameOrder; decide, by decide, by decide, by decide,
    by decide, hcalls, by decide, by decide, ?_⟩
  intro getInode addDirectory s k lastIno
  simp only [lc_processBucketInto, hcalls, runCalls, callsMade]
  cases h1 : lc_addName getInode addDirectory s k lastIno
      ⟨11, [120], 33188, 1, LC_REMOVED⟩ with
  | none => simp [addedCall]
  | some s1 =>
    cases h2 : lc_addName getInode addDirectory s1 k lastIno
        ⟨11, [121], 33188, 1, LC_ADDED⟩ with
    | none => simp [addedCall, h2]
    | some s2 =>
      simp [addedCall, h2, lc_addName_removed_after getInode addDirectory s1 s2 k lastIno 11 12
        33188 33188 1 [121] (by decide) h2]

/-! ### The name lookup of `lc_compareDirectory` -/

/-- Buckets that hold no entry in all hold no entry each. -/
theorem flatten_nil_of_sum (bs : List (List dirent)) (h : (bs.map List.length).sum = 0) :
    bs.flatten = [] := by
  induction bs with
  | nil => rfl
  | cons b bs ih =>
    simp only [List.map_cons, List.sum_cons] at h
    have hb : b = [] := List.length_eq_zero.mp (by omega)
    simp only [List.flatten_cons, hb, List.nil_append]
    exact ih (by omega)

/-- A scan of a directory whose size counts its entries visits every entry. -/
theorem scanBuckets_all (emit : dirent → List addNameCall) (size : Nat)
    (bs : List (List dirent)) :
    ∀ count, count + (bs.map List.length).sum = size →
      scanBuckets emit size count bs = bs.flatten.flatMap emit := by
  induction bs with
  | nil => intro count _; simp [scanBuckets]
  | cons b bs ih =>
    intro count h
    simp only [List.map_cons, List.sum_cons] at h
    simp only [scanBuckets, List.flatten_cons, List.flatMap_append]
    by_cases hend : count + b.length = size
    · rw [if_pos hend, flatten_nil_of_sum bs (by omega)]
      simp
    · rw [if_neg hend, ih (count + b.length) (by omega)]

/-- A scan that calls `lc_addName` for the entries that pass a test calls it
for those entries in order. -/
theorem flatMap_if (test : dirent → Bool) (f : dirent → addNameCall) (l : List dirent) :
    l.flatMap (fun d => if test d = true then [f d] else []) = (l.filter test).map f := by
  induction l with
  | nil => rfl
  | cons a l ih =>
    simp only [List.flatMap_cons, ih, List.filter_cons]
    split_ifs <;> simp

/-- C14: for a child directory whose size is the number of its entries,
`lc_compareDirectory` with `NULL` for the parent directory calls `lc_addName`
once for each child entry, with type `LC_ADDED`, bucket after bucket and in
list order within a bucket, and makes no other call. -/
theorem lc_compareDirectory_nil_parent (LC_DIRCACHE_SIZE : Nat)
    (dirLookup : inode → List Nat → Option Nat) (s : fs) (dir : inode)
    (hsize : ((dirBuckets LC_DIRCACHE_SIZE dir).map List.length).sum = dir.i_size) :
    lc_compareDirectory LC_DIRCACHE_SIZE dirLookup s dir none =
      some ((dirBuckets LC_DIRCACHE_SIZE dir).flatten.map addedCall) := by
  simp only [lc_compareDirectory]
  rw [scanBuckets_all _ _ _ 0 (by omega)]
  congr 1
  induction (dirBuckets LC_DIRCACHE_SIZE dir).flatten with
  | nil => rfl
  | cons a l ih => simp only [List.flatMap_cons, ih, List.map_cons, List.singleton_append]

/-- C14 at a concrete directory: a hashed directory with three entries in two
of its four buckets. -/
theorem lc_compareDirectory_nil_parent_witness :
    lc_compareDirectory 4 (lc_dirLookup 4) sampleLayer sampleHashed none =
      some ((dirBuckets 4 sampleHashed).flatten.map addedCall) :=
  lc_compareDirectory_nil_parent 4 (lc_dirLookup 4) sampleLayer sampleHashed (by decide)

/-- C15 (amended): in the name lookup of `lc_compareDirectory` with a parent
directory, both directories of a size that counts their entries, a child entry
is passed to `lc_addName` as added exactly when the lookup of its name in the
parent directory answers `LC_INVALID_INODE`, and a parent entry as removed
exactly when the lookup of its name in the child directory does; an entry whose
name the other directory holds, under whatever inode number, is not passed. -/
theorem lc_compareDirectory_lookup (LC_DIRCACHE_SIZE : Nat)
    (dirLookup : inode → List Nat → Option Nat) (s : fs) (dir pd : inode)
    (hstrategy : ¬ (((dir.i_ino = s.fs_root ∧ dir.i_fs = s.fs_id) ∨ pd.i_ino = dir.i_ino) ∧
      dir.i_flags.LC_INODE_DHASHED = pd.i_flags.LC_INODE_DHASHED))
    (hsize : ((dirBuckets LC_DIRCACHE_SIZE dir).map List.length).sum = dir.i_size)
    (hpsize : ((dirBuckets LC_DIRCACHE_SIZE pd).map List.length).sum = pd.i_size) :
    lc_compareDirectory LC_DIRCACHE_SIZE dirLookup s dir (some pd) =
      some (((dirBuckets LC_DIRCACHE_SIZE dir).flatten.filter
          (fun d => (dirLookup pd d.di_name).isNone)).map addedCall ++
        ((dirBuckets LC_DIRCACHE_SIZE pd).flatten.filter
          (fun p => (dirLookup dir p.di_name).isNone)).map removedCall) := by
  simp only [lc_compareDirectory, if_neg hstrategy]
  rw [scanBuckets_all _ _ _ 0 (by omega), scanBuckets_all _ _ _ 0 (by omega),
    ← flatMap_if, ← flatMap_if]
  simp only [Option.isNone_iff_eq_none]

/-- C15 at a concrete pair: the directory of inode 7 against the directory of
inode 4 of the same path in the parent layer. -/
theorem lc_compareDirectory_lookup_witness :
    lc_compareDirectory 4 (lc_dirLookup 4) sampleLayer sampleNew (some sampleOld) =
      some (((dirBuckets 4 sampleNew).flatten.filter
          (fun d => (lc_dirLookup 4 sampleOld d.di_name).isNone)).map addedCall ++
        ((dirBuckets 4 sampleOld).flatten.filter
          (fun p => (lc_dirLookup 4 sampleNew p.di_name).isNone)).map removedCall) :=
  lc_compareDirectory_lookup 4 (lc_dirLookup 4) sampleLayer sampleNew sampleOld
    (by decide) (by decide) (by decide)

/-- C15 as stated fails: the child directory holds "x" under inode 9, the parent
directory holds "x" under inode 5; the name lookup passes the child entry "n"
as added and the parent entry "o" as removed, and makes no call for "x". -/
theorem lc_compareDirectory_lookup_counterexample :
    (⟨9, [120], 1, 33188⟩ : dirent) ∈ sampleNew.i_dirent ∧
    lc_dirLookup 4 sampleOld [120] = some 5 ∧
    lc_compareDirectory 4 (lc_dirLookup 4) sampleLayer sampleNew (some sampleOld) =
      some [⟨10, [110], 33188, 1, LC_ADDED⟩, ⟨6, [111], 33188, 1, LC_REMOVED⟩] ∧
    ∀ calls, lc_compareDirectory 4 (lc_dirLookup 4) sampleLayer sampleNew (some sampleOld) =
      some calls → addedCall ⟨9, [120], 1, 33188⟩ ∉ calls := by
  refine ⟨by decide, by decide, by decide, ?_⟩
  intro calls h
  have hval : lc_compareDirectory 4 (lc_dirLookup 4) sampleLayer sampleNew (some sampleOld) =
      some [⟨10, [110], 33188, 1, LC_ADDED⟩, ⟨6, [111], 33188, 1, LC_REMOVED⟩] := by decide
  rw [hval] at h
  simp only [Option.some.injEq] at h
  subst h
  decide

/-! ### The lookup of the pre-image directory -/

/-- A buffer without NUL holds the C string of all its bytes. -/
theorem cstring_eq (name : List Nat) (h : 0 ∉ name) : cstring name = name := by
  unfold cstring
  rw [List.takeWhile_eq_self_iff]
  intro x hx
  have : x ≠ 0 := fun h0 => h (h0 ▸ hx)
  simpa using this

/-- The walk of the spec with the final test, one component further. -/
theorem resolvePath_cons (look : inode → List Nat → Option inode) (dir : inode)
    (c : List Nat) (cs : List (List Nat)) :
    (resolvePath look dir (c :: cs)).filter (fun d => S_ISDIR d.i_mode) =
      match look dir c with
      | some d =>
        if S_ISDIR d.i_mode then (resolvePath look d cs).filter (fun d => S_ISDIR d.i_mode)
        else none
      | none => none := by
  simp only [resolvePath]
  cases look dir c with
  | none => rfl
  | some d =>
    simp only
    split_ifs <;> rfl

/-- The walk of the spec over a list of components cut in two. -/
theorem resolvePath_append (look : inode → List Nat → Option inode) (pre cs : List (List Nat)) :
    ∀ dir, resolvePath look dir (pre ++ cs) =
      (resolvePath look dir pre).bind (fun d => resolvePath look d cs) := by
  induction pre with
  | nil => intro dir; simp [resolvePath]
  | cons c pre ih =>
    intro dir
    simp only [List.cons_append, resolvePath]
    cases look dir c with
    | none => rfl
    | some d =>
      simp only
      split_ifs
      · exact ih d
      · rfl

/-- The loop of `lc_pathLookup` from any point of a path without NUL: it walks
the components of what is left, the first of them begun with `name`. -/
theorem pathLoop_resolve (dirLookup : inode → List Nat → Option Nat)
    (getInode : Nat → Option inode) (bytes : List Nat) :
    ∀ (dir : inode) (name : List Nat), 47 ∉ name → 0 ∉ name → 0 ∉ bytes →
      pathLoop dirLookup getInode dir name bytes =
        (resolvePath (fun d c => (dirLookup d c).bind getInode) dir
          (((name ++ bytes).splitOn 47).filter (fun c => c ≠ []))).filter
          (fun d => S_ISDIR d.i_mode) := by
  induction bytes with
  | nil =>
    intro dir name hsep hnul _
    have hsingle : (name ++ []).splitOn 47 = [name] := by
      rw [List.append_nil]
      exact List.splitOnP_eq_single _ name (fun x hx => by
        have : x ≠ 47 := fun h => hsep (h ▸ hx)
        simpa using this)
    rw [hsingle]
    by_cases hname : name = []
    · subst hname
      simp only [pathLoop, ne_eq, not_true_eq_false, if_false, List.filter_cons,
        decide_False, Bool.false_eq_true, List.filter_nil, resolvePath, Option.filter]
    · have hkeep : List.filter (fun c => decide (c ≠ [])) [name] = [name] := by
        simp [hname]
      rw [hkeep, resolvePath_cons]
      simp only [pathLoop, ne_eq, hname, not_false_eq_true, if_true, lookupStep,
        cstring_eq name hnul]
      cases (dirLookup dir name).bind getInode with
      | none => rfl
      | some d =>
        simp only [resolvePath, Option.filter]
        split_ifs <;> rfl
  | cons c rest ih =>
    intro dir name hsep hnul hbytes
    have hrest : 0 ∉ rest := fun h => hbytes (List.mem_cons_of_mem _ h)
    have hc0 : c ≠ 0 := fun h => hbytes (h ▸ List.mem_cons_self _ _)
    by_cases hc : c = 47
    · subst hc
      have hsplit : (name ++ 47 :: rest).splitOn 47 = name :: rest.splitOn 47 :=
        List.splitOnP_first _ name (fun x hx => by
          have : x ≠ 47 := fun h => hsep (h ▸ hx)
          simpa using this) 47 (by simp) rest
      rw [hsplit]
      have hih := ih
      by_cases hname : name = []
      · subst hname
        have := hih dir [] (by simp) (by simp) hrest
        simp only [List.nil_append] at this
        simp only [pathLoop, ne_eq, not_true_eq_false, if_false, if_true, List.filter_cons,
          decide_False, Bool.false_eq_true]
        exact this
      · have hkeep : List.filter (fun c => decide (c ≠ [])) (name :: rest.splitOn 47) =
            name :: List.filter (fun c => decide (c ≠ [])) (rest.splitOn 47) := by
          simp [List.filter_cons, hname]
        rw [hkeep, resolvePath_cons]
        simp only [pathLoop, ne_eq, hname, not_false_eq_true, if_true, lookupStep,
          cstring_eq name hnul]
        cases (dirLookup dir name).bind getInode with
        | none => rfl
        | some d =>
          simp only
          split_ifs
          · have := hih d [] (by simp) (by simp) hrest
            simp only [List.nil_append] at this
            exact this
          · rfl
    · have hsep' : 47 ∉ name ++ [c] := by
        simp only [List.mem_append, List.mem_singleton, not_or]
        exact ⟨hsep, fun h => hc h.symm⟩
      have hnul' : 0 ∉ name ++ [c] := by
        simp only [List.mem_append, List.mem_singleton, not_or]
        exact ⟨hnul, fun h => hc0 h.symm⟩
      have := ih dir (name ++ [c]) hsep' hnul' hrest
      rw [List.append_assoc, List.singleton_append] at this
      simp only [pathLoop, if_neg hc]
      exact this

/-- C16: for an absolute path without NUL among its `len` bytes, `lc_pathLookup`
answers what the walk of the non-empty components of the path answers, each
component looked up by `lc_dirLookup` and `lc_getInode` in the directory
reached so far, from the root of the layer, every inode resolved being a
directory, the inode reached at the end too: the last inode when every
component resolves to a directory, `NULL` otherwise. For the path "/" it
answers the root directory; it answers `NULL` when a component, the last or
one on the way, is missing or resolves to no directory. -/
theorem lc_pathLookup_resolve (dirLookup : inode → List Nat → Option Nat)
    (getInode : Nat → Option inode) (root : inode) (path : List Nat) (len : Nat)
    (habs : path.head? = some 47) (hlen : len ≤ path.length) (hnul : 0 ∉ path.take len) :
    lc_pathLookup dirLookup getInode root path len =
      some ((resolvePath (fun d c => (dirLookup d c).bind getInode) root
        (components (path.take len))).filter (fun d => S_ISDIR d.i_mode)) ∧
    (path.take len = [47] → S_ISDIR root.i_mode = true →
      lc_pathLookup dirLookup getInode root path len = some (some root)) ∧
    ∀ (pre : List (List Nat)) (c : List Nat) (post : List (List Nat)) (d : inode),
      components (path.take len) = pre ++ c :: post →
      resolvePath (fun d c => (dirLookup d c).bind getInode) root pre = some d →
      (∀ e, (dirLookup d c).bind getInode = some e → S_ISDIR e.i_mode = false) →
      lc_pathLookup dirLookup getInode root path len = some none := by
  have hdrop : 0 ∉ (path.take len).drop 1 := fun h => hnul (List.mem_of_mem_drop h)
  have hmain : lc_pathLookup dirLookup getInode root path len =
      some ((resolvePath (fun d c => (dirLookup d c).bind getInode) root
        (components (path.take len))).filter (fun d => S_ISDIR d.i_mode)) := by
    have := pathLoop_resolve dirLookup getInode ((path.take len).drop 1) root []
      (by simp) (by simp) hdrop
    simp only [List.nil_append] at this
    simp only [lc_pathLookup, habs, hlen, and_self, if_true, this, components]
  refine ⟨hmain, ?_, ?_⟩
  · intro hroot hdir
    rw [hmain, hroot]
    simp [components, resolvePath, Option.filter, hdir]
  · intro pre c post d hcomp hpre hbad
    rw [hmain, hcomp, resolvePath_append, hpre]
    simp only [Option.some_bind, resolvePath]
    cases hlook : (dirLookup d c).bind getInode with
    | none => rfl
    | some e =>
      have := hbad e hlook
      simp [this, Option.filter]

/-- C16 at a concrete layer: the path "/d" in the parent layer resolves to the
directory of inode 4. -/
theorem lc_pathLookup_resolve_witness :
    (lc_pathLookup (lc_dirLookup 4) oldInodes oldRoot [47, 100] 2 =
      some ((resolvePath (fun d c => (lc_dirLookup 4 d c).bind oldInodes) oldRoot
        (components ([47, 100].take 2))).filter (fun d => S_ISDIR d.i_mode)) ∧
    (([47, 100] : List Nat).take 2 = [47] → S_ISDIR oldRoot.i_mode = true →
      lc_pathLookup (lc_dirLookup 4) oldInodes oldRoot [47, 100] 2 = some (some oldRoot)) ∧
    ∀ (pre : List (List Nat)) (c : List Nat) (post : List (List Nat)) (d : inode),
      components ([47, 100].take 2) = pre ++ c :: post →
      resolvePath (fun d c => (lc_dirLookup 4 d c).bind oldInodes) oldRoot pre = some d →
      (∀ e, (lc_dirLookup 4 d c).bind oldInodes = some e → S_ISDIR e.i_mode = false) →
      lc_pathLookup (lc_dirLookup 4) oldInodes oldRoot [47, 100] 2 = some none) ∧
    lc_pathLookup (lc_dirLookup 4) oldInodes oldRoot [47, 100] 2 = some (some emptyOld) :=
  ⟨lc_pathLookup_resolve (lc_dirLookup 4) oldInodes oldRoot [47, 100] 2 rfl (by decide)
    (by decide), by decide⟩

/-! ### The type of a directory record after the tree walk -/

/-- C17 (amended): `lc_addDirectoryTree` for a directory whose record and the
record of whose parent directory are in the change list, the lookup of the
pre-image directory in the parent layer answering `pre`. The record of the
directory gets the type `LC_MODIFIED` when the record of the parent directory
is `LC_MODIFIED` and the pre-image directory exists, with or without entries;
otherwise it keeps the type it had, and no other record changes. The pre-image
directory is handed to `lc_compareDirectory` only when it has an entry: for a
pre-image that is missing or empty the comparison is with `NULL`. -/
theorem lc_addDirectoryTree_type (dirLookup : inode → List Nat → Option Nat)
    (getInode : Nat → Option inode) (parentRoot : inode) (s : fs) (dir : inode) (k : Nat)
    (pcdir : Option Nat) (p : Nat) (pcd cd : cdir) (pre : Option inode)
    (hp : pcdir = some p ∨ (pcdir = none ∧ findCdir dir.i_parent s.fs_changes = some p))
    (hpcd : s.fs_changes[p]? = some pcd) (hcd : s.fs_changes[k]? = some cd)
    (hpre : preImage dirLookup getInode parentRoot s dir cd = some pre) :
    ∃ s' pdir, lc_addDirectoryTree dirLookup getInode parentRoot s dir k pcdir =
        some (s', pdir) ∧
      s'.fs_changes[k]? = some { cd with cd_type :=
        if pcd.cd_type = LC_MODIFIED ∧ pre.isSome then LC_MODIFIED else cd.cd_type } ∧
      pdir = (if pcd.cd_type = LC_MODIFIED then pre.filter (fun pd => pd.i_size ≠ 0)
        else none) ∧
      ∀ j, j ≠ k → s'.fs_changes[j]? = s.fs_changes[j]? := by
  have hk : k < s.fs_changes.length := by
    rcases List.getElem?_eq_some.mp hcd with ⟨h, _⟩
    exact h
  have hrun : lc_addDirectoryTree dirLookup getInode parentRoot s dir k pcdir =
      if pcd.cd_type = LC_MODIFIED then
        (pre.elim (some (s, none)) (fun pdir =>
          some ({ s with fs_changes := s.fs_changes.set k { cd with cd_type := LC_MODIFIED } },
            if pdir.i_size ≠ 0 then some pdir else none)))
      else some (s, none) := by
    rcases hp with rfl | ⟨rfl, hf⟩
    · cases pre <;> simp [lc_addDirectoryTree, hpcd, hcd, hpre]
    · cases pre <;> simp [lc_addDirectoryTree, hf, hpcd, hcd, hpre]
  rw [hrun]
  by_cases hmod : pcd.cd_type = LC_MODIFIED
  · cases pre with
    | none =>
      refine ⟨s, none, by simp [hmod], ?_, ?_, fun _ _ => rfl⟩
      · simp [hcd]
      · simp [hmod, Option.filter]
    | some pd =>
      refine ⟨{ s with fs_changes := s.fs_changes.set k { cd with cd_type := LC_MODIFIED } },
        if pd.i_size ≠ 0 then some pd else none, by simp [hmod], ?_, ?_, ?_⟩
      · simp [hmod, List.getElem?_set, hk]
      · simp only [hmod, if_true, Option.filter]
        split_ifs <;> simp_all
      · intro j hj
        simp [List.getElem?_set, Ne.symm hj]
  · refine ⟨s, none, by simp [hmod], ?_, ?_, fun _ _ => rfl⟩
    · simp [hcd, hmod]
    · simp [hmod]

/-- C17 at a concrete change list: the added directory "/d" under the root
record of type `LC_MODIFIED`, whose pre-image in the parent layer exists. -/
theorem lc_addDirectoryTree_type_witness :
    ∃ s' pdir, lc_addDirectoryTree (lc_dirLookup 4) oldInodes oldRoot sampleAdded sampleNew 1
        none = some (s', pdir) ∧
      s'.fs_changes[1]? = some { (⟨7, LC_ADDED, some [47, 100], 2, []⟩ : cdir) with cd_type :=
        if (⟨2, LC_MODIFIED, some [47], 1, []⟩ : cdir).cd_type = LC_MODIFIED ∧
          (some emptyOld).isSome then LC_MODIFIED
        else (⟨7, LC_ADDED, some [47, 100], 2, []⟩ : cdir).cd_type } ∧
      pdir = (if (⟨2, LC_MODIFIED, some [47], 1, []⟩ : cdir).cd_type = LC_MODIFIED then
        (some emptyOld).filter (fun pd => pd.i_size ≠ 0) else none) ∧
      ∀ j, j ≠ 1 → s'.fs_changes[j]? = sampleAdded.fs_changes[j]? :=
  lc_addDirectoryTree_type (lc_dirLookup 4) oldInodes oldRoot sampleAdded sampleNew 1 none 0
    ⟨2, LC_MODIFIED, some [47], 1, []⟩ ⟨7, LC_ADDED, some [47, 100], 2, []⟩ (some emptyOld)
    (Or.inr ⟨rfl, by decide⟩) (by decide) (by decide) (by decide)

/-- C17 as stated fails: the directory "/d" of the parent layer exists and has
no entry; the record of the added directory "/d" under the root record gets the
type `LC_MODIFIED`, and the comparison is with `NULL`. -/
theorem lc_addDirectoryTree_type_counterexample :
    lc_pathLookup (lc_dirLookup 4) oldInodes oldRoot [47, 100] 2 = some (some emptyOld) ∧
    emptyOld.i_size = 0 ∧ emptyOld.i_dirent = [] ∧
    sampleAdded.fs_changes[1]? = some ⟨7, LC_ADDED, some [47, 100], 2, []⟩ ∧
    lc_addDirectoryTree (lc_dirLookup 4) oldInodes oldRoot sampleAdded sampleNew 1 none =
      some ({ sampleAdded with fs_changes :=
        [⟨2, LC_MODIFIED, some [47], 1, []⟩, ⟨7, LC_MODIFIED, some [47, 100], 2, []⟩] },
        none) := by
  refine ⟨by decide, by decide, by decide, by decide, by decide⟩

/-! ### The errors of the driver -/

/-- C13: for a name other than ".", `lc_layerDiff` returns `EINVAL` exactly when
the name resolves to no layer, and then answers nothing and leaves the global
state as it is. For a layer that exists, swapping of layers on commit disabled
and a buffer of `LC_BLOCK_SIZE` bytes asked for, it answers the error `EIO`
exactly when the layer is removed, its root layer is in restart or it has no
parent layer, and then returns 0 and leaves the global state, so the change
list and the flags of every inode, as it is. -/
theorem lc_layerDiff_errors (LC_BLOCK_SIZE : Nat) (env : diffEnv) (g : gfs) (name : List Nat)
    (size : Nat) (hname : strcmp name [46] ≠ 0) :
    (env.getLayer name = none →
      lc_layerDiff LC_BLOCK_SIZE env g name size = some ⟨EINVAL, .silent, g⟩) ∧
    (∀ r, lc_layerDiff LC_BLOCK_SIZE env g name size = some r → r.ret = EINVAL →
      env.getLayer name = none) ∧
    ∀ i l, env.getLayer name = some i → g.gfs_layers[i]? = some l →
      g.gfs_swapLayersForCommit = false → size = LC_BLOCK_SIZE →
      (l.fs_removed = true ∨ l.fs_restarted = true ∨ l.fs_parent = none →
        lc_layerDiff LC_BLOCK_SIZE env g name size = some ⟨0, .err EIO, g⟩) ∧
      ∀ r, lc_layerDiff LC_BLOCK_SIZE env g name size = some r → r.answer = .err EIO →
        l.fs_removed = true ∨ l.fs_restarted = true ∨ l.fs_parent = none := by
  refine ⟨?_, ?_, ?_⟩
  · intro hnone
    simp only [lc_layerDiff, if_neg hname, hnone]
  · intro r hr hret
    cases hget : env.getLayer name with
    | none => rfl
    | some i =>
      exfalso
      simp only [lc_layerDiff, if_neg hname, hget] at hr
      repeat' split at hr
      all_goals first
        | (simp only [Option.some.injEq] at hr; subst hr; simp [EINVAL] at hret)
        | simp at hr
  · intro i l hget hl hswap hsize
    constructor
    · intro herr
      simp only [lc_layerDiff, if_neg hname, hget, hl, hswap, Bool.false_eq_true, if_false,
        hsize, ne_eq, not_true_eq_false, if_pos herr]
    · intro r hr hans
      by_contra hno
      simp only [lc_layerDiff, if_neg hname, hget, hl, hswap, Bool.false_eq_true, if_false,
        hsize, ne_eq, not_true_eq_false, if_neg hno] at hr
      repeat' split at hr
      all_goals first
        | (simp only [Option.some.injEq] at hr; subst hr; simp at hans)
        | simp at hr

/-- C13 at concrete states: the name "x" resolves to no layer; the layer "l" of
the second state is removed. -/
theorem lc_layerDiff_errors_witness :
    lc_layerDiff 4096 sampleDiffEnv diffWorld [120] 4096 =
      some ⟨EINVAL, .silent, diffWorld⟩ ∧
    lc_layerDiff 4096 sampleDiffEnv removedWorld [108] 4096 =
      some ⟨0, .err EIO, removedWorld⟩ :=
  ⟨(lc_layerDiff_errors 4096 sampleDiffEnv diffWorld [120] 4096 (by decide)).1 (by decide),
    ((lc_layerDiff_errors 4096 sampleDiffEnv removedWorld [108] 4096 (by decide)).2.2 0
      { diffLayer with fs_removed := true } (by decide) (by decide) rfl rfl).1
      (Or.inl rfl)⟩

/-! ### The call after the end of a diff -/

/-- Writing to a position of a list what it holds leaves the list as it is. -/
theorem set_self (l : List layer) (i : Nat) (a : layer) (h : l[i]? = some a) :
    l.set i a = l := by
  induction l generalizing i with
  | nil => rfl
  | cons b l ih =>
    cases i with
    | zero =>
      simp only [List.getElem?_cons_zero, Option.some.injEq] at h
      simp [h]
    | succ i =>
      simp only [List.getElem?_cons_succ] at h
      simp [ih i h]

/-- A layer differs from itself in nothing. -/
theorem sameInodes_refl (s : fs) : sameInodes s s :=
  ⟨rfl, rfl, rfl, rfl⟩

/-- Two steps that write the change list and the tracking flag only make one
such step. -/
theorem sameInodes_trans (a b c : fs) (h1 : sameInodes a b) (h2 : sameInodes b c) :
    sameInodes a c :=
  ⟨h2.1.trans h1.1, h2.2.1.trans h1.2.1, h2.2.2.1.trans h1.2.2.1, h2.2.2.2.trans h1.2.2.2⟩

/-- The traversal for the directories writes the change list and the tracking
flag only. -/
theorem dirPass_same (env : diffEnv) (lastIno : Nat) (henv : flagsOnly env) (js : List Nat) :
    ∀ s s', dirPass env lastIno js s = some s' → sameInodes s s' := by
  induction js with
  | nil =>
    intro s s' h
    simp only [dirPass, Option.some.injEq] at h
    subst h
    exact sameInodes_refl s
  | cons j js ih =>
    intro s s' h
    simp only [dirPass] at h
    cases hj : s.fs_icache[j]? with
    | none => simp [hj] at h
    | some inode =>
      simp only [hj] at h
      split_ifs at h
      · cases hadd : env.addDirectory s inode [] 0 lastIno
            (lc_changeInode inode.i_ino lastIno) with
        | none => simp [hadd] at h
        | some r =>
          obtain ⟨s1, k⟩ := r
          simp only [hadd] at h
          exact sameInodes_trans s s1 s' (henv.1 _ _ _ _ _ _ _ _ hadd) (ih s1 s' h)
      · exact ih s s' h

/-- The traversal for the files writes the change list and the tracking flag
only. -/
theorem filePass_same (env : diffEnv) (lastIno : Nat) (henv : flagsOnly env) (js : List Nat) :
    ∀ s s', filePass env lastIno js s = some s' → sameInodes s s' := by
  induction js with
  | nil =>
    intro s s' h
    simp only [filePass, Option.some.injEq] at h
    subst h
    exact sameInodes_refl s
  | cons j js ih =>
    intro s s' h
    simp only [filePass] at h
    cases hj : s.fs_icache[j]? with
    | none => simp [hj] at h
    | some inode =>
      simp only [hj] at h
      split_ifs at h
      · cases hadd : env.addModifiedInode s j lastIno with
        | none => simp [hadd] at h
        | some s1 =>
          simp only [hadd] at h
          exact sameInodes_trans s s1 s' (henv.2 _ _ _ _ hadd) (ih s1 s' h)
      · exact ih s s' h

/-- The build of the change list writes the change list and the tracking flag
only. -/
theorem buildChanges_same (env : diffEnv) (l : layer) (lastIno : Nat) (henv : flagsOnly env)
    (s : fs) (h : buildChanges env l lastIno = some s) : sameInodes l.tofs s := by
  simp only [buildChanges] at h
  cases hroot : l.fs_icache[l.fs_rootInode]? with
  | none => simp [hroot] at h
  | some root =>
    simp only [hroot] at h
    cases hadd : env.addDirectory l.tofs root [] 0 lastIno LC_MODIFIED with
    | none => simp [hadd] at h
    | some r =>
      obtain ⟨s1, k⟩ := r
      simp only [hadd] at h
      cases hdir : dirPass env lastIno (List.range s1.fs_icache.length) s1 with
      | none => simp [hdir] at h
      | some s2 =>
        simp only [hdir] at h
        exact sameInodes_trans _ s1 s (henv.1 _ _ _ _ _ _ _ _ hadd)
          (sameInodes_trans s1 s2 s (dirPass_same env lastIno henv _ s1 s2 hdir)
            (filePass_same env lastIno henv _ s2 s h))

/-- One call of `lc_layerDiff` from a state that differs from the state `g0`
in the change list of the layer `name` at most leads to such a state, when the
inodes of the layer carry no tracking flag in `g0`. -/
theorem lc_layerDiff_inv (B : Nat) (env : diffEnv) (g0 : gfs) (name : List Nat) (i : Nat)
    (l0 : layer) (henv : flagsOnly env) (hget : env.getLayer name = some i)
    (hi : i < g0.gfs_layers.length)
    (hclear : l0.fs_icache.map clearTracked = l0.fs_icache)
    (g' : gfs) (r : diffResult) (size : Nat)
    (hswap : g'.gfs_swapLayersForCommit = g0.gfs_swapLayersForCommit) (cl : List cdir)
    (hlayers : g'.gfs_layers = g0.gfs_layers.set i (withChanges l0 cl))
    (hr : lc_layerDiff B env g' name size = some r) :
    r.state.gfs_swapLayersForCommit = g0.gfs_swapLayersForCommit ∧
      ∃ cl', r.state.gfs_layers = g0.gfs_layers.set i (withChanges l0 cl') := by
  have hl' : g'.gfs_layers[i]? = some (withChanges l0 cl) := by
    rw [hlayers]
    exact List.getElem?_set_self hi
  simp only [lc_layerDiff, hget, hl'] at hr
  split_ifs at hr
  all_goals first
    | (simp only [Option.some.injEq] at hr; subst hr; exact ⟨hswap, cl, hlayers⟩)
    | skip
  · simp only [Option.some.injEq] at hr
    subst hr
    refine ⟨hswap, (replyLoop B l0.fs_root 0 cl).2.2, ?_⟩
    simp only [hlayers, List.set_set]
    rfl
  · cases hp : (withChanges l0 cl).fs_parent with
    | none => simp [hp] at hr
    | some lastIno =>
      simp only [hp] at hr
      cases hb : buildChanges env (withChanges l0 cl) lastIno with
      | none => simp [hb] at hr
      | some s =>
        simp only [hb, Option.some.injEq] at hr
        subst hr
        obtain ⟨h1, h2, h3, h4⟩ := buildChanges_same env _ lastIno henv s hb
        refine ⟨hswap, (replyLoop B s.fs_root 0 s.fs_changes).2.2, ?_⟩
        simp only [hlayers, List.set_set]
        congr 1
        simp only [withChanges, lc_replyDiff] at h1 h2 h3 h4 hp ⊢
        rw [hclear] at h4
        simp only [h1, h2, h3, h4, hp]

/-- Calls of `lc_layerDiff` from a state that differs from the state `g0` in
the change list of the layer `name` at most lead to such a state. -/
theorem layerDiffCalls_inv (B : Nat) (env : diffEnv) (g0 : gfs) (name : List Nat) (i : Nat)
    (l0 : layer) (henv : flagsOnly env) (hget : env.getLayer name = some i)
    (hi : i < g0.gfs_layers.length)
    (hclear : l0.fs_icache.map clearTracked = l0.fs_icache) (n : Nat) :
    ∀ (g' g : gfs) (cl : List cdir),
      g'.gfs_swapLayersForCommit = g0.gfs_swapLayersForCommit →
      g'.gfs_layers = g0.gfs_layers.set i (withChanges l0 cl) →
      layerDiffCalls B env name n g' = some g →
      g.gfs_swapLayersForCommit = g0.gfs_swapLayersForCommit ∧
        ∃ cl', g.gfs_layers = g0.gfs_layers.set i (withChanges l0 cl') := by
  induction n with
  | zero =>
    intro g' g cl hswap hlayers h
    simp only [layerDiffCalls, Option.some.injEq] at h
    subst h
    exact ⟨hswap, cl, hlayers⟩
  | succ n ih =>
    intro g' g cl hswap hlayers h
    simp only [layerDiffCalls] at h
    cases hr : lc_layerDiff B env g' name B with
    | none => simp [hr] at h
    | some r =>
      simp only [hr] at h
      obtain ⟨h1, cl1, h2⟩ := lc_layerDiff_inv B env g0 name i l0 henv hget hi hclear g' r B
        hswap cl hlayers hr
      exact ih r.state g cl1 h1 h2 h

/-- A layer with its own change list is the layer itself. -/
theorem withChanges_self (l : layer) : withChanges l l.fs_changes = l := by
  cases l
  rfl

/-- C12 (amended): a layer has an empty change list and no inode marked as
tracked, the state before the first call of a diff, and what `lc_layerDiff`
calls to build the change list writes the change list and the tracking flag
only. Once calls of `lc_layerDiff` for the layer have left its change list
empty again, as the call that answers the all-zero frame at the end of the
diff does, the global state is the state before the first call: the next call
starts the diff over and answers what the first call answered. -/
theorem lc_layerDiff_restart (LC_BLOCK_SIZE : Nat) (env : diffEnv) (g0 : gfs) (name : List Nat)
    (i : Nat) (l0 : layer) (n : Nat) (g : gfs) (henv : flagsOnly env)
    (hget : env.getLayer name = some i) (hl : g0.gfs_layers[i]? = some l0)
    (hfresh : l0.fs_changes = []) (hclear : l0.fs_icache.map clearTracked = l0.fs_icache)
    (hcalls : layerDiffCalls LC_BLOCK_SIZE env name n g0 = some g)
    (hdone : ∀ l, g.gfs_layers[i]? = some l → l.fs_changes = []) :
    g = g0 ∧
    lc_layerDiff LC_BLOCK_SIZE env g name LC_BLOCK_SIZE =
      lc_layerDiff LC_BLOCK_SIZE env g0 name LC_BLOCK_SIZE := by
  have hi : i < g0.gfs_layers.length := by
    rcases List.getElem?_eq_some.mp hl with ⟨h, _⟩
    exact h
  have hw : withChanges l0 [] = l0 := by
    rw [← hfresh]
    exact withChanges_self l0
  have h0 : g0.gfs_layers = g0.gfs_layers.set i (withChanges l0 []) := by
    rw [hw, set_self g0.gfs_layers i l0 hl]
  obtain ⟨hswap, cl, hlayers⟩ := layerDiffCalls_inv LC_BLOCK_SIZE env g0 name i l0 henv hget hi
    hclear n g0 g [] rfl h0 hcalls
  have hcl : cl = [] := by
    have := hdone (withChanges l0 cl) (by rw [hlayers]; exact List.getElem?_set_self hi)
    simpa [withChanges] using this
  have hg : g = g0 := by
    rw [hcl, ← h0] at hlayers
    cases g
    cases g0
    simp only at hswap hlayers
    rw [hswap, hlayers]
  exact ⟨hg, by rw [hg]⟩

/-- Clearing the tracking flag undoes setting it. -/
theorem clearTracked_setTracked (i : inode) : clearTracked (setTracked i) = clearTracked i :=
  rfl

/-- The tracking step of `lc_addName` writes the tracking flag only. -/
theorem trackInode_clear (fsid ino lastIno : Nat) (ic : List inode) :
    ∀ ic', trackInode fsid ino lastIno ic = some ic' →
      ic'.map clearTracked = ic.map clearTracked := by
  induction ic with
  | nil =>
    intro ic' h
    simp only [trackInode, Option.some.injEq] at h
    subst h
    rfl
  | cons a ic ih =>
    intro ic' h
    simp only [trackInode] at h
    split_ifs at h
    · simp only [Option.some.injEq] at h
      subst h
      simp [clearTracked_setTracked]
    · simp only [Option.some.injEq] at h
      subst h
      rfl
    · cases hrec : trackInode fsid ino lastIno ic with
      | none => simp [hrec] at h
      | some l =>
        simp only [hrec, Option.map_some', Option.some.injEq] at h
        subst h
        simp [ih l hrec]

/-- The calls of a walk over files, no directory among the entries resolved,
write the change list and the tracking flag only. -/
theorem runCalls_same (k lastIno : Nat) (calls : List addNameCall) :
    ∀ s s', runCalls (fun _ _ => none) (fun _ _ _ _ _ _ => none) k lastIno s calls = some s' →
      sameInodes s s' := by
  induction calls with
  | nil =>
    intro s s' h
    simp only [runCalls, Option.some.injEq] at h
    subst h
    exact sameInodes_refl s
  | cons c calls ih =>
    intro s s' h
    simp only [runCalls] at h
    cases hc : lc_addName (fun _ _ => none) (fun _ _ _ _ _ _ => none) s k lastIno c with
    | none => simp [hc] at h
    | some s1 =>
      simp only [hc] at h
      refine sameInodes_trans s s1 s' ?_ (ih s1 s' h)
      simp only [lc_addName] at hc
      by_cases hdir : S_ISDIR c.mode = true ∧ c.ctype ≠ LC_REMOVED
      · simp [hdir] at hc
      · simp only [if_neg hdir] at hc
        cases hcd : s.fs_changes[k]? with
        | none => simp [hcd] at hc
        | some cd =>
          simp only [hcd] at hc
          cases hf : lc_addFile cd c.ino c.name c.len c.ctype with
          | none => simp [hf] at hc
          | some cd' =>
            simp only [hf] at hc
            by_cases hrem : c.ctype ≠ LC_REMOVED
            · simp only [if_pos hrem] at hc
              cases ht : trackInode s.fs_id c.ino lastIno s.fs_icache with
              | none => simp [ht] at hc
              | some ic =>
                simp only [ht, Option.map_some', Option.some.injEq] at hc
                subst hc
                exact ⟨rfl, rfl, rfl, trackInode_clear _ _ _ _ ic ht⟩
            · simp only [if_neg hrem, Option.some.injEq] at hc
              subst hc
              exact ⟨rfl, rfl, rfl, rfl⟩

/-- The path builder writes the change list only. -/
theorem lc_addDirectoryPath_same (getDirent : fs → Nat → Nat → Option dirent) (s s' : fs)
    (ino parent : Nat) (new : cdir) (cdir : Option Nat) (name : List Nat) (len : Nat)
    (h : lc_addDirectoryPath getDirent s ino parent new cdir name len = some s') :
    sameInodes s s' := by
  simp only [lc_addDirectoryPath] at h
  repeat' split at h
  all_goals first
    | (simp only [Option.some.injEq] at h; subst h; exact ⟨rfl, rfl, rfl, rfl⟩)
    | simp at h

/-- The collaborators of the examples write the change list and the tracking
flag only. -/
theorem sampleDiffEnv_flagsOnly : flagsOnly sampleDiffEnv := by
  constructor
  · intro s dir name len lastIno ctype s' k h
    simp only [sampleDiffEnv, sampleAddDirectory] at h
    cases hfind : findCdir dir.i_ino s.fs_changes with
    | some k0 =>
      simp only [hfind, Option.some.injEq, Prod.mk.injEq] at h
      rw [← h.1]
      exact sameInodes_refl s
    | none =>
      simp only [hfind] at h
      cases hpath : lc_addDirectoryPath (fun _ _ _ => none) s dir.i_ino dir.i_parent
          ⟨dir.i_ino, ctype, none, 0, []⟩ none name len with
      | none => simp [hpath] at h
      | some s1 =>
        simp only [hpath] at h
        cases hcmp : lc_compareDirectory 4 (lc_dirLookup 4) (trackDir s1 dir.i_ino) dir none with
        | none => simp [hcmp] at h
        | some calls =>
          simp only [hcmp] at h
          cases hrun : runCalls (fun _ _ => none) (fun _ _ _ _ _ _ => none) 0 lastIno
              (trackDir s1 dir.i_ino) calls with
          | none => simp [hrun] at h
          | some s3 =>
            simp only [hrun, Option.map_some', Option.some.injEq, Prod.mk.injEq] at h
            rw [← h.1]
            refine sameInodes_trans s s1 s3 (lc_addDirectoryPath_same _ s s1 _ _ _ _ _ _ hpath)
              (sameInodes_trans s1 (trackDir s1 dir.i_ino) s3 ⟨rfl, rfl, rfl, ?_⟩
                (runCalls_same 0 lastIno calls _ s3 hrun))
            simp only [trackDir, List.map_map]
            congr 1
            funext i
            simp only [Function.comp]
            split_ifs
            · exact clearTracked_setTracked i
            · rfl
  · intro s j lastIno s' h
    simp [sampleDiffEnv] at h

/-- C12 at a concrete layer: the root directory holds the new file "f"; two
calls of `lc_layerDiff` leave the change list empty again, and the state is the
state before the first call. -/
theorem lc_layerDiff_restart_witness :
    layerDiffCalls 4096 sampleDiffEnv [108] 2 diffWorld = some diffWorld ∧
    diffWorld = diffWorld ∧
    lc_layerDiff 4096 sampleDiffEnv diffWorld [108] 4096 =
      lc_layerDiff 4096 sampleDiffEnv diffWorld [108] 4096 :=
  ⟨by decide, lc_layerDiff_restart 4096 sampleDiffEnv diffWorld [108] 0 diffLayer 2 diffWorld
    sampleDiffEnv_flagsOnly (by decide) (by decide) (by decide) (by decide) (by decide)
    (by
      intro l h
      simp only [diffWorld, List.getElem?_cons_zero, Option.some.injEq] at h
      subst h
      rfl)⟩

/-- C12 as stated fails: the root directory of the layer holds the new file
"f". The first call of `lc_layerDiff` builds the change list and answers the
records of "/" and "f"; the second call answers the all-zero frame and leaves
the change list empty, the state being the state before the first call; the
third call builds the change list again and answers the records of "/" and "f",
not the all-zero frame. -/
theorem lc_layerDiff_restart_counterexample :
    ∃ r1 r2 r3, lc_layerDiff 4096 sampleDiffEnv diffWorld [108] 4096 = some r1 ∧
      lc_layerDiff 4096 sampleDiffEnv r1.state [108] 4096 = some r2 ∧
      lc_layerDiff 4096 sampleDiffEnv r2.state [108] 4096 = some r3 ∧
      r2.answer = .buf (some (List.replicate 4096 0)) ∧
      r2.state = diffWorld ∧
      r3.answer = .buf (some ([0, 1, 0, 47, 1, 1, 0, 102] ++ List.replicate 4088 0)) ∧
      r3.answer ≠ .buf (some (List.replicate 4096 0)) := by
  have hbuilt : buildChanges sampleDiffEnv diffLayer 5 = some builtLayer := by decide
  have h1 : lc_layerDiff 4096 sampleDiffEnv diffWorld [108] 4096 =
      some ⟨0, .buf (replyFrame 4096 (lc_replyDiff 4096 builtLayer)), drainedWorld⟩ := by
    simp only [lc_layerDiff]
    rw [if_neg (by decide)]
    simp only [sampleDiffEnv, if_true, diffWorld, List.getElem?_cons_zero, Bool.false_eq_true,
      if_false, ne_eq, not_true_eq_false]
    rw [if_neg (by decide), if_neg (by decide)]
    have hp : diffLayer.fs_parent = some 5 := rfl
    simp only [hp]
    have hb : buildChanges ⟨fun name => if name = [108] then some 0 else none,
        sampleAddDirectory, fun _ _ _ => none⟩ diffLayer 5 = some builtLayer := hbuilt
    simp only [hb]
    rfl
  have h2 : lc_layerDiff 4096 sampleDiffEnv drainedWorld [108] 4096 =
      some ⟨0, .buf (replyFrame 4096
        (lc_replyDiff 4096 (withChanges diffLayer [⟨2, LC_NONE, none, 1, []⟩]).tofs)),
        diffWorld⟩ := by
    simp only [lc_layerDiff]
    rw [if_neg (by decide)]
    simp only [sampleDiffEnv, if_true, drainedWorld, List.getElem?_cons_zero,
      Bool.false_eq_true, if_false, ne_eq, not_true_eq_false]
    rw [if_neg (by decide), if_pos (by decide)]
    rfl
  have hzero : replyFrame 4096
      (lc_replyDiff 4096 (withChanges diffLayer [⟨2, LC_NONE, none, 1, []⟩]).tofs) =
      some (List.replicate 4096 0) := replyFrame_zero 4096 _ (by decide) (by decide)
  have hframe : replyFrame 4096 (lc_replyDiff 4096 builtLayer) =
      some ([0, 1, 0, 47, 1, 1, 0, 102] ++ List.replicate 4088 0) := by
    have hrec : (lc_replyDiff 4096 builtLayer).records =
        [⟨LC_NONE, 1, some [47]⟩, ⟨LC_ADDED, 1, some [102]⟩] := by decide
    have hsize : (lc_replyDiff 4096 builtLayer).size = 8 := by decide
    simp only [replyFrame, hrec, hsize, packRecords, packHeader, changeTypeCode]
    rfl
  refine ⟨_, _, _, h1, h2, h1, ?_, rfl, ?_, ?_⟩
  · simp only [hzero]
  · simp only [hframe]
  · simp only [hframe]
    intro h
    injection h with h
    injection h with h
    have hsum := congrArg List.sum h
    simp only [List.sum_append, List.sum_cons, List.sum_nil, List.sum_replicate,
      smul_eq_mul] at hsum
    omega

/-! ### The record left after the last records -/

/-- The file loop never moves the buffer offset back. -/
theorem emitFiles_size_le (B : Nat) (files : List cfile) (size : Nat) :
    size ≤ (emitFiles B size files).2.1 := by
  obtain ⟨done, _, _, h, _⟩ := emitFiles_spec B files size
  omega

/-- A run of the loop of `lc_replyDiff` with bytes in the buffer, at its start
or by the records it writes, that leaves nothing pending leaves one record
alone in the change list: without path, without file record and of type
`LC_NONE`. -/
theorem replyLoop_sentinel (B root : Nat) (l : List cdir) :
    ∀ size, l ≠ [] → (0 < size ∨ (replyLoop B root size l).1 ≠ []) →
      pending root (replyLoop B root size l).2.2 = [] →
      ∃ cd, (replyLoop B root size l).2.2 = [cd] ∧ cd.cd_path = none ∧ cd.cd_file = [] ∧
        cd.cd_type = LC_NONE := by
  induction l with
  | nil => intro size h; exact absurd rfl h
  | cons cd next ih =>
    intro size _ hbytes hdone
    by_cases hemit : (rootNone root cd).cd_type ≠ LC_NONE ∨ (rootNone root cd).cd_file ≠ []
    · by_cases hfit : size + ((rootNone root cd).cd_len + sizeofPchange) ≥ B
      · exfalso
        have hval : replyLoop B root size (cd :: next) = ([], size, rootNone root cd :: next) := by
          simp only [replyLoop, if_pos hemit, if_pos hfit]
        rw [hval] at hdone
        simp only [pending, List.append_eq_nil] at hdone
        by_cases hty : (rootNone root cd).cd_type = LC_NONE
        · rcases hemit with h | h
          · exact h hty
          · simp [hty, h] at hdone
        · simp [hty] at hdone
      · have hpos : 0 < (emitFiles B (size + ((rootNone root cd).cd_len + sizeofPchange))
            (rootNone root cd).cd_file).2.1 := by
          have := emitFiles_size_le B (rootNone root cd).cd_file
            (size + ((rootNone root cd).cd_len + sizeofPchange))
          simp only [sizeofPchange] at this ⊢
          omega
        by_cases hleft : (emitFiles B (size + ((rootNone root cd).cd_len + sizeofPchange))
            (rootNone root cd).cd_file).2.2 ≠ []
        · exfalso
          have hval : (replyLoop B root size (cd :: next)).2.2 =
              { rootNone root cd with cd_type := LC_NONE, cd_file :=
                (emitFiles B (size + ((rootNone root cd).cd_len + sizeofPchange))
                  (rootNone root cd).cd_file).2.2 } :: next := by
            simp only [replyLoop, if_pos hemit, if_neg hfit, if_pos hleft]
          rw [hval] at hdone
          simp only [pending, if_true, List.append_eq_nil, List.map_eq_nil_iff] at hdone
          exact hleft hdone.1
        · by_cases hnext : next ≠ []
          · have hval : (replyLoop B root size (cd :: next)).2.2 =
                (replyLoop B root (emitFiles B (size + ((rootNone root cd).cd_len +
                  sizeofPchange)) (rootNone root cd).cd_file).2.1 next).2.2 := by
              simp only [replyLoop, if_pos hemit, if_neg hfit, if_neg hleft,
                if_pos (Or.inl hnext)]
            rw [hval] at hdone ⊢
            exact ih _ hnext (Or.inl hpos) hdone
          · have hcond : ¬ (next ≠ [] ∨ (emitFiles B (size + ((rootNone root cd).cd_len +
                sizeofPchange)) (rootNone root cd).cd_file).2.1 = 0) := by
              intro h
              rcases h with h | h
              · exact hnext h
              · omega
            have hval : (replyLoop B root size (cd :: next)).2.2 =
                [{ rootNone root cd with cd_type := LC_NONE, cd_file := [], cd_path := none }] := by
              simp only [replyLoop, if_pos hemit, if_neg hfit, if_neg hleft, if_neg hcond]
            rw [hval]
            exact ⟨_, rfl, rfl, rfl, rfl⟩
    · have hnone : (rootNone root cd).cd_type = LC_NONE ∧ (rootNone root cd).cd_file = [] := by
        constructor
        · by_contra h
          exact hemit (Or.inl h)
        · by_contra h
          exact hemit (Or.inr h)
      by_cases hcond : next ≠ [] ∨ size = 0
      · have hval : replyLoop B root size (cd :: next) = replyLoop B root size next := by
          simp only [replyLoop, if_neg hemit, if_pos hcond]
        rw [hval] at hbytes hdone ⊢
        by_cases hnext : next ≠ []
        · exact ih size hnext hbytes hdone
        · exfalso
          have hnil : next = [] := not_not.mp hnext
          subst hnil
          rcases hcond with h | h
          · exact h rfl
          · rcases hbytes with hb | hb
            · omega
            · simp [replyLoop] at hb
      · have hval : (replyLoop B root size (cd :: next)).2.2 =
            [{ rootNone root cd with cd_path := none }] := by
          simp only [replyLoop, if_neg hemit, if_neg hcond]
        rw [hval]
        exact ⟨_, rfl, rfl, hnone.2, hnone.1⟩

/-- C21: when a call of `lc_replyDiff` writes records and leaves no record
pending, the change list afterwards holds exactly one record, without path,
without file record and of type `LC_NONE`; the next call answers the all-zero
frame and leaves the change list empty. -/
theorem lc_replyDiff_sentinel (LC_BLOCK_SIZE : Nat) (s : fs)
    (hrec : (lc_replyDiff LC_BLOCK_SIZE s).records ≠ [])
    (hdone : pending s.fs_root (lc_replyDiff LC_BLOCK_SIZE s).layer.fs_changes = []) :
    (∃ cd, (lc_replyDiff LC_BLOCK_SIZE s).layer.fs_changes = [cd] ∧ cd.cd_path = none ∧
      cd.cd_file = [] ∧ cd.cd_type = LC_NONE) ∧
    replyFrame LC_BLOCK_SIZE (lc_replyDiff LC_BLOCK_SIZE (lc_replyDiff LC_BLOCK_SIZE s).layer) =
      some (List.replicate LC_BLOCK_SIZE 0) ∧
    (lc_replyDiff LC_BLOCK_SIZE (lc_replyDiff LC_BLOCK_SIZE s).layer).layer.fs_changes = [] := by
  have hne : s.fs_changes ≠ [] := by
    intro h
    apply hrec
    simp [lc_replyDiff, h, replyLoop]
  obtain ⟨cd, hlist, hpath, hfile, htype⟩ :=
    replyLoop_sentinel LC_BLOCK_SIZE s.fs_root s.fs_changes 0 hne (Or.inr hrec) hdone
  have hrn := rootNone_of_none s.fs_root cd htype
  have hnoemit : ¬ ((rootNone s.fs_root cd).cd_type ≠ LC_NONE ∨
      (rootNone s.fs_root cd).cd_file ≠ []) := by
    rw [hrn]
    simp [htype, hfile]
  have hnext : replyLoop LC_BLOCK_SIZE s.fs_root 0 [cd] = ([], 0, []) := by
    simp only [replyLoop, if_neg hnoemit, or_true, if_true]
  have hlist' : (lc_replyDiff LC_BLOCK_SIZE s).layer.fs_changes = [cd] := hlist
  have hroot : (lc_replyDiff LC_BLOCK_SIZE s).layer.fs_root = s.fs_root := rfl
  refine ⟨⟨cd, hlist', hpath, hfile, htype⟩, ?_, ?_⟩
  · apply replyFrame_zero
    · simp only [lc_replyDiff] at hlist' hroot ⊢
      rw [hlist', hnext]
    · simp only [lc_replyDiff] at hlist' hroot ⊢
      rw [hlist', hnext]
  · simp only [lc_replyDiff] at hlist' hroot ⊢
    rw [hlist', hnext]

/-- C21 at a concrete change list: the root record with the added file "f"
goes out in one frame. -/
theorem lc_replyDiff_sentinel_witness :
    (∃ cd, (lc_replyDiff 4096 sampleRootDiff).layer.fs_changes = [cd] ∧ cd.cd_path = none ∧
      cd.cd_file = [] ∧ cd.cd_type = LC_NONE) ∧
    replyFrame 4096 (lc_replyDiff 4096 (lc_replyDiff 4096 sampleRootDiff).layer) =
      some (List.replicate 4096 0) ∧
    (lc_replyDiff 4096 (lc_replyDiff 4096 sampleRootDiff).layer).layer.fs_changes = [] :=
  lc_replyDiff_sentinel 4096 sampleRootDiff (by decide) (by decide)

/-! ### The record that ends on the boundary of the frame -/

/-- The records of a list whose bytes sum to less than `B`: each ends below `B`
at the offset the records before it give it. -/
theorem records_below (B : Nat) (records pre post : List pchange) (p : pchange)
    (hsum : (records.map (fun p => sizeofPchange + p.ch_len)).sum < B)
    (h : records = pre ++ p :: post) :
    (pre.map (fun p => sizeofPchange + p.ch_len)).sum + (p.ch_len + sizeofPchange) < B := by
  subst h
  simp only [List.map_append, List.map_cons, List.sum_append, List.sum_cons] at hsum
  omega

/-- C22 (amended): in a call of `lc_replyDiff` with a frame of `LC_BLOCK_SIZE`
bytes, the bytes used are the headers and paths of the records written, and
they stay below `LC_BLOCK_SIZE`: a frame never holds more than
`LC_BLOCK_SIZE - 1` bytes of records, every record written ending below the
boundary at the offset the records before it give it. When the call leaves a
record to report at the head of the change list, the record deferred did not
fit: the bytes used plus the header and path of the directory record, or of
its first file record left when the record of the directory is written, reach
or exceed `LC_BLOCK_SIZE`. At any turn of the two loops, `size` bytes of the
frame being used, the directory record at the head of the change list (one
with something to report) and the file record at the head of a file list are
deferred, the loop ending with the record left at the head of its list, when
`size` plus the header and the path of the record reaches or exceeds
`LC_BLOCK_SIZE`, also when the record would end exactly on the boundary, and
written at once when the sum stays below. -/
theorem lc_replyDiff_defer (LC_BLOCK_SIZE : Nat) (s : fs) (hB : 0 < LC_BLOCK_SIZE) :
    (lc_replyDiff LC_BLOCK_SIZE s).size =
      ((lc_replyDiff LC_BLOCK_SIZE s).records.map (fun p => sizeofPchange + p.ch_len)).sum ∧
    (lc_replyDiff LC_BLOCK_SIZE s).size ≤ LC_BLOCK_SIZE - 1 ∧
    (∀ pre p post, (lc_replyDiff LC_BLOCK_SIZE s).records = pre ++ p :: post →
      (pre.map (fun p => sizeofPchange + p.ch_len)).sum + (p.ch_len + sizeofPchange) <
        LC_BLOCK_SIZE) ∧
    (∀ cd next, (lc_replyDiff LC_BLOCK_SIZE s).layer.fs_changes = cd :: next →
      cd.cd_type ≠ LC_NONE ∨ cd.cd_file ≠ [] →
      (lc_replyDiff LC_BLOCK_SIZE s).size + (cd.cd_len + sizeofPchange) ≥ LC_BLOCK_SIZE ∨
      (cd.cd_type = LC_NONE ∧ ∃ cf rest, cd.cd_file = cf :: rest ∧
        (lc_replyDiff LC_BLOCK_SIZE s).size + (cf.cf_len + sizeofPchange) ≥ LC_BLOCK_SIZE)) ∧
    ∀ (root size : Nat) (cd : cdir) (next : List cdir) (cf : cfile) (rest : List cfile),
      ((rootNone root cd).cd_type ≠ LC_NONE ∨ (rootNone root cd).cd_file ≠ [] →
        (size + ((rootNone root cd).cd_len + sizeofPchange) ≥ LC_BLOCK_SIZE →
          replyLoop LC_BLOCK_SIZE root size (cd :: next) =
            ([], size, rootNone root cd :: next)) ∧
        (size + ((rootNone root cd).cd_len + sizeofPchange) < LC_BLOCK_SIZE →
          (replyLoop LC_BLOCK_SIZE root size (cd :: next)).1.head? =
            some (packDir (rootNone root cd)))) ∧
      (size + (cf.cf_len + sizeofPchange) ≥ LC_BLOCK_SIZE →
        emitFiles LC_BLOCK_SIZE size (cf :: rest) = ([], size, cf :: rest)) ∧
      (size + (cf.cf_len + sizeofPchange) < LC_BLOCK_SIZE →
        (emitFiles LC_BLOCK_SIZE size (cf :: rest)).1.head? = some (packFile cf)) := by
  obtain ⟨h1, h2, h3⟩ := replyLoop_defer LC_BLOCK_SIZE s.fs_root s.fs_changes 0
  have hlt := h2 hB
  have hsize : (lc_replyDiff LC_BLOCK_SIZE s).size =
      ((lc_replyDiff LC_BLOCK_SIZE s).records.map (fun p => sizeofPchange + p.ch_len)).sum := by
    simp only [lc_replyDiff]
    rw [h1]
    omega
  have hlt' : (lc_replyDiff LC_BLOCK_SIZE s).size < LC_BLOCK_SIZE := hlt
  refine ⟨hsize, by omega, ?_, h3, ?_⟩
  · intro pre p post h
    exact records_below LC_BLOCK_SIZE _ pre post p (by rw [← hsize]; exact hlt') h
  · intro root size cd next cf rest
    refine ⟨fun hemit => ⟨fun hfit => ?_, fun hfit => ?_⟩, fun hfit => ?_, fun hfit => ?_⟩
    · simp only [replyLoop, if_pos hemit, if_pos hfit]
    · have hno : ¬ size + ((rootNone root cd).cd_len + sizeofPchange) ≥ LC_BLOCK_SIZE := by
        omega
      simp only [replyLoop, if_pos hemit, if_neg hno]
      split_ifs <;> simp
    · simp only [emitFiles, if_pos hfit]
    · have hno : ¬ size + (cf.cf_len + sizeofPchange) ≥ LC_BLOCK_SIZE := by omega
      simp only [emitFiles, if_neg hno, List.head?_cons]

/-- C22 at a concrete call: the first frame of 4096 bytes for the root record
and sixteen file records of 4096 bytes in all holds 3874 bytes of records, and
the file record left, of 219 bytes of name, would have ended on the boundary;
at that turn of the file loop it is deferred. -/
theorem lc_replyDiff_defer_witness :
    (lc_replyDiff 4096 exactDiff).size ≤ 4096 - 1 ∧
    (∀ cd next, (lc_replyDiff 4096 exactDiff).layer.fs_changes = cd :: next →
      cd.cd_type ≠ LC_NONE ∨ cd.cd_file ≠ [] →
      (lc_replyDiff 4096 exactDiff).size + (cd.cd_len + sizeofPchange) ≥ 4096 ∨
      (cd.cd_type = LC_NONE ∧ ∃ cf rest, cd.cd_file = cf :: rest ∧
        (lc_replyDiff 4096 exactDiff).size + (cf.cf_len + sizeofPchange) ≥ 4096)) ∧
    emitFiles 4096 3874 [⟨exactName, 219, LC_ADDED⟩] =
      ([], 3874, [⟨exactName, 219, LC_ADDED⟩]) :=
  ⟨(lc_replyDiff_defer 4096 exactDiff (by decide)).2.1,
    (lc_replyDiff_defer 4096 exactDiff (by decide)).2.2.2.1,
    ((lc_replyDiff_defer 4096 exactDiff (by decide)).2.2.2.2 2 3874
      ⟨2, LC_NONE, some [47], 1, []⟩ [] ⟨exactName, 219, LC_ADDED⟩ []).2.1 (by decide)⟩

/-- C22 as stated fails: the records of the root directory and its sixteen files
take 4096 bytes, the last one ending on the boundary of a frame of 4096 bytes;
the first frame holds the record of the directory and fifteen file records in
3874 bytes, and the file record of 219 bytes of name is left for the next
frame. -/
theorem lc_replyDiff_defer_counterexample :
    ((serialize exactDiff.fs_root exactDiff.fs_changes).map
      (fun p => sizeofPchange + p.ch_len)).sum = 4096 ∧
    (serialize exactDiff.fs_root exactDiff.fs_changes).length = 17 ∧
    (lc_replyDiff 4096 exactDiff).records.length = 16 ∧
    (lc_replyDiff 4096 exactDiff).size = 3874 ∧
    3874 + (219 + sizeofPchange) = 4096 ∧
    (lc_replyDiff 4096 exactDiff).layer.fs_changes.map
      (fun cd => cd.cd_file.map cfile.cf_len) = [[219]] := by
  refine ⟨by decide, by decide, by decide, by decide, by decide, by decide⟩

/-! ### A file record that never shares a frame with its directory -/

/-- The wide path of the examples has 3840 bytes. -/
theorem widePath_length : widePath.length = 3840 := by
  simp only [widePath, List.length_flatten, List.map_replicate, List.length_cons,
    List.length_replicate, List.sum_replicate, smul_eq_mul]

/-- The first call of `lc_replyDiff` on the wide layer writes the record of the
directory alone. -/
theorem lc_replyDiff_wide :
    (lc_replyDiff 4096 wideLayer).records = [⟨LC_ADDED, 3840, some widePath⟩] ∧
    (lc_replyDiff 4096 wideLayer).size = 3843 ∧
    (lc_replyDiff 4096 wideLayer).layer = wideLeft := by
  have hpack := packDir_eq ⟨7, LC_ADDED, some widePath, 3840, [⟨longName, 255, LC_ADDED⟩]⟩
    widePath rfl widePath_length
  refine ⟨?_, ?_, ?_⟩ <;>
    simp [lc_replyDiff, wideLayer, wideLeft, replyLoop, rootNone, emitFiles, sizeofPchange,
      hpack]

/-- Every later call writes the record of the directory again, alone, and
leaves the layer as it found it. -/
theorem lc_replyDiff_wideLeft :
    (lc_replyDiff 4096 wideLeft).records = [⟨LC_NONE, 3840, some widePath⟩] ∧
    (lc_replyDiff 4096 wideLeft).size = 3843 ∧
    (lc_replyDiff 4096 wideLeft).layer = wideLeft := by
  have hpack := packDir_eq ⟨7, LC_NONE, some widePath, 3840, [⟨longName, 255, LC_ADDED⟩]⟩
    widePath rfl widePath_length
  refine ⟨?_, ?_, ?_⟩ <;>
    simp [lc_replyDiff, wideLeft, replyLoop, rootNone, emitFiles, sizeofPchange, hpack]

/-- The wide layer stays as the first frame left it, whatever the number of
calls. -/
theorem layerAfter_wideLeft (n : Nat) : layerAfter 4096 n wideLeft = wideLeft := by
  induction n with
  | zero => rfl
  | succ n ih =>
    simp only [layerAfter]
    rw [lc_replyDiff_wideLeft.2.2, ih]

/-- C23 at the failing input: the record of a directory with a path of 3840
bytes and its file record with a name of 255 bytes take 3843 and 258 bytes with
their headers, each less than the 4096 bytes of a frame, 4101 bytes together.
The first call of `lc_replyDiff` writes the record of the directory alone; every
call after it writes that record again, with type `LC_NONE`, and leaves the
change list as it found it: no call answers the all-zero frame and the file
record is never written. -/
theorem lc_replyDiff_never_done :
    (∀ cd ∈ wideLayer.fs_changes, cd.cd_len + sizeofPchange < 4096 ∧
      ∀ cf ∈ cd.cd_file, cf.cf_len + sizeofPchange < 4096) ∧
    widePath.length = 3840 ∧ longName.length = 255 ∧
    (lc_replyDiff 4096 wideLayer).records = [⟨LC_ADDED, 3840, some widePath⟩] ∧
    ∀ n, layerAfter 4096 (n + 1) wideLayer = wideLeft ∧
      (lc_replyDiff 4096 (layerAfter 4096 (n + 1) wideLayer)).records =
        [⟨LC_NONE, 3840, some widePath⟩] ∧
      (∀ p ∈ (lc_replyDiff 4096 (layerAfter 4096 (n + 1) wideLayer)).records,
        p ≠ packFile ⟨longName, 255, LC_ADDED⟩) ∧
      replyFrame 4096 (lc_replyDiff 4096 (layerAfter 4096 (n + 1) wideLayer)) ≠
        some (List.replicate 4096 0) := by
  refine ⟨by decide, widePath_length, longName_length, lc_replyDiff_wide.1, fun n => ?_⟩
  have hlayer : layerAfter 4096 (n + 1) wideLayer = wideLeft := by
    simp only [layerAfter]
    rw [lc_replyDiff_wide.2.2, layerAfter_wideLeft]
  rw [hlayer]
  refine ⟨rfl, lc_replyDiff_wideLeft.1, ?_, ?_⟩
  · intro p hp
    rw [lc_replyDiff_wideLeft.1, List.mem_singleton] at hp
    rw [hp]
    intro h
    have := congrArg pchange.ch_len h
    simp [packFile] at this
  · have hframe : replyFrame 4096 (lc_replyDiff 4096 wideLeft) =
        some ([0, 0, 15] ++ widePath ++ [] ++ List.replicate 253 0) := by
      unfold replyFrame
      rw [lc_replyDiff_wideLeft.1, lc_replyDiff_wideLeft.2.1]
      rfl
    rw [hframe]
    intro h
    have hsum := congrArg List.sum (Option.some.inj h)
    simp only [List.sum_append, List.sum_cons, List.sum_nil, List.sum_replicate,
      smul_eq_mul] at hsum
    omega

end Lcfs
